import Mathlib

/-!
# Verification of the rawzip ZIP archive library core

A shallow embedding of the rawzip reader/writer core (EOCD locator, central
directory iteration, entry addressing, CRC/size verifier, streaming writer,
path normalization, timestamps) together with proofs about the embedded code.

Bytes are modelled as `Nat` values (callers keep them `< 256`); byte strings
as `List Nat`.  Machine-integer wrap-around is made explicit with `% 2^w`
where the source relies on it.
-/

namespace Rawzip

/-- `(l.drop a).take (b - a)`: the bytes of `l` in the half-open range `[a, b)`;
the model of taking a subslice `&l[a..b]` (clamped at the ends). -/
def sliceBytes (l : List Nat) (a b : Nat) : List Nat :=
  (l.drop a).take (b - a)

/-- Model of `le_u16` in `utils.rs`: little-endian decode of two bytes. -/
def leU16 (d : List Nat) : Nat :=
  d.getD 0 0 + 256 * d.getD 1 0

/-- Model of `le_u32` in `utils.rs`: little-endian decode of four bytes. -/
def leU32 (d : List Nat) : Nat :=
  d.getD 0 0 + 256 * d.getD 1 0 + 256 ^ 2 * d.getD 2 0 + 256 ^ 3 * d.getD 3 0

/-- Model of `le_u64` in `utils.rs`: little-endian decode of eight bytes. -/
def leU64 (d : List Nat) : Nat :=
  d.getD 0 0 + 256 * d.getD 1 0 + 256 ^ 2 * d.getD 2 0 + 256 ^ 3 * d.getD 3 0 +
    256 ^ 4 * d.getD 4 0 + 256 ^ 5 * d.getD 5 0 + 256 ^ 6 * d.getD 6 0 + 256 ^ 7 * d.getD 7 0

/-- Little-endian encoding of `n` as two bytes (`u16::to_le_bytes`). -/
def le16 (n : Nat) : List Nat :=
  [n % 256, n / 256 % 256]

/-- Little-endian encoding of `n` as four bytes (`u32::to_le_bytes`). -/
def le32 (n : Nat) : List Nat :=
  [n % 256, n / 256 % 256, n / 256 ^ 2 % 256, n / 256 ^ 3 % 256]

/-- Little-endian encoding of `n` as eight bytes (`u64::to_le_bytes`). -/
def le64 (n : Nat) : List Nat :=
  [n % 256, n / 256 % 256, n / 256 ^ 2 % 256, n / 256 ^ 3 % 256,
   n / 256 ^ 4 % 256, n / 256 ^ 5 % 256, n / 256 ^ 6 % 256, n / 256 ^ 7 % 256]

/-!
## Positioned-read capability: `impl ReaderAt for &[u8]` (reader_at.rs)

The slice implementation computes `skip = self.len().min(offset)`, then copies
`len = data.len().min(buf.len())` bytes of `data = &self[skip..]` into the
buffer and returns `Ok(len)`.  The model returns the copied bytes themselves
(their count is the returned length); the source has no failing path.
-/

/-- Model of `<&[u8] as ReaderAt>::read_at`: the bytes copied into the caller's
buffer of length `bufLen` when reading slice `s` at `offset`. -/
def sliceReadAt (s : List Nat) (bufLen : Nat) (offset : Nat) : List Nat :=
  let skip := min s.length offset
  let data := s.drop skip
  data.take (min data.length bufLen)

theorem sliceReadAt_eq_sliceBytes (s : List Nat) (bufLen offset : Nat) :
    sliceReadAt s bufLen offset =
      sliceBytes s (min s.length offset)
        (min s.length offset + min bufLen (s.length - min s.length offset)) := by
  unfold sliceReadAt sliceBytes
  simp only [List.length_drop]
  congr 1
  omega

/-- C10: the slice `ReaderAt` is total: it returns exactly
`min (buf.len) (s.len − min (s.len) o)` bytes, copied from `s` starting at index
`min (s.len) o`, and it returns `0` bytes exactly when the offset is at or past
the end of the slice or the destination buffer is empty. -/
theorem sliceReadAt_total (s : List Nat) (bufLen offset : Nat) :
    sliceReadAt s bufLen offset =
      sliceBytes s (min s.length offset)
        (min s.length offset + min bufLen (s.length - min s.length offset)) ∧
    (sliceReadAt s bufLen offset).length = min bufLen (s.length - min s.length offset) ∧
    ((sliceReadAt s bufLen offset).length = 0 ↔ s.length ≤ offset ∨ bufLen = 0) := by
  refine ⟨sliceReadAt_eq_sliceBytes s bufLen offset, ?_, ?_⟩
  · unfold sliceReadAt
    simp only [List.length_take, List.length_drop]
    omega
  · unfold sliceReadAt
    simp only [List.length_take, List.length_drop]
    omega

/-!
## Error model (errors.rs)

`ErrorKind` variants that the embedded code can produce.  Payloads that the
claims never inspect (the UTF-8 error position, messages, io errors) are
dropped.
-/

inductive ErrKind where
  | missingEndOfCentralDirectory
  | missingZip64EndOfCentralDirectory
  | bufferTooSmall
  | invalidSignature (expected actual : Nat)
  | invalidChecksum (expected actual : Nat)
  | invalidSize (expected actual : Nat)
  | invalidUtf8
  | invalidInput
  | ioError
  | eof
  deriving Repr, DecidableEq

instance instDecEqExcept {ε α : Type} [DecidableEq ε] [DecidableEq α] :
    DecidableEq (Except ε α) := fun a b =>
  match a, b with
  | .error e, .error f =>
    if h : e = f then .isTrue (by rw [h]) else .isFalse (fun c => h (Except.error.inj c))
  | .ok x, .ok y =>
    if h : x = y then .isTrue (by rw [h]) else .isFalse (fun c => h (Except.ok.inj c))
  | .error _, .ok _ => .isFalse (fun c => Except.noConfusion c)
  | .ok _, .error _ => .isFalse (fun c => Except.noConfusion c)

/-!
## EOCD locator, slice side (locator.rs)
-/

/-- `END_OF_CENTRAL_DIR_SIGNAUTRE` (sic) in locator.rs. -/
def eocdSig : Nat := 0x06054b50

/-- `END_OF_CENTRAL_DIR_SIGNAUTRE_BYTES`: the little-endian bytes of the EOCD
signature. -/
def eocdSigBytes : List Nat := [0x50, 0x4B, 0x05, 0x06]

/-- Model of `backwards_find`: the index of the last window of `haystack` equal
to `needle` (`windows(n).rposition`). -/
def backwardsFind (haystack needle : List Nat) : Option Nat :=
  (List.range (haystack.length + 1 - needle.length)).reverse.find?
    (fun i => sliceBytes haystack i (i + needle.length) == needle)

/-- Model of `find_end_of_central_dir_signature`: last EOCD signature position
within the final `maxSearchSpace` bytes of `data`. -/
def findEocdSig (data : List Nat) (maxSearchSpace : Nat) : Option Nat :=
  let startSearch := data.length - maxSearchSpace
  (backwardsFind (data.drop startSearch) eocdSigBytes).map (· + startSearch)

/-- The fixed 22-byte end-of-central-directory record (locator.rs). -/
structure EocdRecordFixed where
  signature : Nat
  diskNumber : Nat
  eocdDisk : Nat
  numEntries : Nat
  totalEntries : Nat
  centralDirSize : Nat
  centralDirOffset : Nat
  commentLen : Nat
  deriving Repr, DecidableEq

/-- Model of `EndOfCentralDirectoryRecordFixed::parse`. -/
def EocdRecordFixed.parse (data : List Nat) : Except ErrKind EocdRecordFixed :=
  if data.length < 22 then .error .eof
  else
    let result : EocdRecordFixed :=
      { signature := leU32 (sliceBytes data 0 4)
        diskNumber := leU16 (sliceBytes data 4 6)
        eocdDisk := leU16 (sliceBytes data 6 8)
        numEntries := leU16 (sliceBytes data 8 10)
        totalEntries := leU16 (sliceBytes data 10 12)
        centralDirSize := leU32 (sliceBytes data 12 16)
        centralDirOffset := leU32 (sliceBytes data 16 20)
        commentLen := leU16 (sliceBytes data 20 22) }
    if result.signature ≠ eocdSig then
      .error (.invalidSignature eocdSig result.signature)
    else .ok result

/-- Model of `EndOfCentralDirectoryRecordFixed::is_zip64`: either 16-bit entry
count or the 32-bit central directory offset carries the ZIP64 sentinel. -/
def EocdRecordFixed.isZip64 (e : EocdRecordFixed) : Bool :=
  e.numEntries == 0xFFFF || e.centralDirOffset == 0xFFFFFFFF

/-- `END_OF_CENTRAL_DIR_LOCATOR_SIGNATURE` (archive.rs). -/
def zip64LocatorSig : Nat := 0x07064b50

/-- `END_OF_CENTRAL_DIR_SIGNATURE64` (archive.rs). -/
def zip64EocdSig : Nat := 0x06064b50

/-- The 20-byte ZIP64 end-of-central-directory locator record (locator.rs). -/
structure Zip64LocatorRecord where
  signature : Nat
  eocdDisk : Nat
  directoryOffset : Nat
  totalDisks : Nat
  deriving Repr, DecidableEq

/-- Model of `Zip64EndOfCentralDirectoryLocatorRecord::parse`. -/
def Zip64LocatorRecord.parse (data : List Nat) : Except ErrKind Zip64LocatorRecord :=
  if data.length < 20 then .error .eof
  else
    let result : Zip64LocatorRecord :=
      { signature := leU32 (sliceBytes data 0 4)
        eocdDisk := leU32 (sliceBytes data 4 8)
        directoryOffset := leU64 (sliceBytes data 8 16)
        totalDisks := leU32 (sliceBytes data 16 20) }
    if result.signature ≠ zip64LocatorSig then
      .error (.invalidSignature zip64LocatorSig result.signature)
    else .ok result

/-- The 56-byte ZIP64 end-of-central-directory record (archive.rs). -/
structure Zip64EocdRecord where
  signature : Nat
  size : Nat
  versionMadeBy : Nat
  versionNeeded : Nat
  diskNumber : Nat
  cdDisk : Nat
  numEntries : Nat
  totalEntries : Nat
  centralDirSize : Nat
  centralDirOffset : Nat
  deriving Repr, DecidableEq

/-- Model of `Zip64EndOfCentralDirectoryRecord::parse`. -/
def Zip64EocdRecord.parse (data : List Nat) : Except ErrKind Zip64EocdRecord :=
  if data.length < 56 then .error .eof
  else
    let result : Zip64EocdRecord :=
      { signature := leU32 (sliceBytes data 0 4)
        size := leU64 (sliceBytes data 4 12)
        versionMadeBy := leU16 (sliceBytes data 12 14)
        versionNeeded := leU16 (sliceBytes data 14 16)
        diskNumber := leU32 (sliceBytes data 16 20)
        cdDisk := leU32 (sliceBytes data 20 24)
        numEntries := leU64 (sliceBytes data 24 32)
        totalEntries := leU64 (sliceBytes data 32 40)
        centralDirSize := leU64 (sliceBytes data 40 48)
        centralDirOffset := leU64 (sliceBytes data 48 56) }
    if result.signature ≠ zip64EocdSig then
      .error (.invalidSignature zip64EocdSig result.signature)
    else .ok result

/-- The resolved `EndOfCentralDirectory` (archive.rs). -/
structure EndOfCentralDirectory where
  zip64 : Option Zip64EocdRecord
  eocd : EocdRecordFixed
  streamPos : Nat
  deriving Repr, DecidableEq

/-- Model of `EndOfCentralDirectory::base_offset`: 0 in the ZIP64 case,
otherwise `stream_pos` saturating-minus the central directory size
saturating-minus the central directory offset (`Nat` subtraction saturates). -/
def EndOfCentralDirectory.baseOffset (e : EndOfCentralDirectory) : Nat :=
  match e.zip64 with
  | some _ => 0
  | none => e.streamPos - e.eocd.centralDirSize - e.eocd.centralDirOffset

/-- Model of `EndOfCentralDirectory::end_position`. -/
def EndOfCentralDirectory.endPosition (e : EndOfCentralDirectory) : Nat :=
  e.streamPos

/-- Model of `EndOfCentralDirectory::offset` (start of the central directory). -/
def EndOfCentralDirectory.offset (e : EndOfCentralDirectory) : Nat :=
  match e.zip64 with
  | some z => z.centralDirOffset
  | none => e.baseOffset + e.eocd.centralDirOffset

/-- Model of `ZipLocator::locate_in_byte_slice` (locator.rs): signature search,
fixed EOCD parse, and optional ZIP64 locator + record resolution. -/
def locateInByteSlice (data : List Nat) (maxSearchSpace : Nat) :
    Except ErrKind EndOfCentralDirectory := do
  match findEocdSig data maxSearchSpace with
  | none => .error .missingEndOfCentralDirectory
  | some location =>
    let eocd ← EocdRecordFixed.parse (data.drop location)
    if !eocd.isZip64 then
      .ok { zip64 := none, eocd := eocd, streamPos := location }
    else
      let zip64l := data.drop (location - 20)
      let zip64Locator ← Zip64LocatorRecord.parse zip64l
      let zip64Eocd := data.drop (min zip64Locator.directoryOffset data.length)
      let zip64Record ← Zip64EocdRecord.parse zip64Eocd
      .ok { zip64 := some zip64Record, eocd := eocd,
            streamPos := zip64Locator.directoryOffset }

/-- C7: for every archive located from a byte slice, if the EOCD does not carry
a ZIP64 sentinel (entry count ≠ 0xFFFF and CD offset ≠ 0xFFFFFFFF) then no
ZIP64 record is attached and `base_offset` is the double saturating
subtraction `stream_pos -| cd_size -| cd_offset`; whenever a ZIP64 record was
resolved, `base_offset` is 0. -/
theorem baseOffset_spec (data : List Nat) (maxSearchSpace : Nat)
    (e : EndOfCentralDirectory)
    (h : locateInByteSlice data maxSearchSpace = .ok e) :
    (¬ (e.eocd.numEntries = 0xFFFF ∨ e.eocd.centralDirOffset = 0xFFFFFFFF) →
      e.zip64 = none ∧
      e.baseOffset = e.streamPos - e.eocd.centralDirSize - e.eocd.centralDirOffset) ∧
    (e.zip64.isSome → e.baseOffset = 0) := by
  constructor
  · intro hnot
    have hz : e.zip64 = none := by
      unfold locateInByteSlice at h
      rcases hfind : findEocdSig data maxSearchSpace with _ | location
      · rw [hfind] at h; exact absurd h (by simp)
      rw [hfind] at h
      dsimp only at h
      rcases hparse : EocdRecordFixed.parse (data.drop location) with k | eocd
      · rw [hparse] at h
        simp only [bind, Except.bind] at h
        simp at h
      rw [hparse] at h
      simp only [bind, Except.bind] at h
      by_cases h64 : eocd.isZip64
      · simp only [h64, Bool.not_true] at h
        rcases hl : Zip64LocatorRecord.parse (data.drop (location - 20)) with k | loc64
        · rw [hl] at h
          simp only [bind, Except.bind] at h
          simp at h
        rw [hl] at h
        simp only [bind, Except.bind] at h
        rcases hr : Zip64EocdRecord.parse (data.drop (min loc64.directoryOffset data.length))
          with k | rec64
        · rw [hr] at h
          simp only [bind, Except.bind] at h
          simp at h
        rw [hr] at h
        simp only [bind, Except.bind] at h
        simp only [Bool.false_eq_true, if_false, Except.ok.injEq] at h
        subst h
        -- the located record has the sentinel, contradicting `hnot`
        exfalso
        apply hnot
        unfold EocdRecordFixed.isZip64 at h64
        simp only [Bool.or_eq_true, beq_iff_eq] at h64
        exact h64
      · simp only [h64, Bool.not_false, if_true, Except.ok.injEq] at h
        subst h
        rfl
    exact ⟨hz, by simp [EndOfCentralDirectory.baseOffset, hz]⟩
  · intro hsome
    rcases hz : e.zip64 with _ | z
    · rw [hz] at hsome; simp at hsome
    · simp [EndOfCentralDirectory.baseOffset, hz]

/-!
## Local file headers, wayfinders and entry access (archive.rs)
-/

/-- `ZipLocalFileHeaderFixed::SIGNATURE`. -/
def localHeaderSig : Nat := 0x04034b50

/-- The fixed 30-byte local file header (archive.rs). -/
structure ZipLocalFileHeaderFixed where
  signature : Nat
  versionNeeded : Nat
  flags : Nat
  compressionMethod : Nat
  lastModTime : Nat
  lastModDate : Nat
  crc32 : Nat
  compressedSize : Nat
  uncompressedSize : Nat
  fileNameLen : Nat
  extraFieldLen : Nat
  deriving Repr, DecidableEq

/-- Model of `ZipLocalFileHeaderFixed::parse`. -/
def ZipLocalFileHeaderFixed.parse (data : List Nat) :
    Except ErrKind ZipLocalFileHeaderFixed :=
  if data.length < 30 then .error .eof
  else
    let result : ZipLocalFileHeaderFixed :=
      { signature := leU32 (sliceBytes data 0 4)
        versionNeeded := leU16 (sliceBytes data 4 6)
        flags := leU16 (sliceBytes data 6 8)
        compressionMethod := leU16 (sliceBytes data 8 10)
        lastModTime := leU16 (sliceBytes data 10 12)
        lastModDate := leU16 (sliceBytes data 12 14)
        crc32 := leU32 (sliceBytes data 14 18)
        compressedSize := leU32 (sliceBytes data 18 22)
        uncompressedSize := leU32 (sliceBytes data 22 26)
        fileNameLen := leU16 (sliceBytes data 26 28)
        extraFieldLen := leU16 (sliceBytes data 28 30) }
    if result.signature ≠ localHeaderSig then
      .error (.invalidSignature localHeaderSig result.signature)
    else .ok result

/-- Model of `ZipLocalFileHeaderFixed::variable_length`. -/
def ZipLocalFileHeaderFixed.variableLength (h : ZipLocalFileHeaderFixed) : Nat :=
  h.fileNameLen + h.extraFieldLen

/-- `ZipArchiveEntryWayfinder` (archive.rs): the owned per-entry key. -/
structure Wayfinder where
  uncompressedSize : Nat
  compressedSize : Nat
  localHeaderOffset : Nat
  crc : Nat
  hasDataDescriptor : Bool
  deriving Repr, DecidableEq

/-- `DataDescriptor::SIGNATURE`. -/
def dataDescriptorSig : Nat := 0x08074b50

/-- Model of `DataDescriptor::parse`: reads the CRC, skipping the optional
4-byte signature. -/
def dataDescriptorParse (data : List Nat) : Except ErrKind Nat :=
  if data.length < 8 then .error .eof
  else
    let pos := if leU32 (sliceBytes data 0 4) == dataDescriptorSig then 4 else 0
    .ok (leU32 (sliceBytes data pos (pos + 4)))

/-- Model of `DataDescriptor::read_at` over a slice-backed `ReaderAt`:
`read_exact_at` of 8 bytes fails with an io error (`UnexpectedEof`) when fewer
than 8 bytes are available. -/
def dataDescriptorReadAt (d : List Nat) (offset : Nat) : Except ErrKind Nat :=
  if d.length < offset + 8 then .error .ioError
  else dataDescriptorParse (sliceBytes d offset (offset + 8))

/-- The reader-mode `ZipEntry` (archive.rs), minus the archive back-pointer. -/
structure ZipEntry where
  bodyOffset : Nat
  bodyEndOffset : Nat
  deriving Repr, DecidableEq

/-- Model of `ZipEntry::compressed_data_range`. -/
def ZipEntry.compressedDataRange (e : ZipEntry) : Nat × Nat :=
  (e.bodyOffset, e.bodyEndOffset)

/-- Model of `ZipArchive::get_entry` with a slice-backed `ReaderAt` `d`:
`read_exact_at` of the 30-byte local header (io error when out of bounds),
signature verification, and body-offset computation.  The `?` early return of
the source is modelled by the explicit `match`. -/
def readerGetEntry (d : List Nat) (wf : Wayfinder) : Except ErrKind ZipEntry :=
  if d.length < wf.localHeaderOffset + 30 then .error .ioError
  else
    match ZipLocalFileHeaderFixed.parse
        (sliceBytes d wf.localHeaderOffset (wf.localHeaderOffset + 30)) with
    | .error k => .error k
    | .ok fileHeader =>
      let bodyOffset := wf.localHeaderOffset + 30 + fileHeader.variableLength
      .ok { bodyOffset := bodyOffset, bodyEndOffset := wf.compressedSize + bodyOffset }

/-- `ZipVerification` (archive.rs). -/
structure ZipVerification where
  crc : Nat
  uncompressedSize : Nat
  deriving Repr, DecidableEq

/-- The slice-mode entry (archive.rs): the compressed bytes, the verifier and
the absolute start offset of the compressed data. -/
structure SliceEntry where
  data : List Nat
  verifier : ZipVerification
  dataStartOffset : Nat
  deriving Repr, DecidableEq

/-- Model of `ZipSliceEntry::compressed_data_range`. -/
def SliceEntry.compressedDataRange (e : SliceEntry) : Nat × Nat :=
  (e.dataStartOffset, e.dataStartOffset + e.data.length)

/-- Model of `ZipSliceArchive::get_entry`; the `?` early returns of the source
are modelled by explicit `match`es. -/
def sliceGetEntry (d : List Nat) (wf : Wayfinder) : Except ErrKind SliceEntry :=
  let header := d.drop (min wf.localHeaderOffset d.length)
  match ZipLocalFileHeaderFixed.parse header with
  | .error k => .error k
  | .ok fileHeader =>
    let rest0 := header.drop 30
    let variableLength := fileHeader.variableLength
    if rest0.length < variableLength then .error .eof
    else
      let rest := rest0.drop variableLength
      if rest.length < wf.compressedSize then .error .eof
      else
        let data := rest.take wf.compressedSize
        let rest := rest.drop wf.compressedSize
        match (if wf.hasDataDescriptor then dataDescriptorParse rest else .ok wf.crc) with
        | .error k => .error k
        | .ok expectedCrc =>
          let dataStartOffset := wf.localHeaderOffset + 30 + fileHeader.variableLength
          .ok { data := data
                verifier := { crc := expectedCrc, uncompressedSize := wf.uncompressedSize }
                dataStartOffset := dataStartOffset }

/-!
## Central directory records (archive.rs)
-/

/-- `CENTRAL_HEADER_SIGNATURE`. -/
def centralHeaderSig : Nat := 0x02014b50

/-- The fixed 46-byte central directory file header (archive.rs). -/
structure ZipFileHeaderFixed where
  signature : Nat
  versionMadeBy : Nat
  versionNeeded : Nat
  flags : Nat
  compressionMethod : Nat
  lastModTime : Nat
  lastModDate : Nat
  crc32 : Nat
  compressedSize : Nat
  uncompressedSize : Nat
  fileNameLen : Nat
  extraFieldLen : Nat
  fileCommentLen : Nat
  diskNumberStart : Nat
  internalFileAttrs : Nat
  externalFileAttrs : Nat
  localHeaderOffset : Nat
  deriving Repr, DecidableEq

/-- Model of `ZipFileHeaderFixed::parse`. -/
def ZipFileHeaderFixed.parse (data : List Nat) : Except ErrKind ZipFileHeaderFixed :=
  if data.length < 46 then .error .eof
  else
    let result : ZipFileHeaderFixed :=
      { signature := leU32 (sliceBytes data 0 4)
        versionMadeBy := leU16 (sliceBytes data 4 6)
        versionNeeded := leU16 (sliceBytes data 6 8)
        flags := leU16 (sliceBytes data 8 10)
        compressionMethod := leU16 (sliceBytes data 10 12)
        lastModTime := leU16 (sliceBytes data 12 14)
        lastModDate := leU16 (sliceBytes data 14 16)
        crc32 := leU32 (sliceBytes data 16 20)
        compressedSize := leU32 (sliceBytes data 20 24)
        uncompressedSize := leU32 (sliceBytes data 24 28)
        fileNameLen := leU16 (sliceBytes data 28 30)
        extraFieldLen := leU16 (sliceBytes data 30 32)
        fileCommentLen := leU16 (sliceBytes data 32 34)
        diskNumberStart := leU16 (sliceBytes data 34 36)
        internalFileAttrs := leU16 (sliceBytes data 36 38)
        externalFileAttrs := leU32 (sliceBytes data 38 42)
        localHeaderOffset := leU32 (sliceBytes data 42 46) }
    if result.signature ≠ centralHeaderSig then
      .error (.invalidSignature centralHeaderSig result.signature)
    else .ok result

/-- Model of `ZipFileHeaderFixed::variable_length`. -/
def ZipFileHeaderFixed.variableLength (h : ZipFileHeaderFixed) : Nat :=
  h.fileNameLen + h.extraFieldLen + h.fileCommentLen

/-- Model of `ZipFileHeaderFixed::parse_variable_length`: splits off the file
name, extra field and comment, or `none` when the data is too short. -/
def ZipFileHeaderFixed.parseVariableLength (h : ZipFileHeaderFixed) (data : List Nat) :
    Option (List Nat × List Nat × List Nat × List Nat) :=
  if data.length < h.fileNameLen then none
  else
    let fileName := data.take h.fileNameLen
    let rest := data.drop h.fileNameLen
    if rest.length < h.extraFieldLen then none
    else
      let extraField := rest.take h.extraFieldLen
      let rest := rest.drop h.extraFieldLen
      if rest.length < h.fileCommentLen then none
      else
        let fileComment := rest.take h.fileCommentLen
        let rest := rest.drop h.fileCommentLen
        some (fileName, extraField, fileComment, rest)

/-- The borrowed central directory record (archive.rs), with the four
widenable fields already widened to 64 bits. -/
structure ZipFileHeaderRecord where
  signature : Nat
  versionMadeBy : Nat
  versionNeeded : Nat
  flags : Nat
  compressionMethod : Nat
  lastModTime : Nat
  lastModDate : Nat
  crc32 : Nat
  compressedSize : Nat
  uncompressedSize : Nat
  fileNameLen : Nat
  extraFieldLen : Nat
  fileCommentLen : Nat
  diskNumberStart : Nat
  internalFileAttrs : Nat
  externalFileAttrs : Nat
  localHeaderOffset : Nat
  fileName : List Nat
  extraField : List Nat
  fileComment : List Nat
  isZip64 : Bool
  deriving Repr, DecidableEq

/-- The body of the ZIP64 extra-field loop in
`ZipFileHeaderRecord::from_parts`: reads the sentinelled fields from the ZIP64
extended-information field data, in the documented order, stopping at the
first field that cannot be read. -/
def applyZip64Field (header : ZipFileHeaderFixed) (r : ZipFileHeaderRecord)
    (field : List Nat) : ZipFileHeaderRecord :=
  let r := { r with isZip64 := true }
  if header.uncompressedSize = 0xFFFFFFFF ∧ field.length < 8 then r
  else
    let (r, field) :=
      if header.uncompressedSize = 0xFFFFFFFF then
        ({ r with uncompressedSize := leU64 (field.take 8) }, field.drop 8)
      else (r, field)
    if header.compressedSize = 0xFFFFFFFF ∧ field.length < 8 then r
    else
      let (r, field) :=
        if header.compressedSize = 0xFFFFFFFF then
          ({ r with compressedSize := leU64 (field.take 8) }, field.drop 8)
        else (r, field)
      if header.localHeaderOffset = 0xFFFFFFFF ∧ field.length < 8 then r
      else
        let (r, field) :=
          if header.localHeaderOffset = 0xFFFFFFFF then
            ({ r with localHeaderOffset := leU64 (field.take 8) }, field.drop 8)
          else (r, field)
        if header.diskNumberStart = 0xFFFF ∧ field.length < 4 then r
        else if header.diskNumberStart = 0xFFFF then
          { r with diskNumberStart := leU32 (field.take 4) }
        else r

/-- The extra-field scanning loop in `ZipFileHeaderRecord::from_parts`: walks
`kind/size`-prefixed extra fields and applies the first ZIP64
extended-information field (id 0x0001); the loop ends after it. -/
def zip64WidenLoop (header : ZipFileHeaderFixed) (r : ZipFileHeaderRecord)
    (extraFields : List Nat) : ZipFileHeaderRecord :=
  if _h4 : extraFields.length < 4 then r
  else
    let kind := leU16 (sliceBytes extraFields 0 2)
    let size := leU16 (sliceBytes extraFields 2 4)
    let fields := extraFields.drop 4
    let endPos := min size fields.length
    let field := fields.take endPos
    let rest := fields.drop endPos
    if kind ≠ 0x0001 then zip64WidenLoop header r rest
    else applyZip64Field header r field
  termination_by extraFields.length
  decreasing_by
    simp only [List.length_drop]
    omega

/-- Model of `ZipFileHeaderRecord::from_parts`: assembles the record and, if
any widenable field carries a sentinel, scans the extra field for the ZIP64
extended information. -/
def ZipFileHeaderRecord.fromParts (header : ZipFileHeaderFixed)
    (fileName extraField fileComment : List Nat) : ZipFileHeaderRecord :=
  let result : ZipFileHeaderRecord :=
    { signature := header.signature
      versionMadeBy := header.versionMadeBy
      versionNeeded := header.versionNeeded
      flags := header.flags
      compressionMethod := header.compressionMethod
      lastModTime := header.lastModTime
      lastModDate := header.lastModDate
      crc32 := header.crc32
      compressedSize := header.compressedSize
      uncompressedSize := header.uncompressedSize
      fileNameLen := header.fileNameLen
      extraFieldLen := header.extraFieldLen
      fileCommentLen := header.fileCommentLen
      diskNumberStart := header.diskNumberStart
      internalFileAttrs := header.internalFileAttrs
      externalFileAttrs := header.externalFileAttrs
      localHeaderOffset := header.localHeaderOffset
      fileName := fileName
      extraField := extraField
      fileComment := fileComment
      isZip64 := false }
  if result.uncompressedSize ≠ 0xFFFFFFFF ∧ result.compressedSize ≠ 0xFFFFFFFF ∧
      result.localHeaderOffset ≠ 0xFFFFFFFF ∧ result.diskNumberStart ≠ 0xFFFF then
    result
  else
    zip64WidenLoop header result extraField

/-- The slice-backed central directory iterator state (archive.rs). -/
structure ZipSliceEntriesState where
  entryData : List Nat
  baseOffset : Nat
  deriving Repr, DecidableEq

/-- Model of `ZipSliceEntries::next_entry`: `Ok(None)` on empty data, a parse
error (notably `InvalidSignature`) is propagated with `?`, the variable part
failing to split is `Eof`, and the local header offset is rebased. -/
def ZipSliceEntriesState.nextEntry (s : ZipSliceEntriesState) :
    Except ErrKind (Option (ZipFileHeaderRecord × ZipSliceEntriesState)) :=
  if s.entryData.isEmpty then .ok none
  else
    match ZipFileHeaderFixed.parse s.entryData with
    | .error k => .error k
    | .ok fileHeader =>
      let entryData := s.entryData.drop 46
      match fileHeader.parseVariableLength entryData with
      | none => .error .eof
      | some (fileName, extraField, fileComment, entryData) =>
        let entry := ZipFileHeaderRecord.fromParts fileHeader fileName extraField fileComment
        let entry := { entry with localHeaderOffset := entry.localHeaderOffset + s.baseOffset }
        .ok (some (entry, { entryData := entryData, baseOffset := s.baseOffset }))

/-!
## Slice algebra lemmas
-/

theorem sliceBytes_drop (l : List Nat) (a b c : Nat) :
    sliceBytes (l.drop a) b c = sliceBytes l (a + b) (a + c) := by
  unfold sliceBytes
  rw [List.drop_drop]
  congr 1
  omega

theorem sliceBytes_sliceBytes (l : List Nat) (a b c e : Nat) (hce : c ≤ e)
    (heb : a + e ≤ b) :
    sliceBytes (sliceBytes l a b) c e = sliceBytes l (a + c) (a + e) := by
  unfold sliceBytes
  rw [List.drop_take, List.take_take, List.drop_drop]
  congr 1
  omega

/-- Inversion of `ZipLocalFileHeaderFixed.parse`: a successful parse pins every
field of the header to the little-endian decode of its byte range, the data is
at least 30 bytes, and the signature matched. -/
theorem localParse_ok {data : List Nat} {h : ZipLocalFileHeaderFixed}
    (hp : ZipLocalFileHeaderFixed.parse data = .ok h) :
    30 ≤ data.length ∧
    h = { signature := leU32 (sliceBytes data 0 4)
          versionNeeded := leU16 (sliceBytes data 4 6)
          flags := leU16 (sliceBytes data 6 8)
          compressionMethod := leU16 (sliceBytes data 8 10)
          lastModTime := leU16 (sliceBytes data 10 12)
          lastModDate := leU16 (sliceBytes data 12 14)
          crc32 := leU32 (sliceBytes data 14 18)
          compressedSize := leU32 (sliceBytes data 18 22)
          uncompressedSize := leU32 (sliceBytes data 22 26)
          fileNameLen := leU16 (sliceBytes data 26 28)
          extraFieldLen := leU16 (sliceBytes data 28 30) } ∧
    h.signature = localHeaderSig := by
  unfold ZipLocalFileHeaderFixed.parse at hp
  split at hp
  · simp at hp
  · rename_i hlen
    dsimp only at hp
    split at hp
    · simp at hp
    · rename_i hsig
      simp only [Except.ok.injEq] at hp
      subst hp
      refine ⟨by omega, rfl, ?_⟩
      simpa using hsig

/-- The failure of `ZipLocalFileHeaderFixed.parse` on a wrong signature when
enough bytes are present. -/
theorem localParse_badSig {data : List Nat}
    (hlen : 30 ≤ data.length) (hsig : leU32 (sliceBytes data 0 4) ≠ localHeaderSig) :
    ZipLocalFileHeaderFixed.parse data =
      .error (.invalidSignature localHeaderSig (leU32 (sliceBytes data 0 4))) := by
  unfold ZipLocalFileHeaderFixed.parse
  rw [if_neg (by omega)]
  rw [if_pos hsig]

/-- The variable-length part of the local header at offset `lho` of the backing
data: `file_name_len + extra_field_len` as little-endian reads of the backing
bytes. -/
def localVariableLength (d : List Nat) (lho : Nat) : Nat :=
  leU16 (sliceBytes d (lho + 26) (lho + 28)) + leU16 (sliceBytes d (lho + 28) (lho + 30))

/-- C5: for both access modes, a successfully fetched entry has
`compressed_data_range = [LHO + 30 + file_name_len + extra_field_len, · + compressed_size)`
with the two lengths taken from the local file header at
`wayfinder.local_header_offset`, and a local header whose signature bytes do
not match `0x04034b50` makes both `get_entry` variants fail with
`InvalidSignature {expected, actual}`. -/
theorem getEntry_spec (d : List Nat) (wf : Wayfinder) :
    ((readerGetEntry d wf).isOk →
      (readerGetEntry d wf).map ZipEntry.compressedDataRange =
        .ok (wf.localHeaderOffset + 30 + localVariableLength d wf.localHeaderOffset,
          wf.localHeaderOffset + 30 + localVariableLength d wf.localHeaderOffset +
            wf.compressedSize)) ∧
    ((sliceGetEntry d wf).isOk →
      (sliceGetEntry d wf).map SliceEntry.compressedDataRange =
        .ok (wf.localHeaderOffset + 30 + localVariableLength d wf.localHeaderOffset,
          wf.localHeaderOffset + 30 + localVariableLength d wf.localHeaderOffset +
            wf.compressedSize)) ∧
    (wf.localHeaderOffset + 30 ≤ d.length →
      leU32 (sliceBytes d wf.localHeaderOffset (wf.localHeaderOffset + 4)) ≠ localHeaderSig →
      readerGetEntry d wf =
        .error (.invalidSignature localHeaderSig
          (leU32 (sliceBytes d wf.localHeaderOffset (wf.localHeaderOffset + 4)))) ∧
      sliceGetEntry d wf =
        .error (.invalidSignature localHeaderSig
          (leU32 (sliceBytes d wf.localHeaderOffset (wf.localHeaderOffset + 4))))) := by
  refine ⟨?_, ?_, ?_⟩
  · intro hok
    unfold readerGetEntry at hok ⊢
    by_cases hlen : d.length < wf.localHeaderOffset + 30
    · rw [if_pos hlen] at hok
      simp [Except.isOk, Except.toBool] at hok
    rw [if_neg hlen] at hok ⊢
    rcases hp : ZipLocalFileHeaderFixed.parse
        (sliceBytes d wf.localHeaderOffset (wf.localHeaderOffset + 30)) with k | fh
    · rw [hp] at hok
      simp [Except.isOk, Except.toBool] at hok
    obtain ⟨-, hfh, -⟩ := localParse_ok hp
    have h1 : fh.fileNameLen =
        leU16 (sliceBytes d (wf.localHeaderOffset + 26) (wf.localHeaderOffset + 28)) := by
      rw [hfh]
      dsimp only
      rw [sliceBytes_sliceBytes d _ _ 26 28 (by omega) (by omega)]
    have h2 : fh.extraFieldLen =
        leU16 (sliceBytes d (wf.localHeaderOffset + 28) (wf.localHeaderOffset + 30)) := by
      rw [hfh]
      dsimp only
      rw [sliceBytes_sliceBytes d _ _ 28 30 (by omega) (by omega)]
    simp only [Except.map, ZipEntry.compressedDataRange, Except.ok.injEq, Prod.mk.injEq]
    unfold ZipLocalFileHeaderFixed.variableLength at h1 h2 ⊢
    unfold localVariableLength
    omega
  · intro hok
    unfold sliceGetEntry at hok ⊢
    dsimp only at hok ⊢
    rcases hp : ZipLocalFileHeaderFixed.parse (d.drop (min wf.localHeaderOffset d.length))
        with k | fh
    · rw [hp] at hok
      simp [Except.isOk, Except.toBool] at hok
    rw [hp] at hok
    dsimp only at hok ⊢
    obtain ⟨hlen30, hfh, -⟩ := localParse_ok hp
    have hmin : min wf.localHeaderOffset d.length = wf.localHeaderOffset := by
      by_cases hle : wf.localHeaderOffset ≤ d.length
      · omega
      · exfalso
        simp only [List.length_drop] at hlen30
        omega
    rw [hmin] at hfh hlen30
    have h1 : fh.fileNameLen =
        leU16 (sliceBytes d (wf.localHeaderOffset + 26) (wf.localHeaderOffset + 28)) := by
      rw [hfh]
      dsimp only
      rw [sliceBytes_drop]
    have h2 : fh.extraFieldLen =
        leU16 (sliceBytes d (wf.localHeaderOffset + 28) (wf.localHeaderOffset + 30)) := by
      rw [hfh]
      dsimp only
      rw [sliceBytes_drop]
    split at hok
    · simp [Except.isOk, Except.toBool] at hok
    · rename_i hv
      rw [if_neg hv]
      split at hok
      · simp [Except.isOk, Except.toBool] at hok
      · rename_i hc
        rw [if_neg hc]
        rcases hcrc : (if wf.hasDataDescriptor then
            dataDescriptorParse
              ((((d.drop (min wf.localHeaderOffset d.length)).drop 30).drop
                  fh.variableLength).drop wf.compressedSize)
            else .ok wf.crc) with k | crc
        · rw [hcrc] at hok
          simp [Except.isOk, Except.toBool] at hok
        simp only [Except.map, SliceEntry.compressedDataRange, Except.ok.injEq,
          Prod.mk.injEq, List.length_take, List.length_drop]
        rw [not_lt] at hc
        simp only [List.length_drop] at hc
        simp only [ZipLocalFileHeaderFixed.variableLength] at hv hc ⊢
        unfold localVariableLength
        omega
  · intro hlen hsig
    have hr : ZipLocalFileHeaderFixed.parse
        (sliceBytes d wf.localHeaderOffset (wf.localHeaderOffset + 30)) =
        .error (.invalidSignature localHeaderSig
          (leU32 (sliceBytes d wf.localHeaderOffset (wf.localHeaderOffset + 4)))) := by
      have hlenS : 30 ≤ (sliceBytes d wf.localHeaderOffset (wf.localHeaderOffset + 30)).length := by
        unfold sliceBytes
        simp only [List.length_take, List.length_drop]
        omega
      have := localParse_badSig hlenS
      rw [sliceBytes_sliceBytes d _ _ 0 4 (by omega) (by omega)] at this
      simpa using this hsig
    have hs : ZipLocalFileHeaderFixed.parse (d.drop (min wf.localHeaderOffset d.length)) =
        .error (.invalidSignature localHeaderSig
          (leU32 (sliceBytes d wf.localHeaderOffset (wf.localHeaderOffset + 4)))) := by
      have hmin : min wf.localHeaderOffset d.length = wf.localHeaderOffset := by omega
      rw [hmin]
      have hlenS : 30 ≤ (d.drop wf.localHeaderOffset).length := by
        simp only [List.length_drop]
        omega
      have := localParse_badSig hlenS
      rw [sliceBytes_drop] at this
      simpa using this hsig
    constructor
    · unfold readerGetEntry
      rw [if_neg (by omega), hr]
    · unfold sliceGetEntry
      dsimp only
      rw [hs]

/-- A concrete 34-byte backing store: a valid local file header at offset 0
(name length 1, extra length 0), one name byte, three compressed bytes. -/
def c5Data : List Nat :=
  [0x50, 0x4B, 0x03, 0x04] ++ le16 20 ++ le16 0 ++ le16 0 ++ le16 0 ++ le16 0 ++
    le32 0 ++ le32 3 ++ le32 3 ++ le16 1 ++ le16 0 ++ [0x61] ++ [1, 2, 3]

/-- The same bytes with a corrupted first signature byte. -/
def c5BadData : List Nat :=
  [0x4F, 0x4B, 0x03, 0x04] ++ c5Data.drop 4

/-- The wayfinder for the single entry of `c5Data`. -/
def c5Wayfinder : Wayfinder :=
  { uncompressedSize := 3, compressedSize := 3, localHeaderOffset := 0, crc := 0,
    hasDataDescriptor := false }

theorem getEntry_spec_witness :
    (readerGetEntry c5Data c5Wayfinder).map ZipEntry.compressedDataRange = .ok (31, 34) ∧
    (sliceGetEntry c5Data c5Wayfinder).map SliceEntry.compressedDataRange = .ok (31, 34) ∧
    readerGetEntry c5BadData c5Wayfinder =
      .error (.invalidSignature localHeaderSig 0x04034b4F) :=
  ⟨((getEntry_spec c5Data c5Wayfinder).1 (by decide)).trans (by decide),
   ((getEntry_spec c5Data c5Wayfinder).2.1 (by decide)).trans (by decide),
   (((getEntry_spec c5BadData c5Wayfinder).2.2 (by decide) (by decide)).1).trans (by decide)⟩

/-- The failure of `ZipFileHeaderFixed.parse` on a wrong signature when at
least 46 bytes are present. -/
theorem centralParse_badSig {data : List Nat}
    (hlen : 46 ≤ data.length) (hsig : leU32 (sliceBytes data 0 4) ≠ centralHeaderSig) :
    ZipFileHeaderFixed.parse data =
      .error (.invalidSignature centralHeaderSig (leU32 (sliceBytes data 0 4))) := by
  unfold ZipFileHeaderFixed.parse
  rw [if_neg (by omega)]
  rw [if_pos hsig]

/-- C6 (amended): the slice central-directory iterator ends the iteration with
`Ok(None)` exactly on empty remaining data; when at least 46 bytes remain but
they do not start with the central-directory signature, `next_entry` returns
an `InvalidSignature` error rather than `None`. -/
theorem nextEntry_wrongSig (data : List Nat) (base : Nat) :
    (data = [] →
      ZipSliceEntriesState.nextEntry ⟨data, base⟩ = .ok none) ∧
    (46 ≤ data.length →
      leU32 (sliceBytes data 0 4) ≠ centralHeaderSig →
      ZipSliceEntriesState.nextEntry ⟨data, base⟩ =
        .error (.invalidSignature centralHeaderSig (leU32 (sliceBytes data 0 4)))) := by
  constructor
  · intro h
    subst h
    rfl
  · intro hlen hsig
    unfold ZipSliceEntriesState.nextEntry
    dsimp only
    have hne : ¬(data.isEmpty = true) := by
      cases data
      · simp at hlen
      · simp
    rw [if_neg hne, centralParse_badSig hlen hsig]

/-- C6 counterexample: on 46 zero bytes of remaining central-directory data
(the next 46 bytes do not start with the signature), `next_entry` returns an
`InvalidSignature` error — not the `None` the claim asserts. -/
theorem nextEntry_zeros :
    ZipSliceEntriesState.nextEntry ⟨List.replicate 46 0, 0⟩ =
      .error (.invalidSignature centralHeaderSig 0) ∧
    ZipSliceEntriesState.nextEntry ⟨List.replicate 46 0, 0⟩ ≠ .ok none := by
  constructor
  · decide
  · decide

theorem nextEntry_wrongSig_witness :
    ZipSliceEntriesState.nextEntry ⟨[], 5⟩ = .ok none ∧
    ZipSliceEntriesState.nextEntry ⟨List.replicate 46 7, 3⟩ =
      .error (.invalidSignature centralHeaderSig
        (leU32 (sliceBytes (List.replicate 46 7) 0 4))) :=
  ⟨(nextEntry_wrongSig [] 5).1 rfl,
   (nextEntry_wrongSig (List.replicate 46 7) 3).2 (by decide) (by decide)⟩

/-- A bare 22-byte EOCD record with zero counts and offsets. -/
def c7Data : List Nat := eocdSigBytes ++ List.replicate 18 0

/-- The `EndOfCentralDirectory` located from `c7Data`. -/
def c7Record : EndOfCentralDirectory :=
  { zip64 := none
    eocd := { signature := eocdSig, diskNumber := 0, eocdDisk := 0, numEntries := 0,
              totalEntries := 0, centralDirSize := 0, centralDirOffset := 0, commentLen := 0 }
    streamPos := 0 }

theorem baseOffset_spec_witness :
    c7Record.zip64 = none ∧
    c7Record.baseOffset =
      c7Record.streamPos - c7Record.eocd.centralDirSize - c7Record.eocd.centralDirOffset :=
  (baseOffset_spec c7Data 1024 c7Record (by decide)).1 (by decide)

/-!
## The bounded compressed-data reader `ZipReader` (archive.rs)
-/

/-- The mutable state of a `ZipReader`: the cursor and the end of the entry's
compressed byte range. -/
structure ZipReaderState where
  offset : Nat
  endOffset : Nat
  deriving Repr, DecidableEq

/-- Model of `ZipEntry::reader`. -/
def ZipEntry.reader (e : ZipEntry) : ZipReaderState :=
  { offset := e.bodyOffset, endOffset := e.bodyEndOffset }

/-- Model of one `<ZipReader as Read>::read` call against a slice-backed
`ReaderAt` `d` with a destination buffer of length `bufLen`: request at most
`min (buf.len) (end_offset - offset)` bytes via `read_at` and advance the
cursor by the number of bytes read.  (`end_offset - offset` is a `u64`
subtraction; under the reader's invariant `offset ≤ end_offset` the `Nat`
saturation coincides with it.) -/
def zipReaderRead (d : List Nat) (s : ZipReaderState) (bufLen : Nat) :
    List Nat × ZipReaderState :=
  let readSize := min bufLen (s.endOffset - s.offset)
  let bytes := sliceReadAt d readSize s.offset
  (bytes, { s with offset := s.offset + bytes.length })

/-- Iterated `read` calls: one per requested buffer length. -/
def zipReaderRun (d : List Nat) (s : ZipReaderState) : List Nat → List (List Nat) × ZipReaderState
  | [] => ([], s)
  | b :: bs =>
    let (bytes, s') := zipReaderRead d s b
    let (rest, s'') := zipReaderRun d s' bs
    (bytes :: rest, s'')

theorem sliceBytes_append (l : List Nat) (a b c : Nat) (hab : a ≤ b) (hbc : b ≤ c) :
    sliceBytes l a b ++ sliceBytes l b c = sliceBytes l a c := by
  unfold sliceBytes
  have hb : l.drop b = (l.drop a).drop (b - a) := by
    rw [List.drop_drop]
    congr 1
    omega
  rw [hb]
  rw [show c - a = (b - a) + (c - b) by omega, List.take_add]

theorem zipReaderRead_step (d : List Nat) (s : ZipReaderState) (b : Nat)
    (hs : s.offset ≤ s.endOffset) :
    (zipReaderRead d s b).2.offset = s.offset + (zipReaderRead d s b).1.length ∧
    (zipReaderRead d s b).2.endOffset = s.endOffset ∧
    (zipReaderRead d s b).1.length ≤ min b (s.endOffset - s.offset) ∧
    (zipReaderRead d s b).1 =
      sliceBytes d s.offset (s.offset + (zipReaderRead d s b).1.length) ∧
    (s.offset = s.endOffset → (zipReaderRead d s b).1 = []) := by
  refine ⟨rfl, rfl, ?_, ?_, ?_⟩
  · unfold zipReaderRead sliceReadAt
    simp only [List.length_take, List.length_drop]
    omega
  · unfold zipReaderRead sliceReadAt sliceBytes
    dsimp only
    by_cases hlt : d.length ≤ s.offset
    · rw [min_eq_left hlt]
      rw [List.drop_length, List.drop_eq_nil_of_le hlt]
      simp
    · rw [min_eq_right (by omega : s.offset ≤ d.length)]
      congr 1
      simp only [List.length_take, List.length_drop]
      omega
  · intro heq
    unfold zipReaderRead sliceReadAt
    dsimp only
    rw [heq]
    simp

theorem zipReaderRun_spec (d : List Nat) (reqs : List Nat) :
    ∀ s : ZipReaderState, s.offset ≤ s.endOffset →
      s.offset ≤ (zipReaderRun d s reqs).2.offset ∧
      (zipReaderRun d s reqs).2.offset ≤ s.endOffset ∧
      (zipReaderRun d s reqs).2.endOffset = s.endOffset ∧
      (zipReaderRun d s reqs).1.flatten =
        sliceBytes d s.offset (zipReaderRun d s reqs).2.offset := by
  induction reqs with
  | nil =>
    intro s hs
    refine ⟨le_refl _, hs, rfl, ?_⟩
    unfold zipReaderRun sliceBytes
    simp
  | cons b bs ih =>
    intro s hs
    obtain ⟨h1, h2, h3, h4, -⟩ := zipReaderRead_step d s b hs
    have hs' : (zipReaderRead d s b).2.offset ≤ (zipReaderRead d s b).2.endOffset := by
      rw [h1, h2]
      omega
    obtain ⟨g1, g2, g3, g4⟩ := ih (zipReaderRead d s b).2 hs'
    have hrun : zipReaderRun d s (b :: bs) =
        ((zipReaderRead d s b).1 :: (zipReaderRun d (zipReaderRead d s b).2 bs).1,
          (zipReaderRun d (zipReaderRead d s b).2 bs).2) := rfl
    rw [hrun]
    dsimp only
    refine ⟨by omega, by omega, by rw [g3]; exact h2, ?_⟩
    rw [List.flatten_cons, g4, h4]
    exact sliceBytes_append d s.offset (zipReaderRead d s b).2.offset _
      (by omega) g1

/-- C9: the `ZipReader` invariant.  The reader returned by `get_entry` starts
with `offset ≤ end_offset`; any single read from a state satisfying the
invariant preserves it; after any sequence of reads the cursor is still within
bounds, the concatenation of all returned chunks is exactly the backing bytes
from `body_offset` to the final cursor (hence inside the entry's compressed
range), totalling at most `compressed_size`; and once the cursor reaches
`end_offset` a further read returns no bytes. -/
theorem zipReader_spec (d : List Nat) (wf : Wayfinder) (e : ZipEntry)
    (reqs : List Nat) (extraB : Nat) (s : ZipReaderState)
    (hget : readerGetEntry d wf = .ok e) (hs : s.offset ≤ s.endOffset) :
    e.reader.offset ≤ e.reader.endOffset ∧
    (zipReaderRead d s extraB).2.offset ≤ (zipReaderRead d s extraB).2.endOffset ∧
    (zipReaderRun d e.reader reqs).2.offset ≤ e.reader.endOffset ∧
    (zipReaderRun d e.reader reqs).2.endOffset = e.reader.endOffset ∧
    (zipReaderRun d e.reader reqs).1.flatten =
      sliceBytes d e.bodyOffset (zipReaderRun d e.reader reqs).2.offset ∧
    (zipReaderRun d e.reader reqs).1.flatten.length ≤ wf.compressedSize ∧
    ((zipReaderRun d e.reader reqs).2.offset = e.reader.endOffset →
      (zipReaderRead d (zipReaderRun d e.reader reqs).2 extraB).1 = []) := by
  have hend : e.bodyEndOffset = wf.compressedSize + e.bodyOffset := by
    unfold readerGetEntry at hget
    split at hget
    · simp at hget
    · rcases hp : ZipLocalFileHeaderFixed.parse
          (sliceBytes d wf.localHeaderOffset (wf.localHeaderOffset + 30)) with k | fh
      · rw [hp] at hget
        simp at hget
      · rw [hp] at hget
        dsimp only at hget
        simp only [Except.ok.injEq] at hget
        rw [← hget]
  have hinv : e.reader.offset ≤ e.reader.endOffset := by
    unfold ZipEntry.reader
    dsimp only
    omega
  obtain ⟨r1, r2, r3, r4⟩ := zipReaderRun_spec d reqs e.reader hinv
  obtain ⟨p1, p2, p3, -, -⟩ := zipReaderRead_step d s extraB hs
  refine ⟨hinv, by omega, r2, r3, r4, ?_, ?_⟩
  · rw [r4]
    have hread : e.reader.endOffset = wf.compressedSize + e.bodyOffset := hend
    have hoff : e.reader.offset = e.bodyOffset := rfl
    unfold sliceBytes
    simp only [List.length_take, List.length_drop]
    omega
  · intro hfull
    obtain ⟨-, -, -, -, q5⟩ := zipReaderRead_step d (zipReaderRun d e.reader reqs).2 extraB
      (by omega)
    exact q5 (by omega)

theorem zipReader_spec_witness :
    (zipReaderRun c5Data (ZipEntry.reader ⟨31, 34⟩) [2, 5]).1.flatten = [1, 2, 3] ∧
    (zipReaderRun c5Data (ZipEntry.reader ⟨31, 34⟩) [2, 5]).2.offset = 34 ∧
    (zipReaderRead c5Data (zipReaderRun c5Data (ZipEntry.reader ⟨31, 34⟩) [2, 5]).2 4).1 = [] := by
  have h := zipReader_spec c5Data c5Wayfinder ⟨31, 34⟩ [2, 5] 4 ⟨31, 34⟩
    (by decide) (by decide)
  refine ⟨(h.2.2.2.2.1).trans (by decide), by decide, ?_⟩
  exact h.2.2.2.2.2.2 (by decide)

/-!
## CRC-32 (crc.rs)

The slice-by-16 IEEE CRC-32 with its generated tables, translated directly;
`!x` on `u32` is `x ^^^ 0xFFFFFFFF`.
-/

/-- One polynomial-division step of the CRC table generator. -/
def crcStep (crc : Nat) : Nat :=
  if crc % 2 = 1 then (crc / 2) ^^^ 0xEDB88320 else crc / 2

/-- `n`-fold iteration of `crcStep`. -/
def crcIter : Nat → Nat → Nat
  | 0, c => c
  | n + 1, c => crcIter n (crcStep c)

/-- `CRC_TABLE[0][i]` of `gen_crc_table`: eight division steps on `i`. -/
def crcTable0 (i : Nat) : Nat := crcIter 8 i

/-- `CRC_TABLE[k][i]` of `gen_crc_table`:
`table[k][i] = (table[k-1][i] >> 8) ^ table[0][table[k-1][i] & 0xFF]`. -/
def crcTable : Nat → Nat → Nat
  | 0, i => crcTable0 i
  | k + 1, i => (crcTable k i) / 256 ^^^ crcTable0 ((crcTable k i) % 256)

/-- The 16-byte block step of `crc32_chunk` (the `chunks_exact(16)` fold). -/
def crc32Block (crc : Nat) (c : List Nat) : Nat :=
  crcTable 0x0 (c.getD 0xf 0) ^^^
  crcTable 0x1 (c.getD 0xe 0) ^^^
  crcTable 0x2 (c.getD 0xd 0) ^^^
  crcTable 0x3 (c.getD 0xc 0) ^^^
  crcTable 0x4 (c.getD 0xb 0) ^^^
  crcTable 0x5 (c.getD 0xa 0) ^^^
  crcTable 0x6 (c.getD 0x9 0) ^^^
  crcTable 0x7 (c.getD 0x8 0) ^^^
  crcTable 0x8 (c.getD 0x7 0) ^^^
  crcTable 0x9 (c.getD 0x6 0) ^^^
  crcTable 0xa (c.getD 0x5 0) ^^^
  crcTable 0xb (c.getD 0x4 0) ^^^
  crcTable 0xc ((c.getD 0x3 0) ^^^ (crc / 256 ^ 3 % 256)) ^^^
  crcTable 0xd ((c.getD 0x2 0) ^^^ (crc / 256 ^ 2 % 256)) ^^^
  crcTable 0xe ((c.getD 0x1 0) ^^^ (crc / 256 % 256)) ^^^
  crcTable 0xf ((c.getD 0x0 0) ^^^ (crc % 256))

/-- The single-byte step of `crc32_chunk` (the remainder fold). -/
def crc32Rem (crc x : Nat) : Nat :=
  (crc / 256) ^^^ crcTable0 (x ^^^ (crc % 256))

/-- The interior of `crc32_chunk`: full 16-byte blocks (`chunks_exact(16)`),
then the remainder fold. -/
def crc32Main : Nat → List Nat → Nat
  | crc, b0 :: b1 :: b2 :: b3 :: b4 :: b5 :: b6 :: b7 ::
      b8 :: b9 :: b10 :: b11 :: b12 :: b13 :: b14 :: b15 :: rest =>
    crc32Main
      (crc32Block crc [b0, b1, b2, b3, b4, b5, b6, b7, b8, b9, b10, b11, b12, b13, b14, b15])
      rest
  | crc, rest => rest.foldl crc32Rem crc

/-- Model of `crc32_chunk data prev`. -/
def crc32Chunk (data : List Nat) (prev : Nat) : Nat :=
  (crc32Main (prev ^^^ 0xFFFFFFFF) data) ^^^ 0xFFFFFFFF

/-!
## Verifiers (archive.rs)
-/

/-- The accumulated CRC and byte count of a verifier. -/
structure VerifierState where
  crc : Nat
  size : Nat
  deriving Repr, DecidableEq

/-- Model of `ZipVerification::valid`: sizes must match exactly; the CRC must
match unless the expected CRC is 0. -/
def ZipVerification.valid (self rhs : ZipVerification) : Except ErrKind Unit :=
  if self.uncompressedSize ≠ rhs.uncompressedSize then
    .error (.invalidSize self.uncompressedSize rhs.uncompressedSize)
  else if self.crc ≠ 0 ∧ self.crc ≠ rhs.crc then
    .error (.invalidChecksum self.crc rhs.crc)
  else .ok ()

/-- Model of one `<ZipSliceVerifier as Read>::read` call, given the bytes
`chunk` the wrapped reader produced (`[]` models a 0-byte read, i.e. EOF):
update CRC and count, and at EOF or once the declared size is reached validate
against the verifier taken from the central directory. -/
def sliceVerifierRead (st : VerifierState) (v : ZipVerification) (chunk : List Nat) :
    Except ErrKind VerifierState :=
  let crc := crc32Chunk chunk st.crc
  let size := st.size + chunk.length
  if chunk.length = 0 ∨ size ≥ v.uncompressedSize then
    match v.valid { crc := crc, uncompressedSize := size } with
    | .error e => .error e
    | .ok _ => .ok { crc := crc, size := size }
  else .ok { crc := crc, size := size }

/-- Model of one `<ZipVerifier as Read>::read` call (the positioned-read
verifying reader), given the bytes `chunk` the wrapped decompressor produced:
update CRC and count; at EOF or once the declared size is reached, take the
comparison CRC from the trailing data descriptor when the wayfinder has one
and otherwise from `self.crc` — the just-accumulated value — and validate
`{crc: self.crc, size: wayfinder.uncompressed_size}` against
`{crc: that value, size: self.size}`. -/
def readerVerifierRead (d : List Nat) (st : VerifierState) (wf : Wayfinder)
    (endOffset : Nat) (chunk : List Nat) : Except ErrKind VerifierState :=
  let crc := crc32Chunk chunk st.crc
  let size := st.size + chunk.length
  if chunk.length = 0 ∨ size ≥ wf.uncompressedSize then
    match (if wf.hasDataDescriptor then dataDescriptorReadAt d endOffset else .ok crc) with
    | .error e => .error e
    | .ok comparison =>
      match ZipVerification.valid { crc := crc, uncompressedSize := wf.uncompressedSize }
          { crc := comparison, uncompressedSize := size } with
      | .error e => .error e
      | .ok _ => .ok { crc := crc, size := size }
  else .ok { crc := crc, size := size }

/-- A backing store holding one stored entry: local header (sizes 1/1, name
length 1), the name byte `b`, and the single content byte `a`.  The central
directory CRC recorded for the entry (carried by the wayfinder) is 1, which is
not the CRC-32 of the content. -/
def c2Data : List Nat :=
  [0x50, 0x4B, 0x03, 0x04] ++ le16 20 ++ le16 0 ++ le16 0 ++ le16 0 ++ le16 0 ++
    le32 0 ++ le32 1 ++ le32 1 ++ le16 1 ++ le16 0 ++ [0x62] ++ [0x61]

/-- The wayfinder of the `c2Data` entry: no data descriptor (flag bit 3
clear), declared uncompressed size 1, central-directory CRC 1. -/
def c2Wayfinder : Wayfinder :=
  { uncompressedSize := 1, compressedSize := 1, localHeaderOffset := 0, crc := 1,
    hasDataDescriptor := false }

/-- C2: at the failing input — a no-data-descriptor entry whose recorded
central-directory CRC (1) differs from the CRC-32 of its streamed bytes — the
slice-backed verifier surfaces `InvalidChecksum{expected, actual}` as the
claim states, but the positioned-read `ZipVerifier` returns success: in the
no-descriptor branch it compares the accumulated CRC against itself and never
consults the wayfinder's CRC. -/
theorem verifier_crc_bug :
    crc32Chunk [0x61] 0 ≠ 1 ∧
    (sliceGetEntry c2Data c2Wayfinder).map SliceEntry.verifier =
      .ok { crc := 1, uncompressedSize := 1 } ∧
    sliceVerifierRead { crc := 0, size := 0 } { crc := 1, uncompressedSize := 1 } [0x61] =
      .error (.invalidChecksum 1 (crc32Chunk [0x61] 0)) ∧
    readerVerifierRead c2Data { crc := 0, size := 0 } c2Wayfinder 32 [0x61] =
      .ok { crc := crc32Chunk [0x61] 0, size := 1 } := by
  refine ⟨by decide, by decide, by decide, by decide⟩

/-!
## Timestamps (time.rs)

Rust `i64`/`i32` division and remainder truncate toward zero: they are
modelled with `Int.tdiv` / `Int.tmod`.  An `as uN` cast takes the low `N` bits
of the two's-complement value: modelled with `Int.emod` by `2^N` followed by
`Int.toNat`.
-/

/-- The component record behind `ZipDateTime<TZ>`; the timezone marker is
carried by `ZipDateTimeKind` below. -/
structure UtcDateTime where
  year : Nat
  month : Nat
  day : Nat
  hour : Nat
  minute : Nat
  second : Nat
  nanosecond : Nat
  deriving Repr, DecidableEq

/-- Model of `is_leap`. -/
def isLeap (year : Nat) : Bool :=
  year % 4 == 0 && (year % 100 != 0 || year % 400 == 0)

/-- Model of `last_day_of_month_common_year` (the source indexes a fixed
array with `m - 1`). -/
def lastDayOfMonthCommonYear (m : Nat) : Nat :=
  [31, 28, 31, 30, 31, 30, 31, 31, 30, 31, 30, 31].getD (m - 1) 0

/-- Model of `last_day_of_month`. -/
def lastDayOfMonth (year month : Nat) : Nat :=
  if month ≠ 2 ∨ !isLeap year then lastDayOfMonthCommonYear month else 29

/-- Model of `ZipDateTime::from_components`. -/
def UtcDateTime.fromComponents (year month day hour minute second nanosecond : Nat) :
    Option UtcDateTime :=
  if year = 0 ∨ month = 0 ∨ month > 12 ∨ day = 0 ∨ hour > 23 ∨ minute > 59 ∨
      second > 59 ∨ nanosecond > 999999999 then none
  else if day > lastDayOfMonth year month then none
  else some ⟨year, month, day, hour, minute, second, nanosecond⟩

/-- Model of `ZipDateTime::days_from_civil` (Howard Hinnant's
`days_from_civil`). -/
def UtcDateTime.daysFromCivil (t : UtcDateTime) : Int :=
  let p : Int × Int :=
    if t.month ≤ 2 then ((t.year : Int) - 1, (t.month : Int) + 9)
    else ((t.year : Int), (t.month : Int) - 3)
  let y := p.1
  let m := p.2
  let era := y.tdiv 400
  let yoe := y - era * 400
  let doy := (153 * m + 2).tdiv 5 + (t.day : Int) - 1
  let doe := yoe * 365 + yoe.tdiv 4 - yoe.tdiv 100 + doy
  era * 146097 + doe - 719468

/-- Model of `ZipDateTime::<Utc>::to_unix`. -/
def UtcDateTime.toUnix (t : UtcDateTime) : Int :=
  t.daysFromCivil * 86400 + (t.hour : Int) * 3600 + (t.minute : Int) * 60 + (t.second : Int)

/-- Model of `unix_timestamp_to_components` (Howard Hinnant's
`civil_from_days`), returning `(year, month, day, hour, minute, second)`. -/
def unixTimestampToComponents (timestamp : Int) :
    Nat × Nat × Nat × Nat × Nat × Nat :=
  let totalDays := timestamp.tdiv 86400
  let secondsInDay0 := timestamp.tmod 86400
  let secondsInDay := if secondsInDay0 < 0 then secondsInDay0 + 86400 else secondsInDay0
  let hour := ((secondsInDay.tdiv 3600) % 256).toNat
  let minute := (((secondsInDay.tmod 3600).tdiv 60) % 256).toNat
  let second := ((secondsInDay.tmod 60) % 256).toNat
  let daysSinceShiftedEpoch := totalDays + 719468
  let era := daysSinceShiftedEpoch.tdiv 146097
  let daysOfEra := daysSinceShiftedEpoch.tmod 146097
  let yearOfEra :=
    (daysOfEra - daysOfEra.tdiv 1460 + daysOfEra.tdiv 36524 - daysOfEra.tdiv 146096).tdiv 365
  let year := era * 400 + yearOfEra
  let daysBeforeYear := yearOfEra * 365 + yearOfEra.tdiv 4 - yearOfEra.tdiv 100
  let dayOfYear := daysOfEra - daysBeforeYear
  let monthShifted := (5 * dayOfYear + 2).tdiv 153
  let dayOfMonth := dayOfYear - (153 * monthShifted + 2).tdiv 5 + 1
  let p : Int × Int :=
    if monthShifted < 10 then (year, monthShifted + 3) else (year + 1, monthShifted - 9)
  ((p.1 % 65536).toNat, (p.2 % 256).toNat, (dayOfMonth % 256).toNat, hour, minute, second)

/-- Model of `ZipDateTime::<Utc>::from_unix`. -/
def UtcDateTime.fromUnix (seconds : Int) : UtcDateTime :=
  let c := unixTimestampToComponents seconds
  ⟨c.1, c.2.1, c.2.2.1, c.2.2.2.1, c.2.2.2.2.1, c.2.2.2.2.2, 0⟩

/-- `NTFS_EPOCH_OFFSET`. -/
def ntfsEpochOffset : Nat := 11644473600

/-- Model of `ZipDateTime::<Utc>::from_ntfs` (`saturating_sub` is `Nat`
subtraction). -/
def UtcDateTime.fromNtfs (ticks : Nat) : UtcDateTime :=
  let unixSeconds : Int := ((ticks / 10000000) - ntfsEpochOffset : Nat)
  let c := unixTimestampToComponents unixSeconds
  ⟨c.1, c.2.1, c.2.2.1, c.2.2.2.1, c.2.2.2.2.1, c.2.2.2.2.2, (ticks % 10000000) * 100⟩

/-- The packed MS-DOS date/time pair (time.rs). -/
structure DosDateTime where
  time : Nat
  date : Nat
  deriving Repr, DecidableEq

/-- Model of `DosDateTime::year`. -/
def DosDateTime.year (d : DosDateTime) : Nat := ((d.date >>> 9) &&& 0x7f) + 1980

/-- Model of `DosDateTime::month` (`clamp(1, 12)`). -/
def DosDateTime.month (d : DosDateTime) : Nat := min (max ((d.date >>> 5) &&& 0x0f) 1) 12

/-- Model of `DosDateTime::day` (`clamp(1, last_day_of_month)`). -/
def DosDateTime.day (d : DosDateTime) : Nat :=
  min (max (d.date &&& 0x1f) 1) (lastDayOfMonth d.year d.month)

/-- Model of `DosDateTime::hour`. -/
def DosDateTime.hour (d : DosDateTime) : Nat := min ((d.time >>> 11) &&& 0x1f) 23

/-- Model of `DosDateTime::minute`. -/
def DosDateTime.minute (d : DosDateTime) : Nat := min ((d.time >>> 5) &&& 0x3f) 59

/-- Model of `DosDateTime::second`. -/
def DosDateTime.second (d : DosDateTime) : Nat := min ((d.time &&& 0x1f) * 2) 58

/-- Model of `impl From<&ZipDateTime> for DosDateTime`: saturate the year to
[1980, 2107] and pack the fields. -/
def DosDateTime.fromZip (t : UtcDateTime) : DosDateTime :=
  let dosYear := min (max t.year 1980) 2107
  { date := ((dosYear - 1980) <<< 9) ||| (t.month <<< 5) ||| t.day
    time := (t.hour <<< 11) ||| (t.minute <<< 5) ||| (t.second / 2) }

/-- Model of `LocalDateTime::from_dos`. -/
def localFromDos (d : DosDateTime) : UtcDateTime :=
  ⟨d.year, d.month, d.day, d.hour, d.minute, d.second, 0⟩

/-- Model of `ZipDateTimeKind`: a parsed timestamp tagged with its timezone. -/
inductive ZipDateTimeKind where
  | utc (t : UtcDateTime)
  | localTime (t : UtcDateTime)
  deriving Repr, DecidableEq

/-- `EXTENDED_TIMESTAMP_ID` (0x5455), `UNIX_TIMESTAMP_ID` (0x5855),
`NTFS_TIMESTAMP_ID` (0x000a). -/
def extendedTimestampId : Nat := 0x5455

/-- Model of `parse_extended_timestamp` (extra field 0x5455). -/
def parseExtendedTimestamp (data : List Nat) : Option UtcDateTime :=
  if data.length < 5 then none
  else
    let flags := data.getD 0 0
    if flags &&& 0x01 ≠ 0 ∧ 1 + 4 ≤ data.length then
      some (UtcDateTime.fromUnix (leU32 (sliceBytes data 1 5)))
    else none

/-- Model of `parse_unix_timestamp` (obsolete extra field 0x5855). -/
def parseUnixTimestamp (data : List Nat) : Option UtcDateTime :=
  if data.length < 8 then none
  else some (UtcDateTime.fromUnix (leU32 (sliceBytes data 4 8)))

/-- Model of `parse_ntfs_timestamp` (extra field 0x000a). -/
def parseNtfsTimestamp (data : List Nat) : Option UtcDateTime :=
  if data.length < 32 then none
  else
    let tag := leU16 (sliceBytes data 4 6)
    if tag ≠ 0x0001 then none
    else
      let size := leU16 (sliceBytes data 6 8)
      if size < 24 ∨ data.length < 8 + size then none
      else some (UtcDateTime.fromNtfs (leU64 (sliceBytes data 8 16)))

/-- One dispatch step of `extract_best_timestamp`'s loop body. -/
def timestampFieldStep (fieldId : Nat) (fieldData : List Nat)
    (last : Option ZipDateTimeKind) : Option ZipDateTimeKind :=
  if fieldId = 0x000a then
    match parseNtfsTimestamp fieldData with
    | some t => some (.utc t)
    | none => last
  else if fieldId = 0x5455 then
    match parseExtendedTimestamp fieldData with
    | some t => some (.utc t)
    | none => last
  else if fieldId = 0x5855 then
    match parseUnixTimestamp fieldData with
    | some t => some (.utc t)
    | none => last
  else last

/-- The scanning loop of `extract_best_timestamp`.  `fuel` bounds the number
of iterations; each iteration consumes at least 4 bytes, so
`fuel = fields.length` (supplied by `extractBestTimestamp`) never runs out
before the loop's own exit conditions. -/
def extractLoop : Nat → List Nat → Option ZipDateTimeKind → Option ZipDateTimeKind
  | 0, _, last => last
  | fuel + 1, fields, last =>
    if fields.length < 4 then last
    else
      let fieldId := leU16 (sliceBytes fields 0 2)
      let fieldSize := leU16 (sliceBytes fields 2 4)
      if fields.length < 4 + fieldSize then last
      else
        let fieldData := sliceBytes fields 4 (4 + fieldSize)
        extractLoop fuel (fields.drop (4 + fieldSize))
          (timestampFieldStep fieldId fieldData last)

/-- Model of `extract_best_timestamp`: last-wins over the extra fields, with
the DOS fields as local-time fallback. -/
def extractBestTimestamp (extraField : List Nat) (dosTime dosDate : Nat) :
    ZipDateTimeKind :=
  match extractLoop extraField.length extraField none with
  | some k => k
  | none => .localTime (localFromDos { time := dosTime, date := dosDate })

/-!
## The streaming writer (writer.rs)

`finish` is modelled as the byte string it appends after the entry bodies:
central directory records, optional ZIP64 EOCD record + locator, and the
EOCD record.  The writer state entering `finish` is its `files` table and the
running output count (`central_directory_offset`).
-/

/-- Modelled from the spec: `CREATOR_UNIX` is imported from `mode.rs` by
`writer.rs` but missing from the `mode.rs` in the tree; the spec fixes the
Unix "version made by" creator code to 3. -/
def creatorUnix : Nat := 3

/-- `ZIP64_THRESHOLD_FILE_SIZE` = `ZIP64_THRESHOLD_OFFSET` =
`u32::MAX as u64` = `0xFFFFFFFF` (writer.rs). -/
def zip64ThresholdFileSize : Nat := 0xFFFFFFFF

/-- `ZIP64_THRESHOLD_ENTRIES` = `u16::MAX as usize` = `0xFFFF` (writer.rs). -/
def zip64ThresholdEntries : Nat := 0xFFFF

/-- The writer's `FileHeader` record (writer.rs); the name is the byte string
of the normalized path, the compression method its numeric id. -/
structure FileHeader where
  name : List Nat
  compressionMethod : Nat
  localHeaderOffset : Nat
  compressedSize : Nat
  uncompressedSize : Nat
  crc : Nat
  flags : Nat
  modificationTime : Option UtcDateTime
  unixPermissions : Option Nat
  deriving Repr, DecidableEq

/-- Model of `FileHeader::needs_zip64`. -/
def FileHeader.needsZip64 (f : FileHeader) : Bool :=
  decide (zip64ThresholdFileSize ≤ f.compressedSize) ||
  decide (zip64ThresholdFileSize ≤ f.uncompressedSize) ||
  decide (zip64ThresholdFileSize ≤ f.localHeaderOffset)

/-- Model of `FileHeader::zip64_extra_field_size`. -/
def FileHeader.zip64ExtraFieldSize (f : FileHeader) : Nat :=
  if !f.needsZip64 then 0
  else
    4 + (if zip64ThresholdFileSize ≤ f.uncompressedSize then 8 else 0) +
      (if zip64ThresholdFileSize ≤ f.compressedSize then 8 else 0) +
      (if zip64ThresholdFileSize ≤ f.localHeaderOffset then 8 else 0)

/-- Model of `FileHeader::write_zip64_extra_field`: the bytes it appends. -/
def FileHeader.zip64ExtraFieldBytes (f : FileHeader) : List Nat :=
  if !f.needsZip64 then []
  else
    let dataSize :=
      (if zip64ThresholdFileSize ≤ f.uncompressedSize then 8 else 0) +
        (if zip64ThresholdFileSize ≤ f.compressedSize then 8 else 0) +
        (if zip64ThresholdFileSize ≤ f.localHeaderOffset then 8 else 0)
    le16 0x0001 ++ le16 dataSize ++
      (if zip64ThresholdFileSize ≤ f.uncompressedSize then le64 f.uncompressedSize else []) ++
      (if zip64ThresholdFileSize ≤ f.compressedSize then le64 f.compressedSize else []) ++
      (if zip64ThresholdFileSize ≤ f.localHeaderOffset then le64 f.localHeaderOffset else [])

/-- Model of `extended_timestamp_extra_field_size`. -/
def extendedTimestampFieldSize (mt : Option UtcDateTime) : Nat :=
  if mt.isSome then 9 else 0

/-- Model of `write_extended_timestamp_field`: id 0x5455, size 5, flags = 1,
then the Unix seconds, negatives clamped to 0 and cast to `u32`
(truncating). -/
def extendedTimestampFieldBytes (mt : Option UtcDateTime) : List Nat :=
  match mt with
  | none => []
  | some t =>
    let unixTime := ((max (t.toUnix) 0) % 4294967296).toNat
    le16 extendedTimestampId ++ le16 5 ++ [1] ++ le32 unixTime

/-- The DOS time/date pair written for an optional modification time
(`map(DosDateTime::from).unwrap_or((0, 0))`). -/
def dosParts (mt : Option UtcDateTime) : Nat × Nat :=
  match mt with
  | none => (0, 0)
  | some t => ((DosDateTime.fromZip t).time, (DosDateTime.fromZip t).date)

/-- The 46-byte-plus-variable central directory record that `finish` writes
for one file. -/
def cdRecordBytes (f : FileHeader) : List Nat :=
  let versionNeeded := if f.needsZip64 then 45 else 20
  let versionMadeByHi := if f.unixPermissions.isSome then creatorUnix else 0
  let versionMadeBy := (versionMadeByHi <<< 8) ||| versionNeeded
  let dos := dosParts f.modificationTime
  let extraFieldLength := f.zip64ExtraFieldSize + extendedTimestampFieldSize f.modificationTime
  let externalAttrs := (match f.unixPermissions with
    | some x => (x <<< 16) % 4294967296
    | none => 0)
  le32 centralHeaderSig ++
  le16 versionMadeBy ++
  le16 versionNeeded ++
  le16 f.flags ++
  le16 f.compressionMethod ++
  le16 dos.1 ++
  le16 dos.2 ++
  le32 f.crc ++
  le32 (min f.compressedSize zip64ThresholdFileSize) ++
  le32 (min f.uncompressedSize zip64ThresholdFileSize) ++
  le16 f.name.length ++
  le16 extraFieldLength ++
  le16 0 ++
  [0, 0, 0, 0] ++
  le32 externalAttrs ++
  le32 (min f.localHeaderOffset zip64ThresholdFileSize) ++
  f.name ++
  f.zip64ExtraFieldBytes ++
  extendedTimestampFieldBytes f.modificationTime

/-- The central directory: one record per file, in order. -/
def cdBytes (files : List FileHeader) : List Nat :=
  (files.map cdRecordBytes).flatten

/-- Model of `write_zip64_eocd` (56 bytes). -/
def zip64EocdBytes (totalEntries cdSize cdOffset : Nat) : List Nat :=
  le32 zip64EocdSig ++ le64 44 ++ le16 45 ++ le16 45 ++ le32 0 ++ le32 0 ++
    le64 totalEntries ++ le64 totalEntries ++ le64 cdSize ++ le64 cdOffset

/-- Model of `write_zip64_eocd_locator` (20 bytes). -/
def zip64LocatorBytes (zip64EocdOffset : Nat) : List Nat :=
  le32 zip64LocatorSig ++ le32 0 ++ le64 zip64EocdOffset ++ le32 1

/-- The 22-byte EOCD record `finish` writes: entry count capped at 0xFFFF, CD
size and offset capped at 0xFFFFFFFF, no comment. -/
def eocdBytes (totalEntries cdSize cdOffset : Nat) : List Nat :=
  eocdSigBytes ++ [0, 0, 0, 0] ++
    le16 (min totalEntries zip64ThresholdEntries) ++
    le16 (min totalEntries zip64ThresholdEntries) ++
    le32 (min cdSize zip64ThresholdFileSize) ++
    le32 (min cdOffset zip64ThresholdFileSize) ++
    le16 0

/-- The ZIP64 promotion condition computed by `finish`. -/
def archiveNeedsZip64 (files : List FileHeader) (cdOffset : Nat) : Bool :=
  decide (zip64ThresholdEntries ≤ files.length) ||
  decide (zip64ThresholdFileSize ≤ cdOffset) ||
  files.any FileHeader.needsZip64

/-- Model of `ZipArchiveWriter::finish`: the bytes appended to the sink after
the entry bodies, where `cdOffset` is the writer's running count on entry
(the central directory offset). -/
def finishBytes (files : List FileHeader) (cdOffset : Nat) : List Nat :=
  let cd := cdBytes files
  let cdSize := cd.length
  cd ++
    (if archiveNeedsZip64 files cdOffset then
      zip64EocdBytes files.length cdSize cdOffset ++ zip64LocatorBytes (cdOffset + cdSize)
    else []) ++
    eocdBytes files.length cdSize cdOffset

theorem archiveNeedsZip64_iff (files : List FileHeader) (cdOffset : Nat) :
    archiveNeedsZip64 files cdOffset = true ↔
      (zip64ThresholdEntries ≤ files.length ∨ zip64ThresholdFileSize ≤ cdOffset ∨
        ∃ f ∈ files, zip64ThresholdFileSize ≤ f.compressedSize ∨
          zip64ThresholdFileSize ≤ f.uncompressedSize ∨
          zip64ThresholdFileSize ≤ f.localHeaderOffset) := by
  unfold archiveNeedsZip64 FileHeader.needsZip64
  simp only [Bool.or_eq_true, decide_eq_true_eq, List.any_eq_true]
  constructor
  · rintro ((h | h) | ⟨f, hf, h⟩)
    · exact Or.inl h
    · exact Or.inr (Or.inl h)
    · exact Or.inr (Or.inr ⟨f, hf, or_assoc.mp h⟩)
  · rintro (h | h | ⟨f, hf, h⟩)
    · exact Or.inl (Or.inl h)
    · exact Or.inl (Or.inr h)
    · exact Or.inr ⟨f, hf, or_assoc.mpr h⟩

theorem zip64EocdBytes_length (a b c : Nat) : (zip64EocdBytes a b c).length = 56 := by
  simp [zip64EocdBytes, le16, le32, le64]

theorem zip64EocdBytes_take (a b c : Nat) :
    (zip64EocdBytes a b c).take 4 = le32 zip64EocdSig := by
  simp [zip64EocdBytes, le16, le32, le64]

theorem zip64LocatorBytes_take (a : Nat) :
    (zip64LocatorBytes a).take 4 = le32 zip64LocatorSig := by
  simp [zip64LocatorBytes, le16, le32, le64]

theorem zip64LocatorBytes_length (a : Nat) : (zip64LocatorBytes a).length = 20 := by
  simp [zip64LocatorBytes, le16, le32, le64]

/-- C1 (amended): the writer's `finish` output places the ZIP64 EOCD record
(signature 0x06064b50) and, 56 bytes later, the ZIP64 EOCD locator (signature
0x07064b50) directly after the central directory if and only if a promotion
threshold is met: at least 65535 entries, central directory offset ≥
0xFFFFFFFF, or some entry with compressed size, uncompressed size, or local
header offset ≥ 0xFFFFFFFF; below all thresholds `finish` emits neither
structure and the central directory is followed directly by the plain EOCD. -/
theorem zip64Promotion (files : List FileHeader) (cdOffset : Nat) :
    (((finishBytes files cdOffset).drop (cdBytes files).length).take 4 =
        le32 zip64EocdSig ∧
      sliceBytes ((finishBytes files cdOffset).drop (cdBytes files).length) 56 60 =
        le32 zip64LocatorSig) ↔
    (zip64ThresholdEntries ≤ files.length ∨ zip64ThresholdFileSize ≤ cdOffset ∨
      ∃ f ∈ files, zip64ThresholdFileSize ≤ f.compressedSize ∨
        zip64ThresholdFileSize ≤ f.uncompressedSize ∨
        zip64ThresholdFileSize ≤ f.localHeaderOffset) := by
  rw [← archiveNeedsZip64_iff files cdOffset]
  have hdrop : (finishBytes files cdOffset).drop (cdBytes files).length =
      (if archiveNeedsZip64 files cdOffset then
        zip64EocdBytes files.length (cdBytes files).length cdOffset ++
          zip64LocatorBytes (cdOffset + (cdBytes files).length)
      else []) ++ eocdBytes files.length (cdBytes files).length cdOffset := by
    unfold finishBytes
    rw [List.append_assoc, List.drop_left]
  rw [hdrop]
  by_cases h64 : archiveNeedsZip64 files cdOffset
  · rw [if_pos h64]
    simp only [h64, iff_true]
    rw [List.append_assoc]
    constructor
    · rw [List.take_append_of_le_length (by rw [zip64EocdBytes_length]; omega)]
      exact zip64EocdBytes_take _ _ _
    · unfold sliceBytes
      rw [List.drop_left' (zip64EocdBytes_length _ _ _)]
      rw [show (60 : Nat) - 56 = 4 from rfl]
      rw [List.take_append_of_le_length (by rw [zip64LocatorBytes_length]; omega)]
      exact zip64LocatorBytes_take _
  · rw [if_neg h64]
    simp only [List.nil_append, h64, Bool.false_eq_true, iff_false]
    intro hcon
    have h4 : (eocdBytes files.length (cdBytes files).length cdOffset).take 4 =
        le32 zip64EocdSig := hcon.1
    rw [show (eocdBytes files.length (cdBytes files).length cdOffset).take 4 =
        eocdSigBytes by simp [eocdBytes, eocdSigBytes, le16, le32]] at h4
    exact absurd h4 (by decide)

set_option maxRecDepth 40000

/-- A stored entry whose compressed size is exactly `u32::MAX` — below the
claim's `2^32` thresholds, but at the writer's `>= u32::MAX` threshold. -/
def c1File : FileHeader :=
  { name := [0x61], compressionMethod := 0, localHeaderOffset := 0,
    compressedSize := 0xFFFFFFFF, uncompressedSize := 5, crc := 0, flags := 8,
    modificationTime := none, unixPermissions := none }

/-- C1 counterexample: an archive of one entry with every quantity of the
claim strictly below `2^32` (and far fewer than 65535 entries), whose writer
output nevertheless contains both the ZIP64 EOCD record signature and the
ZIP64 EOCD locator signature — the writer promotes at `>= u32::MAX =
2^32 - 1`, not at `>= 2^32`. -/
theorem zip64Promotion_counterexample :
    c1File.compressedSize < 2 ^ 32 ∧ c1File.uncompressedSize < 2 ^ 32 ∧
    c1File.localHeaderOffset < 2 ^ 32 ∧ [c1File].length < 65535 ∧ (100 : Nat) < 2 ^ 32 ∧
    (backwardsFind (finishBytes [c1File] 100) (le32 zip64EocdSig)).isSome = true ∧
    (backwardsFind (finishBytes [c1File] 100) (le32 zip64LocatorSig)).isSome = true := by
  refine ⟨by decide, by decide, by decide, by decide, by decide, by decide, by decide⟩

theorem zip64Promotion_witness :
    (((finishBytes [c1File] 100).drop (cdBytes [c1File]).length).take 4 =
        le32 zip64EocdSig ∧
      sliceBytes ((finishBytes [c1File] 100).drop (cdBytes [c1File]).length) 56 60 =
        le32 zip64LocatorSig) ∧
    ¬ (((finishBytes [] 0).drop (cdBytes []).length).take 4 = le32 zip64EocdSig ∧
      sliceBytes ((finishBytes [] 0).drop (cdBytes []).length) 56 60 =
        le32 zip64LocatorSig) := by
  constructor
  · exact (zip64Promotion [c1File] 100).mpr
      (Or.inr (Or.inr ⟨c1File, by simp, Or.inl (by decide)⟩))
  · intro h
    rcases (zip64Promotion [] 0).mp h with h | h | ⟨f, hf, -⟩
    · exact absurd h (by decide)
    · exact absurd h (by decide)
    · simp at hf


/-!
## C8: the extended-timestamp round trip

`write_extended_timestamp_field` stores `to_unix().max(0) as u32`; the reader
parses field 0x5455 back through `from_unix` (`civil_from_days`).  The proof
that `civil_from_days` inverts `days_from_civil` reduces the year-of-era
division to 400 decided endpoint checks plus monotonicity of the adjusted
day count.
-/

/-- `tdiv` agrees with euclidean division when both operands are
nonnegative. -/
theorem tdivConv (a b : Int) (h : 0 ≤ a) (h2 : 0 ≤ b) : a.tdiv b = a / b := by
  unfold Int.tdiv
  match a, h with
  | Int.ofNat n, _ =>
    match b, h2 with
    | Int.ofNat m, _ => rfl

/-- `tmod` agrees with euclidean remainder when both operands are
nonnegative. -/
theorem tmodConv (a b : Int) (h : 0 ≤ a) (h2 : 0 ≤ b) : a.tmod b = a % b := by
  unfold Int.tmod
  match a, h with
  | Int.ofNat n, _ =>
    match b, h2 with
    | Int.ofNat m, _ => rfl

/-- The adjusted day count whose division by 365 yields the year of era in
`civil_from_days` (proof-internal helper, at `Nat`). -/
def hinnantN (doe : Nat) : Nat := doe + doe / 36524 - doe / 1460 - doe / 146096

/-- First day of era-year `a` as a day of era (proof-internal helper). -/
def doeLoN (a : Nat) : Nat := a * 365 + a / 4 - a / 100

/-- Last day-of-year index of era-year `a` (365 in leap years,
proof-internal helper). -/
def doyMaxN (a : Nat) : Nat :=
  if (a+1) % 4 = 0 ∧ ((a+1) % 100 ≠ 0 ∨ a = 399) then 365 else 364

/-- The year-of-era division is correct at the first and last day of each of
the 400 era years (checked by evaluation). -/
theorem endpointsOk : ((List.range 400).all fun a =>
    hinnantN (doeLoN a) / 365 == a && hinnantN (doeLoN a + doyMaxN a) / 365 == a) = true := by
  decide

/-- `hinnantN` is monotone on an era: the two subtracted quotients never both
step at the same day below 146097. -/
theorem hinnantN_mono (a b : Nat) (hab : a ≤ b) (hb : b ≤ 146096) :
    hinnantN a ≤ hinnantN b := by
  induction b with
  | zero =>
    have h : a = 0 := by omega
    subst h; exact Nat.le_refl _
  | succ k ih =>
    rcases Nat.lt_or_ge a (k+1) with hlt | hge
    · have h1 := ih (by omega) (by omega)
      have h2 : hinnantN k ≤ hinnantN (k+1) := by unfold hinnantN; omega
      omega
    · have h : a = k + 1 := by omega
      subst h; exact Nat.le_refl _

/-- `doyMaxN` takes only the values 364 and 365. -/
theorem doyMaxN_cases (a : Nat) : doyMaxN a = 364 ∨ doyMaxN a = 365 := by
  unfold doyMaxN; split <;> simp

/-- The year-of-era division recovers the year for every day of the era
(sandwiching between the decided endpoints). -/
theorem yoeN (a b : Nat) (ha : a ≤ 399) (hb : b ≤ doyMaxN a) :
    hinnantN (doeLoN a + b) / 365 = a := by
  have hall := endpointsOk
  rw [List.all_eq_true] at hall
  have h2 := hall a (List.mem_range.mpr (by omega))
  simp only [Bool.and_eq_true, beq_iff_eq] at h2
  obtain ⟨hlo, hhi⟩ := h2
  have hdm := doyMaxN_cases a
  have hbound : doeLoN a + doyMaxN a ≤ 146096 := by unfold doeLoN; omega
  have hm1 := hinnantN_mono (doeLoN a) (doeLoN a + b) (by omega) (by omega)
  have hm2 := hinnantN_mono (doeLoN a + b) (doeLoN a + doyMaxN a) (by omega) (by omega)
  omega

/-- The year-of-era step of `civil_from_days`, stated over `Int` as it occurs
in `unixTimestampToComponents`. -/
theorem yearOfEra_eq (yoe doy doe : Int)
    (h0 : 0 ≤ yoe) (h1 : yoe ≤ 399) (h2 : 0 ≤ doy)
    (h3 : doy ≤ 364 ∨ (doy = 365 ∧ (yoe + 1) % 4 = 0 ∧ ((yoe + 1) % 100 ≠ 0 ∨ yoe = 399)))
    (hdoe : doe = yoe * 365 + yoe / 4 - yoe / 100 + doy) :
    (doe - doe / 1460 + doe / 36524 - doe / 146096) / 365 = yoe := by
  lift yoe to ℕ using h0 with a
  lift doy to ℕ using h2 with b
  have hdm := doyMaxN_cases a
  have hb : b ≤ doyMaxN a := by
    rcases h3 with h3 | ⟨h3a, h3b, h3c⟩
    · omega
    · have hcond : doyMaxN a = 365 := by
        unfold doyMaxN
        rw [if_pos]
        constructor
        · omega
        · rcases h3c with h | h
          · left; omega
          · right; omega
      omega
  have ha : a ≤ 399 := by omega
  have hkey := yoeN a b ha hb
  set D := doeLoN a + b with hDdef
  have hcast : doe = (D : Int) := by
    rw [hDdef]; unfold doeLoN; omega
  rw [hcast]
  unfold hinnantN at hkey
  omega

/-- For March to December the month length matches the difference of the
shifted-month day formulas. -/
theorem lastDay_formula (y m : Nat) (hm3 : 3 ≤ m) (hm12 : m ≤ 12) :
    lastDayOfMonth y m = (153 * (m - 3) + 155) / 5 - (153 * (m - 3) + 2) / 5 := by
  interval_cases m <;> simp [lastDayOfMonth, lastDayOfMonthCommonYear]

/-- January has 31 days. -/
theorem lastDay_jan (y : Nat) : lastDayOfMonth y 1 = 31 := by
  simp [lastDayOfMonth, lastDayOfMonthCommonYear]

/-- February of a leap year has 29 days. -/
theorem lastDay_feb_leap (y : Nat) (hL : isLeap y = true) : lastDayOfMonth y 2 = 29 := by
  simp [lastDayOfMonth, lastDayOfMonthCommonYear, hL]

/-- February of a common year has 28 days. -/
theorem lastDay_feb_common (y : Nat) (hL : isLeap y = false) : lastDayOfMonth y 2 = 28 := by
  simp [lastDayOfMonth, lastDayOfMonthCommonYear, hL]

/-- Arithmetic form of `is_leap`. -/
theorem isLeap_arith (y : Nat) (hL : isLeap y = true) :
    y % 4 = 0 ∧ (y % 100 ≠ 0 ∨ y % 400 = 0) := by
  simpa [isLeap] using hL

/-- `civil_from_days` inverts `days_from_civil` for months March to
December. -/
theorem componentsRoundTrip3 (y m d h mi s n : Nat)
    (hm3 : ¬ (m ≤ 2)) (hm12 : m ≤ 12) (hd1 : 1 ≤ d) (hdl : d ≤ lastDayOfMonth y m)
    (hh : h ≤ 23) (hmi : mi ≤ 59) (hs : s ≤ 59)
    (hy : 1970 ≤ y) (hy16 : y < 65536) :
    0 ≤ UtcDateTime.toUnix ⟨y, m, d, h, mi, s, n⟩ ∧
    unixTimestampToComponents (UtcDateTime.toUnix ⟨y, m, d, h, mi, s, n⟩) =
      (y, m, d, h, mi, s) := by
  have hlen := lastDay_formula y m (by omega) hm12
  obtain ⟨era, hera⟩ : ∃ e : Int, (y : Int) / 400 = e := ⟨_, rfl⟩
  obtain ⟨yoe, hyoe⟩ : ∃ e : Int, (y : Int) - era * 400 = e := ⟨_, rfl⟩
  obtain ⟨doy, hdoy⟩ : ∃ e : Int, (153 * ((m : Int) - 3) + 2) / 5 + (d : Int) - 1 = e := ⟨_, rfl⟩
  obtain ⟨doe, hdoe⟩ : ∃ e : Int, yoe * 365 + yoe / 4 - yoe / 100 + doy = e := ⟨_, rfl⟩
  obtain ⟨days, hdays⟩ : ∃ e : Int, era * 146097 + doe - 719468 = e := ⟨_, rfl⟩
  obtain ⟨ts, hts⟩ : ∃ e : Int, days * 86400 + (h : Int) * 3600 + (mi : Int) * 60 + (s : Int) = e := ⟨_, rfl⟩
  have hyoe0 : 0 ≤ yoe := by omega
  have hyoe399 : yoe ≤ 399 := by omega
  have hdoy0 : 0 ≤ doy := by omega
  have hdoy305 : doy ≤ 305 := by omega
  have hdoe0 : 0 ≤ doe := by omega
  have hdoe146 : doe ≤ 146096 := by omega
  have hera4 : 4 ≤ era := by omega
  have hdays0 : 0 ≤ days := by omega
  have hts0 : 0 ≤ ts := by omega
  have hdfc : UtcDateTime.daysFromCivil ⟨y, m, d, h, mi, s, n⟩ = days := by
    show (let p : Int × Int :=
        if m ≤ 2 then ((y : Int) - 1, (m : Int) + 9)
        else ((y : Int), (m : Int) - 3)
      let ya := p.1
      let ma := p.2
      let e := ya.tdiv 400
      let yo := ya - e * 400
      let dy := (153 * ma + 2).tdiv 5 + (d : Int) - 1
      let de := yo * 365 + yo.tdiv 4 - yo.tdiv 100 + dy
      e * 146097 + de - 719468) = days
    rw [if_neg hm3]
    dsimp only
    rw [tdivConv ((y : Int)) 400 (by omega) (by omega)]
    rw [tdivConv ((y : Int) - (y : Int) / 400 * 400) 4 (by omega) (by omega)]
    rw [tdivConv ((y : Int) - (y : Int) / 400 * 400) 100 (by omega) (by omega)]
    rw [tdivConv (153 * ((m : Int) - 3) + 2) 5 (by omega) (by omega)]
    rw [hera, hyoe, hdoy, hdoe, hdays]
  have htu : UtcDateTime.toUnix ⟨y, m, d, h, mi, s, n⟩ = ts := by
    show UtcDateTime.daysFromCivil ⟨y, m, d, h, mi, s, n⟩ * 86400 +
      (h : Int) * 3600 + (mi : Int) * 60 + (s : Int) = ts
    rw [hdfc, hts]
  refine ⟨by rw [htu]; exact hts0, ?_⟩
  rw [htu]
  simp only [unixTimestampToComponents]
  have h1 : ts.tdiv 86400 = days := by
    rw [tdivConv ts 86400 hts0 (by omega)]; omega
  have h2 : ts.tmod 86400 = (h : Int) * 3600 + (mi : Int) * 60 + (s : Int) := by
    rw [tmodConv ts 86400 hts0 (by omega)]; omega
  rw [h1, h2]
  rw [if_neg (show ¬((h : Int) * 3600 + (mi : Int) * 60 + (s : Int) < 0) by omega)]
  have h3 : ((h : Int) * 3600 + (mi : Int) * 60 + (s : Int)).tdiv 3600 = (h : Int) := by
    rw [tdivConv _ 3600 (by omega) (by omega)]; omega
  have h4 : ((h : Int) * 3600 + (mi : Int) * 60 + (s : Int)).tmod 3600 =
      (mi : Int) * 60 + (s : Int) := by
    rw [tmodConv _ 3600 (by omega) (by omega)]; omega
  have h5 : ((mi : Int) * 60 + (s : Int)).tdiv 60 = (mi : Int) := by
    rw [tdivConv _ 60 (by omega) (by omega)]; omega
  have h6 : ((h : Int) * 3600 + (mi : Int) * 60 + (s : Int)).tmod 60 = (s : Int) := by
    rw [tmodConv _ 60 (by omega) (by omega)]; omega
  rw [h3, h4, h5, h6]
  have h7 : days + 719468 = era * 146097 + doe := by omega
  rw [h7]
  have h8 : (era * 146097 + doe).tdiv 146097 = era := by
    rw [tdivConv _ 146097 (by omega) (by omega)]; omega
  have h9 : (era * 146097 + doe).tmod 146097 = doe := by
    rw [tmodConv _ 146097 (by omega) (by omega)]; omega
  rw [h8, h9]
  rw [tdivConv doe 1460 hdoe0 (by omega), tdivConv doe 36524 hdoe0 (by omega),
    tdivConv doe 146096 hdoe0 (by omega)]
  have h10 : (doe - doe / 1460 + doe / 36524 - doe / 146096).tdiv 365 = yoe := by
    rw [tdivConv _ 365 (by omega) (by omega)]
    exact yearOfEra_eq yoe doy doe hyoe0 hyoe399 hdoy0 (Or.inl (by omega)) hdoe.symm
  rw [h10]
  rw [tdivConv yoe 4 hyoe0 (by omega), tdivConv yoe 100 hyoe0 (by omega)]
  have h11 : doe - (yoe * 365 + yoe / 4 - yoe / 100) = doy := by omega
  rw [h11]
  have h12 : (5 * doy + 2).tdiv 153 = (m : Int) - 3 := by
    rw [tdivConv _ 153 (by omega) (by omega)]; omega
  rw [h12]
  have h13 : (153 * ((m : Int) - 3) + 2).tdiv 5 = (153 * ((m : Int) - 3) + 2) / 5 := by
    rw [tdivConv _ 5 (by omega) (by omega)]
  rw [h13]
  rw [if_pos (show (m : Int) - 3 < 10 by omega)]
  simp only [Prod.mk.injEq]
  refine ⟨by omega, by omega, by omega, by omega, by omega, by omega⟩

/-- `civil_from_days` inverts `days_from_civil` for January and February. -/
theorem componentsRoundTrip12 (y m d h mi s n : Nat)
    (hm1 : 1 ≤ m) (hm2 : m ≤ 2) (hd1 : 1 ≤ d) (hdl : d ≤ lastDayOfMonth y m)
    (hh : h ≤ 23) (hmi : mi ≤ 59) (hs : s ≤ 59)
    (hy : 1970 ≤ y) (hy16 : y < 65536) :
    0 ≤ UtcDateTime.toUnix ⟨y, m, d, h, mi, s, n⟩ ∧
    unixTimestampToComponents (UtcDateTime.toUnix ⟨y, m, d, h, mi, s, n⟩) =
      (y, m, d, h, mi, s) := by
  have hdsum : d ≤ 31 ∧ (m = 2 → d ≤ 29) ∧
      (m = 2 → d = 29 → (y % 4 = 0 ∧ (y % 100 ≠ 0 ∨ y % 400 = 0))) := by
    cases hL : isLeap y with
    | true =>
      have ha := isLeap_arith y hL
      interval_cases m
      · rw [lastDay_jan] at hdl
        exact ⟨by omega, by omega, by omega⟩
      · rw [lastDay_feb_leap y hL] at hdl
        exact ⟨by omega, by omega, fun _ _ => ha⟩
    | false =>
      interval_cases m
      · rw [lastDay_jan] at hdl
        exact ⟨by omega, by omega, by omega⟩
      · rw [lastDay_feb_common y hL] at hdl
        exact ⟨by omega, by omega, by omega⟩
  obtain ⟨hd31, hdf, hdleap⟩ := hdsum
  obtain ⟨era, hera⟩ : ∃ e : Int, ((y : Int) - 1) / 400 = e := ⟨_, rfl⟩
  obtain ⟨yoe, hyoe⟩ : ∃ e : Int, (y : Int) - 1 - era * 400 = e := ⟨_, rfl⟩
  obtain ⟨doy, hdoy⟩ : ∃ e : Int, (153 * ((m : Int) + 9) + 2) / 5 + (d : Int) - 1 = e := ⟨_, rfl⟩
  obtain ⟨doe, hdoe⟩ : ∃ e : Int, yoe * 365 + yoe / 4 - yoe / 100 + doy = e := ⟨_, rfl⟩
  obtain ⟨days, hdays⟩ : ∃ e : Int, era * 146097 + doe - 719468 = e := ⟨_, rfl⟩
  obtain ⟨ts, hts⟩ : ∃ e : Int, days * 86400 + (h : Int) * 3600 + (mi : Int) * 60 + (s : Int) = e := ⟨_, rfl⟩
  have hyoe0 : 0 ≤ yoe := by omega
  have hyoe399 : yoe ≤ 399 := by omega
  have hdoy0 : 0 ≤ doy := by omega
  have hdoy365 : doy ≤ 365 := by omega
  have hdoe0 : 0 ≤ doe := by omega
  have hdoe146 : doe ≤ 146096 := by omega
  have hera4 : 4 ≤ era := by omega
  have hdays0 : 0 ≤ days := by
    have h5 : 5 ≤ era ∨ era = 4 := by omega
    rcases h5 with h5 | h4
    · omega
    · have h369 : 369 ≤ yoe := by omega
      have hg : 92 ≤ yoe / 4 := by omega
      have hq : 306 ≤ (153 * ((m : Int) + 9) + 2) / 5 := by omega
      omega
  have hts0 : 0 ≤ ts := by omega
  have hleap : doy ≤ 364 ∨ (doy = 365 ∧ (yoe + 1) % 4 = 0 ∧
      ((yoe + 1) % 100 ≠ 0 ∨ yoe = 399)) := by
    by_cases h364 : doy ≤ 364
    · exact Or.inl h364
    · have hm2e : m = 2 := by omega
      have hd29 : d = 29 := by omega
      obtain ⟨hy4, hy100⟩ := hdleap hm2e hd29
      refine Or.inr ⟨by omega, by omega, ?_⟩
      rcases hy100 with hh' | hh'
      · left; omega
      · right; omega
  have hdfc : UtcDateTime.daysFromCivil ⟨y, m, d, h, mi, s, n⟩ = days := by
    show (let p : Int × Int :=
        if m ≤ 2 then ((y : Int) - 1, (m : Int) + 9)
        else ((y : Int), (m : Int) - 3)
      let ya := p.1
      let ma := p.2
      let e := ya.tdiv 400
      let yo := ya - e * 400
      let dy := (153 * ma + 2).tdiv 5 + (d : Int) - 1
      let de := yo * 365 + yo.tdiv 4 - yo.tdiv 100 + dy
      e * 146097 + de - 719468) = days
    rw [if_pos hm2]
    dsimp only
    rw [tdivConv ((y : Int) - 1) 400 (by omega) (by omega)]
    rw [tdivConv ((y : Int) - 1 - ((y : Int) - 1) / 400 * 400) 4 (by omega) (by omega)]
    rw [tdivConv ((y : Int) - 1 - ((y : Int) - 1) / 400 * 400) 100 (by omega) (by omega)]
    rw [tdivConv (153 * ((m : Int) + 9) + 2) 5 (by omega) (by omega)]
    rw [hera, hyoe, hdoy, hdoe, hdays]
  have htu : UtcDateTime.toUnix ⟨y, m, d, h, mi, s, n⟩ = ts := by
    show UtcDateTime.daysFromCivil ⟨y, m, d, h, mi, s, n⟩ * 86400 +
      (h : Int) * 3600 + (mi : Int) * 60 + (s : Int) = ts
    rw [hdfc, hts]
  refine ⟨by rw [htu]; exact hts0, ?_⟩
  rw [htu]
  simp only [unixTimestampToComponents]
  have h1 : ts.tdiv 86400 = days := by
    rw [tdivConv ts 86400 hts0 (by omega)]; omega
  have h2 : ts.tmod 86400 = (h : Int) * 3600 + (mi : Int) * 60 + (s : Int) := by
    rw [tmodConv ts 86400 hts0 (by omega)]; omega
  rw [h1, h2]
  rw [if_neg (show ¬((h : Int) * 3600 + (mi : Int) * 60 + (s : Int) < 0) by omega)]
  have h3 : ((h : Int) * 3600 + (mi : Int) * 60 + (s : Int)).tdiv 3600 = (h : Int) := by
    rw [tdivConv _ 3600 (by omega) (by omega)]; omega
  have h4 : ((h : Int) * 3600 + (mi : Int) * 60 + (s : Int)).tmod 3600 =
      (mi : Int) * 60 + (s : Int) := by
    rw [tmodConv _ 3600 (by omega) (by omega)]; omega
  have h5 : ((mi : Int) * 60 + (s : Int)).tdiv 60 = (mi : Int) := by
    rw [tdivConv _ 60 (by omega) (by omega)]; omega
  have h6 : ((h : Int) * 3600 + (mi : Int) * 60 + (s : Int)).tmod 60 = (s : Int) := by
    rw [tmodConv _ 60 (by omega) (by omega)]; omega
  rw [h3, h4, h5, h6]
  have h7 : days + 719468 = era * 146097 + doe := by omega
  rw [h7]
  have h8 : (era * 146097 + doe).tdiv 146097 = era := by
    rw [tdivConv _ 146097 (by omega) (by omega)]; omega
  have h9 : (era * 146097 + doe).tmod 146097 = doe := by
    rw [tmodConv _ 146097 (by omega) (by omega)]; omega
  rw [h8, h9]
  rw [tdivConv doe 1460 hdoe0 (by omega), tdivConv doe 36524 hdoe0 (by omega),
    tdivConv doe 146096 hdoe0 (by omega)]
  have h10 : (doe - doe / 1460 + doe / 36524 - doe / 146096).tdiv 365 = yoe := by
    rw [tdivConv _ 365 (by omega) (by omega)]
    exact yearOfEra_eq yoe doy doe hyoe0 hyoe399 hdoy0 hleap hdoe.symm
  rw [h10]
  rw [tdivConv yoe 4 hyoe0 (by omega), tdivConv yoe 100 hyoe0 (by omega)]
  have h11 : doe - (yoe * 365 + yoe / 4 - yoe / 100) = doy := by omega
  rw [h11]
  have h12 : (5 * doy + 2).tdiv 153 = (m : Int) + 9 := by
    rw [tdivConv _ 153 (by omega) (by omega)]; omega
  rw [h12]
  have h13 : (153 * ((m : Int) + 9) + 2).tdiv 5 = (153 * ((m : Int) + 9) + 2) / 5 := by
    rw [tdivConv _ 5 (by omega) (by omega)]
  rw [h13]
  rw [if_neg (show ¬((m : Int) + 9 < 10) by omega)]
  simp only [Prod.mk.injEq]
  refine ⟨by omega, by omega, by omega, by omega, by omega, by omega⟩

/-- `civil_from_days` inverts `days_from_civil` on every valid date from 1970
with a representable year. -/
theorem componentsRoundTrip (y m d h mi s n : Nat)
    (hm1 : 1 ≤ m) (hm12 : m ≤ 12) (hd1 : 1 ≤ d) (hdl : d ≤ lastDayOfMonth y m)
    (hh : h ≤ 23) (hmi : mi ≤ 59) (hs : s ≤ 59)
    (hy : 1970 ≤ y) (hy16 : y < 65536) :
    0 ≤ UtcDateTime.toUnix ⟨y, m, d, h, mi, s, n⟩ ∧
    unixTimestampToComponents (UtcDateTime.toUnix ⟨y, m, d, h, mi, s, n⟩) =
      (y, m, d, h, mi, s) := by
  by_cases hm2 : m ≤ 2
  · exact componentsRoundTrip12 y m d h mi s n hm1 hm2 hd1 hdl hh hmi hs hy hy16
  · exact componentsRoundTrip3 y m d h mi s n hm2 hm12 hd1 hdl hh hmi hs hy hy16

/-- Evaluation of `parse_extended_timestamp` on a flags-1 five-byte field. -/
theorem parseExt_eval (u0 u1 u2 u3 : Nat) :
    parseExtendedTimestamp [1, u0, u1, u2, u3] =
      some (UtcDateTime.fromUnix (leU32 [u0, u1, u2, u3])) := by
  have hand : ((1:Nat) &&& 0x01 ≠ 0) := by decide
  simp [parseExtendedTimestamp, sliceBytes, hand]

/-- Evaluation of the loop body on the extended-timestamp field. -/
theorem fieldStep_eval (u0 u1 u2 u3 : Nat) :
    timestampFieldStep 0x5455 [1, u0, u1, u2, u3] none =
      some (.utc (UtcDateTime.fromUnix (leU32 [u0, u1, u2, u3]))) := by
  simp [timestampFieldStep, parseExt_eval]

/-- Evaluation of `extract_best_timestamp`'s loop on exactly the bytes the
writer emits for a modification time. -/
theorem extractTs (u0 u1 u2 u3 : Nat) :
    extractLoop 9 [0x55, 0x54, 5, 0, 1, u0, u1, u2, u3] none =
      some (.utc (UtcDateTime.fromUnix (leU32 [u0, u1, u2, u3]))) := by
  rw [show (9:Nat) = 8 + 1 from rfl, extractLoop]
  simp only [List.length_cons, List.length_nil]
  rw [if_neg (by omega)]
  have h1 : leU16 (sliceBytes [(0x55:Nat), 0x54, 5, 0, 1, u0, u1, u2, u3] 0 2) = 0x5455 := rfl
  have h2 : leU16 (sliceBytes [(0x55:Nat), 0x54, 5, 0, 1, u0, u1, u2, u3] 2 4) = 5 := rfl
  rw [h1, h2]
  rw [if_neg (by omega)]
  have h3 : sliceBytes [(0x55:Nat), 0x54, 5, 0, 1, u0, u1, u2, u3] 4 (4 + 5) =
      [1, u0, u1, u2, u3] := rfl
  rw [h3, fieldStep_eval]
  rfl

/-- Decoding inverts the little-endian `u32` encoding up to the truncating
cast. -/
theorem leU32_le32 (u : Nat) : leU32 (le32 u) = u % 4294967296 := by
  simp only [leU32, le32, List.getD_cons_zero, List.getD_cons_succ]
  omega

/-- The modification-time extra field the writer emits, with the stored
seconds expanded to its four little-endian bytes. -/
theorem fieldBytes_explicit (t : UtcDateTime) :
    extendedTimestampFieldBytes (some t) =
      [0x55, 0x54, 5, 0, 1,
        ((max (t.toUnix) 0) % 4294967296).toNat % 256,
        ((max (t.toUnix) 0) % 4294967296).toNat / 256 % 256,
        ((max (t.toUnix) 0) % 4294967296).toNat / 256 ^ 2 % 256,
        ((max (t.toUnix) 0) % 4294967296).toNat / 256 ^ 3 % 256] := rfl

/-- C8: timestamp round-trip at seconds precision, as amended.  For a valid
UTC modification time `t` from 1970 on whose Unix seconds fit in a `u32`,
the extended-timestamp extra field written by `write_extended_timestamp_field`
(id 0x5455, flags 1, four bytes of Unix seconds) is parsed back by
`extract_best_timestamp` to a UTC timestamp with exactly the same year,
month, day, hour, minute and second, for any DOS fallback fields. -/
theorem timestampRoundTrip (y m d h mi s n dosTime dosDate : Nat)
    (hm1 : 1 ≤ m) (hm12 : m ≤ 12) (hd1 : 1 ≤ d) (hdl : d ≤ lastDayOfMonth y m)
    (hh : h ≤ 23) (hmi : mi ≤ 59) (hs : s ≤ 59) (hy : 1970 ≤ y) (hy16 : y < 65536)
    (h32 : UtcDateTime.toUnix ⟨y, m, d, h, mi, s, n⟩ < 4294967296) :
    extractBestTimestamp (extendedTimestampFieldBytes (some ⟨y, m, d, h, mi, s, n⟩))
      dosTime dosDate = .utc ⟨y, m, d, h, mi, s, 0⟩ := by
  obtain ⟨hts0, hcomp⟩ :=
    componentsRoundTrip y m d h mi s n hm1 hm12 hd1 hdl hh hmi hs hy hy16
  obtain ⟨U, hU⟩ : ∃ u : Nat,
      ((max (UtcDateTime.toUnix ⟨y, m, d, h, mi, s, n⟩) 0) % 4294967296).toNat = u :=
    ⟨_, rfl⟩
  have hmax : max (UtcDateTime.toUnix ⟨y, m, d, h, mi, s, n⟩) 0 =
      UtcDateTime.toUnix ⟨y, m, d, h, mi, s, n⟩ := max_eq_left hts0
  have hUval : (U : Int) = UtcDateTime.toUnix ⟨y, m, d, h, mi, s, n⟩ := by
    rw [← hU, hmax]; omega
  unfold extractBestTimestamp
  rw [fieldBytes_explicit, hU]
  have hlen : ([0x55, 0x54, 5, 0, 1, U % 256, U / 256 % 256,
      U / 256 ^ 2 % 256, U / 256 ^ 3 % 256] : List Nat).length = 9 := rfl
  rw [hlen, extractTs]
  have hle : leU32 [U % 256, U / 256 % 256, U / 256 ^ 2 % 256, U / 256 ^ 3 % 256] = U := by
    have := leU32_le32 U
    simp only [le32] at this
    omega
  rw [hle]
  have hfu : UtcDateTime.fromUnix (U : Int) = ⟨y, m, d, h, mi, s, 0⟩ := by
    rw [hUval]
    simp only [UtcDateTime.fromUnix, hcomp]
  rw [hfu]

/-- Witness: a concrete valid time in June 2001 round-trips through the
extended-timestamp field. -/
theorem timestampRoundTrip_witness :
    extractBestTimestamp (extendedTimestampFieldBytes (some ⟨2001, 6, 15, 12, 30, 45, 7⟩)) 3 4 =
      .utc ⟨2001, 6, 15, 12, 30, 45, 0⟩ :=
  timestampRoundTrip 2001 6 15 12 30 45 7 3 4 (by decide) (by decide) (by decide)
    (by decide) (by decide) (by decide) (by decide) (by decide) (by decide) (by decide)

/-- C8 counterexample to the unamended claim: 1969-12-31T23:59:59 is a valid
UTC time, but its Unix seconds are negative, so the writer clamps the stored
field to 0 and the reader recovers 1970-01-01T00:00:00 instead. -/
theorem timestampRoundTrip_counterexample :
    UtcDateTime.fromComponents 1969 12 31 23 59 59 0 =
      some ⟨1969, 12, 31, 23, 59, 59, 0⟩ ∧
    extractBestTimestamp
        (extendedTimestampFieldBytes (some ⟨1969, 12, 31, 23, 59, 59, 0⟩)) 0 0 =
      .utc ⟨1970, 1, 1, 0, 0, 0, 0⟩ ∧
    ¬ extractBestTimestamp
        (extendedTimestampFieldBytes (some ⟨1969, 12, 31, 23, 59, 59, 0⟩)) 0 0 =
      .utc ⟨1969, 12, 31, 23, 59, 59, 0⟩ := by
  refine ⟨by decide, by decide, by decide⟩



/-!
## C3: path normalization (`ZipFilePath::normalize`, archive.rs / path.rs)
-/

/-- One step of the slow-path trigger test in `ZipFilePath::normalize`: the
byte pairs `(c, last)` that force `normalize_alloc`. -/
def trigger (c last : Nat) : Bool :=
  c == 92 || (c == 47 && last == 47) || (c == 46 && last == 46) ||
    (c == 46 && last == 47) || c == 58

/-- The scan over the name bytes (with `last` initialised to 0) that decides
between the fast path and `normalize_alloc`. -/
def hasTrigger : Nat → List Nat → Bool
  | _, [] => false
  | last, c :: r => trigger c last || hasTrigger c r

/-- Model of `str::trim_start_matches`: strip every copy of `pat` from the
front; the fuel is the byte length. -/
def trimAll (pat : List Nat) : Nat → List Nat → List Nat
  | 0, s => s
  | f + 1, s => if pat.isPrefixOf s then trimAll pat f (s.drop pat.length) else s

/-- The fast-path trim loop of `ZipFilePath::normalize`; each arm strips a
nonempty prefix, so fuel `s.length` never runs out. -/
def fastLoop : Nat → List Nat → List Nat
  | 0, s => s
  | f + 1, s =>
    match s with
    | 46 :: 46 :: 47 :: _ => fastLoop f (trimAll [46, 46, 47] s.length s)
    | 46 :: 47 :: _ => fastLoop f (trimAll [46, 47] s.length s)
    | 47 :: _ => fastLoop f (trimAll [47] s.length s)
    | _ => s

/-- Model of `str::split` at the slash, empty segments preserved. -/
def splitSlash : List Nat → List (List Nat)
  | [] => [[]]
  | c :: r =>
    match splitSlash r with
    | s :: rest => if c = 47 then [] :: s :: rest else (c :: s) :: rest
    | [] => [[c]]

/-- Model of `str::rfind` for the slash: index of the last 47. -/
def rfindSlash : List Nat → Option Nat
  | [] => none
  | c :: r =>
    match rfindSlash r with
    | some j => some (j + 1)
    | none => if c = 47 then some 0 else none

/-- Model of `s.split(\x27:\x27).next_back()`: the bytes after the last colon. -/
def afterLastColon : List Nat → List Nat
  | [] => []
  | c :: r => if c == 58 || r.contains 58 then afterLastColon r else c :: r

/-- One iteration of the component loop in `normalize_alloc`: skip empty and
dot segments, pop on a dot-dot segment, push otherwise. -/
def allocStep (result seg : List Nat) : List Nat :=
  if seg = [] ∨ seg = [46] then result
  else if seg = [46, 46] then result.take ((rfindSlash result).getD 0)
  else if result = [] then seg else result ++ 47 :: seg

/-- Model of `ZipFilePath::normalize_alloc`. -/
def normalizeAlloc (s : List Nat) : List Nat :=
  (splitSlash (afterLastColon (s.map fun c => if c = 92 then 47 else c))).foldl allocStep []

/-- The normalization applied to a valid UTF-8 name: the body of
`ZipFilePath::normalize` after the `from_utf8` check. -/
def normStr (p : List Nat) : List Nat :=
  if hasTrigger 0 p then normalizeAlloc p else fastLoop p.length p

/-- Proof helper: the slash-joined rendering of a segment stack. -/
def joinSlash : List (List Nat) → List Nat
  | [] => []
  | [s] => s
  | s :: r => s ++ 47 :: joinSlash r

/-- Proof helper: a pushed segment is nonempty, not a dot component, and
free of slash, backslash and colon bytes. -/
def goodSeg (sg : List Nat) : Bool :=
  !(sg == []) && !(sg == [46]) && !(sg == [46, 46]) &&
    sg.all fun c => !(c == 47) && !(c == 92) && !(c == 58)

/-- No two adjacent slash bytes. -/
def noDoubleSlash : List Nat → Bool
  | [] => true
  | [_] => true
  | a :: b :: r => !(a == 47 && b == 47) && noDoubleSlash (b :: r)

/-- The normal form the specification describes: no backslash or colon byte,
no double slash, no leading slash, and no `.` or `..` path segment. -/
def goodPath (o : List Nat) : Bool :=
  (o.all fun c => !(c == 92) && !(c == 58)) && noDoubleSlash o &&
    !(o.head? == some 47) &&
    (splitSlash o).all fun sg => !(sg == [46]) && !(sg == [46, 46])


theorem trigger_elim (c prev : Nat) (h : trigger c prev = false) :
    c ≠ 92 ∧ c ≠ 58 ∧ ¬(c = 47 ∧ prev = 47) ∧ ¬(c = 46 ∧ prev = 46) ∧
      ¬(c = 46 ∧ prev = 47) := by
  simp [trigger] at h
  omega

theorem hasTrigger_tail (c : Nat) (r : List Nat) (prev : Nat)
    (ht : hasTrigger prev (c :: r) = false) : hasTrigger c r = false := by
  simp only [hasTrigger, Bool.or_eq_false_iff] at ht
  exact ht.2

theorem trigger_false (c prev : Nat) (r : List Nat)
    (ht : hasTrigger prev (c :: r) = false) : trigger c prev = false := by
  simp only [hasTrigger, Bool.or_eq_false_iff] at ht
  exact ht.1

theorem hasTrigger_bytes (s : List Nat) (prev : Nat) (ht : hasTrigger prev s = false) :
    (s.all fun c => !(c == 92) && !(c == 58)) = true := by
  induction s generalizing prev with
  | nil => rfl
  | cons c r ih =>
    have h1 := trigger_elim c prev (trigger_false c prev r ht)
    simp only [List.all_cons, Bool.and_eq_true, ih c (hasTrigger_tail c r prev ht), and_true]
    constructor <;> simp only [Bool.not_eq_true', beq_eq_false_iff_ne] <;> omega

theorem hasTrigger_noDouble (s : List Nat) (prev : Nat) (ht : hasTrigger prev s = false) :
    noDoubleSlash s = true := by
  induction s generalizing prev with
  | nil => rfl
  | cons c r ih =>
    have hr := ih c (hasTrigger_tail c r prev ht)
    match r, hr, ht with
    | [], _, _ => rfl
    | b :: r2, hr, ht =>
      simp only [noDoubleSlash, Bool.and_eq_true, hr, and_true]
      have h2 := trigger_elim b c (trigger_false b c r2 (hasTrigger_tail c (b :: r2) prev ht))
      simp only [Bool.not_eq_true', Bool.and_eq_false_iff, beq_eq_false_iff_ne]
      omega

theorem hasTrigger_relax (s : List Nat) (prev : Nat) (ht : hasTrigger prev s = false) :
    hasTrigger 0 s = false := by
  match s, ht with
  | [], _ => rfl
  | c :: r, ht =>
    have h1 := trigger_elim c prev (trigger_false c prev r ht)
    simp only [hasTrigger, Bool.or_eq_false_iff]
    refine ⟨?_, hasTrigger_tail c r prev ht⟩
    simp [trigger]
    omega

theorem splitSlash_shape : ∀ r : List Nat, ∃ a rest, splitSlash r = a :: rest
  | [] => ⟨[], [], rfl⟩
  | c :: r => by
    obtain ⟨a, rest, h⟩ := splitSlash_shape r
    by_cases hc : c = 47
    · refine ⟨[], a :: rest, ?_⟩
      simp only [splitSlash, h, if_pos hc]
    · refine ⟨c :: a, rest, ?_⟩
      simp only [splitSlash, h, if_neg hc]

theorem splitSlash_cons (c : Nat) (r a : List Nat) (rest : List (List Nat))
    (h : splitSlash r = a :: rest) :
    splitSlash (c :: r) = if c = 47 then [] :: a :: rest else (c :: a) :: rest := by
  simp only [splitSlash, h]

theorem splitSlash_47free (s : List Nat) :
    ∀ sg ∈ splitSlash s, sg.all (fun c => !(c == 47)) = true := by
  induction s with
  | nil => intro sg h; simp [splitSlash] at h; simp [h]
  | cons c r ih =>
    intro sg hsg
    obtain ⟨a, rest, hsp⟩ := splitSlash_shape r
    rw [splitSlash_cons c r a rest hsp] at hsg
    by_cases hc : c = 47
    · rw [if_pos hc] at hsg
      simp only [List.mem_cons] at hsg
      rcases hsg with h | h | h
      · simp [h]
      · exact ih sg (by rw [hsp]; simp [h])
      · exact ih sg (by rw [hsp]; exact List.mem_cons_of_mem a h)
    · rw [if_neg hc] at hsg
      simp only [List.mem_cons] at hsg
      rcases hsg with h | h
      · subst h
        simp only [List.all_cons, Bool.and_eq_true]
        refine ⟨by simpa using hc, ?_⟩
        have := ih a (by rw [hsp]; simp)
        simpa using this
      · exact ih sg (by rw [hsp]; exact List.mem_cons_of_mem a h)

theorem splitSlash_bytes (s : List Nat) :
    ∀ sg ∈ splitSlash s, ∀ c ∈ sg, c ∈ s := by
  induction s with
  | nil => intro sg h; simp [splitSlash] at h; simp [h]
  | cons c r ih =>
    intro sg hsg b hb
    obtain ⟨a, rest, hsp⟩ := splitSlash_shape r
    rw [splitSlash_cons c r a rest hsp] at hsg
    by_cases hc : c = 47
    · rw [if_pos hc] at hsg
      simp only [List.mem_cons] at hsg
      rcases hsg with h | h | h
      · subst h; simp at hb
      · exact List.mem_cons_of_mem c (ih sg (by rw [hsp]; simp [h]) b hb)
      · exact List.mem_cons_of_mem c
          (ih sg (by rw [hsp]; exact List.mem_cons_of_mem a h) b hb)
    · rw [if_neg hc] at hsg
      simp only [List.mem_cons] at hsg
      rcases hsg with h | h
      · subst h
        rcases List.mem_cons.mp hb with h2 | h2
        · simp [h2]
        · exact List.mem_cons_of_mem c (ih a (by rw [hsp]; simp) b h2)
      · exact List.mem_cons_of_mem c
          (ih sg (by rw [hsp]; exact List.mem_cons_of_mem a h) b hb)

theorem afterLastColon_no58 (s : List Nat) :
    (afterLastColon s).contains 58 = false := by
  induction s with
  | nil => rfl
  | cons c r ih =>
    simp only [afterLastColon]
    split
    · exact ih
    · rename_i h
      simp only [Bool.or_eq_true, not_or, Bool.not_eq_true] at h
      simp only [List.contains_cons, Bool.or_eq_false_iff]
      refine ⟨?_, h.2⟩
      have h1 := h.1
      simp only [beq_eq_false_iff_ne] at h1 ⊢
      omega

theorem afterLastColon_sub (s : List Nat) : ∀ c ∈ afterLastColon s, c ∈ s := by
  induction s with
  | nil => intro c h; simp [afterLastColon] at h
  | cons a r ih =>
    intro c hc
    simp only [afterLastColon] at hc
    split at hc
    · exact List.mem_cons_of_mem a (ih c hc)
    · exact hc

theorem joinSlash_append (stack : List (List Nat)) (sg : List Nat) :
    joinSlash (stack ++ [sg]) =
      if stack = [] then sg else joinSlash stack ++ 47 :: sg := by
  induction stack with
  | nil => simp [joinSlash]
  | cons a rest ih =>
    by_cases hr : rest = []
    · subst hr
      simp [joinSlash]
    · have h1 : (a :: rest) ++ [sg] = a :: (rest ++ [sg]) := rfl
      rw [h1]
      have h2 : ∀ x xs, joinSlash (a :: x :: xs) = a ++ 47 :: joinSlash (x :: xs) := by
        intro x xs; rfl
      obtain ⟨x, xs, hx⟩ : ∃ x xs, rest ++ [sg] = x :: xs := by
        cases rest with
        | nil => exact ⟨sg, [], rfl⟩
        | cons b bs => exact ⟨b, bs ++ [sg], rfl⟩
      obtain ⟨y, ys, hy⟩ : ∃ y ys, rest = y :: ys := by
        cases rest with
        | nil => exact absurd rfl hr
        | cons b bs => exact ⟨b, bs, rfl⟩
      rw [hx, h2, ← hx, ih, if_neg hr, hy, h2, ← hy]
      simp [List.append_assoc]

theorem rfindSlash_none (s : List Nat) (h : s.all (fun c => !(c == 47)) = true) :
    rfindSlash s = none := by
  induction s with
  | nil => rfl
  | cons c r ih =>
    simp only [List.all_cons, Bool.and_eq_true] at h
    simp only [rfindSlash, ih h.2]
    rw [if_neg]
    have := h.1
    simp only [Bool.not_eq_true', beq_eq_false_iff_ne] at this
    exact this

theorem rfindSlash_append (a sg : List Nat) (h : sg.all (fun c => !(c == 47)) = true) :
    rfindSlash (a ++ 47 :: sg) = some a.length := by
  induction a with
  | nil =>
    simp only [List.nil_append, rfindSlash, rfindSlash_none sg h]
    simp
  | cons c r ih =>
    have h1 : (c :: r) ++ 47 :: sg = c :: (r ++ 47 :: sg) := rfl
    rw [h1]
    simp only [rfindSlash, ih]
    simp

theorem joinSlash_pop (stack : List (List Nat)) (sg : List Nat)
    (hsg : sg.all (fun c => !(c == 47)) = true) :
    (joinSlash (stack ++ [sg])).take ((rfindSlash (joinSlash (stack ++ [sg]))).getD 0) =
      joinSlash stack := by
  rw [joinSlash_append]
  by_cases hs : stack = []
  · rw [if_pos hs, hs]
    simp [rfindSlash_none sg hsg, joinSlash]
  · rw [if_neg hs]
    rw [rfindSlash_append _ sg hsg]
    simp [List.take_left']

theorem goodSeg_bytes (sg : List Nat)
    (h47 : sg.all (fun c => !(c == 47)) = true)
    (h92 : sg.all (fun c => !(c == 92) && !(c == 58)) = true)
    (hne : sg ≠ []) (hd1 : sg ≠ [46]) (hd2 : sg ≠ [46, 46]) : goodSeg sg = true := by
  simp only [goodSeg, Bool.and_eq_true, List.all_eq_true] at h47 h92 ⊢
  refine ⟨⟨⟨by simpa using hne, by simpa using hd1⟩, by simpa using hd2⟩, ?_⟩
  intro c hc
  exact ⟨⟨h47 c hc, (h92 c hc).1⟩, (h92 c hc).2⟩

theorem goodSeg_47free (sg : List Nat) (h : goodSeg sg = true) :
    sg.all (fun c => !(c == 47)) = true := by
  simp only [goodSeg, Bool.and_eq_true, List.all_eq_true] at h ⊢
  intro c hc
  exact ((h.2 c hc).1.1)

theorem allocFold_inv (segs : List (List Nat)) (stack : List (List Nat))
    (hstack : ∀ sg ∈ stack, goodSeg sg = true)
    (hsegs : ∀ sg ∈ segs, (sg.all fun c => !(c == 47) && !(c == 92) && !(c == 58)) = true) :
    ∃ stack2, (∀ sg ∈ stack2, goodSeg sg = true) ∧
      segs.foldl allocStep (joinSlash stack) = joinSlash stack2 := by
  induction segs generalizing stack with
  | nil => exact ⟨stack, hstack, rfl⟩
  | cons seg rest ih =>
    have hseg := hsegs seg (by simp)
    have hrest : ∀ sg ∈ rest, (sg.all fun c => !(c == 47) && !(c == 92) && !(c == 58)) = true :=
      fun sg h => hsegs sg (List.mem_cons_of_mem seg h)
    simp only [List.foldl_cons]
    by_cases h1 : seg = [] ∨ seg = [46]
    · rw [show allocStep (joinSlash stack) seg = joinSlash stack from by
        simp [allocStep, h1]]
      exact ih stack hstack hrest
    · by_cases h2 : seg = [46, 46]
      · have hpop : allocStep (joinSlash stack) seg = joinSlash stack.dropLast := by
          simp only [allocStep, if_neg h1, if_pos h2]
          by_cases hs : stack = []
          · subst hs
            simp [joinSlash, rfindSlash, List.dropLast]
          · have hlastmem := List.getLast_mem hs
            have hlast47 : (stack.getLast hs).all (fun c => !(c == 47)) = true :=
              goodSeg_47free _ (hstack _ hlastmem)
            have hrw : joinSlash stack =
                joinSlash (stack.dropLast ++ [stack.getLast hs]) := by
              rw [List.dropLast_append_getLast]
            rw [hrw, joinSlash_pop _ _ hlast47]
        rw [hpop]
        exact ih stack.dropLast (fun sg h => hstack sg (List.dropLast_subset _ h)) hrest
      · have hgood : goodSeg seg = true := by
          refine goodSeg_bytes seg ?_ ?_ ?_ ?_ h2
          · simp only [List.all_eq_true] at hseg ⊢
            intro c hc
            have := hseg c hc
            simp only [Bool.and_eq_true] at this
            exact this.1.1
          · simp only [List.all_eq_true] at hseg ⊢
            intro c hc
            have := hseg c hc
            simp only [Bool.and_eq_true] at this ⊢
            exact ⟨this.1.2, this.2⟩
          · intro h; exact h1 (Or.inl h)
          · intro h; exact h1 (Or.inr h)
        have hpush : allocStep (joinSlash stack) seg = joinSlash (stack ++ [seg]) := by
          simp only [allocStep, if_neg h1, if_neg h2]
          rw [joinSlash_append]
          by_cases hs : stack = []
          · rw [if_pos hs, if_pos (by rw [hs]; rfl)]
          · rw [if_neg hs, if_neg ?_]
            intro hh
            apply hs
            cases stack with
            | nil => rfl
            | cons a r =>
              exfalso
              have ha := hstack a (by simp)
              simp only [goodSeg, Bool.and_eq_true] at ha
              have hane : a ≠ [] := by simpa using ha.1.1.1
              cases r with
              | nil => simp [joinSlash] at hh; exact hane hh
              | cons b s =>
                have : joinSlash (a :: b :: s) = a ++ 47 :: joinSlash (b :: s) := rfl
                rw [this] at hh
                simp at hh
        rw [hpush]
        exact ih (stack ++ [seg]) (by
          intro sg h
          rcases List.mem_append.mp h with h | h
          · exact hstack sg h
          · simp at h; subst h; exact hgood) hrest

theorem splitSlash_nosplit (s : List Nat) (h : s.all (fun c => !(c == 47)) = true)
    (hne : s ≠ []) : splitSlash s = [s] := by
  induction s with
  | nil => exact absurd rfl hne
  | cons c r ih =>
    simp only [List.all_cons, Bool.and_eq_true] at h
    have hc : c ≠ 47 := by simpa using h.1
    by_cases hr : r = []
    · subst hr
      simp [splitSlash, hc]
    · rw [splitSlash_cons c r r [] (by
        have := ih h.2 hr
        simpa using this)]
      rw [if_neg hc]

theorem splitSlash_append47 (a t : List Nat) (h : a.all (fun c => !(c == 47)) = true) :
    splitSlash (a ++ 47 :: t) = a :: splitSlash t := by
  induction a with
  | nil =>
    obtain ⟨x, xs, hx⟩ := splitSlash_shape t
    simp only [List.nil_append]
    rw [splitSlash_cons 47 t x xs hx, if_pos rfl, hx]
  | cons c r ih =>
    simp only [List.all_cons, Bool.and_eq_true] at h
    have hc : c ≠ 47 := by simpa using h.1
    have h1 : (c :: r) ++ 47 :: t = c :: (r ++ 47 :: t) := rfl
    rw [h1]
    obtain ⟨x, xs, hx⟩ := splitSlash_shape (r ++ 47 :: t)
    rw [splitSlash_cons c _ x xs hx, if_neg hc]
    have h2 := ih h.2
    rw [hx] at h2
    have hxr : x = r ∧ xs = splitSlash t := by
      have := h2
      injection this with hh1 hh2
      exact ⟨hh1, hh2⟩
    rw [hxr.1, hxr.2]

theorem splitSlash_join (stack : List (List Nat)) (hne : stack ≠ [])
    (hgood : ∀ sg ∈ stack, goodSeg sg = true) :
    splitSlash (joinSlash stack) = stack := by
  induction stack with
  | nil => exact absurd rfl hne
  | cons sg rest ih =>
    have hsg := hgood sg (by simp)
    have h47 := goodSeg_47free sg hsg
    have hsgne : sg ≠ [] := by
      simp only [goodSeg, Bool.and_eq_true] at hsg
      simpa using hsg.1.1.1
    by_cases hr : rest = []
    · subst hr
      simp only [joinSlash]
      exact splitSlash_nosplit sg h47 hsgne
    · have hj : joinSlash (sg :: rest) = sg ++ 47 :: joinSlash rest := by
        obtain ⟨y, ys, hy⟩ : ∃ y ys, rest = y :: ys := by
          cases rest with
          | nil => exact absurd rfl hr
          | cons b bs => exact ⟨b, bs, rfl⟩
        rw [hy]; rfl
      rw [hj, splitSlash_append47 sg _ h47,
        ih hr (fun s h => hgood s (List.mem_cons_of_mem sg h))]

theorem joinSlash_head (stack : List (List Nat))
    (hgood : ∀ sg ∈ stack, goodSeg sg = true) :
    (joinSlash stack).head? ≠ some 47 := by
  cases stack with
  | nil => simp [joinSlash]
  | cons sg rest =>
    have hsg := hgood sg (by simp)
    have hsgne : sg ≠ [] := by
      simp only [goodSeg, Bool.and_eq_true] at hsg
      simpa using hsg.1.1.1
    obtain ⟨c, cs, hc⟩ : ∃ c cs, sg = c :: cs := by
      cases sg with
      | nil => exact absurd rfl hsgne
      | cons c cs => exact ⟨c, cs, rfl⟩
    have hc47 : c ≠ 47 := by
      have := goodSeg_47free sg hsg
      rw [hc] at this
      simp only [List.all_cons, Bool.and_eq_true] at this
      simpa using this.1
    have hh : (joinSlash (sg :: rest)).head? = some c := by
      cases rest with
      | nil => rw [show joinSlash [sg] = sg from rfl, hc]; rfl
      | cons b bs =>
        rw [show joinSlash (sg :: b :: bs) = sg ++ 47 :: joinSlash (b :: bs) from rfl, hc]
        rfl
    rw [hh]
    simp [hc47]

theorem noDoubleSlash_47free (s : List Nat) (h : s.all (fun c => !(c == 47)) = true) :
    noDoubleSlash s = true := by
  induction s with
  | nil => rfl
  | cons c r ih =>
    simp only [List.all_cons, Bool.and_eq_true] at h
    cases r with
    | nil => rfl
    | cons b bs =>
      simp only [noDoubleSlash, Bool.and_eq_true]
      refine ⟨?_, ih h.2⟩
      have := h.1
      simp_all

theorem noDoubleSlash_glue (a b : List Nat) (ha : noDoubleSlash a = true)
    (hb : noDoubleSlash b = true)
    (hbound : ¬(a.getLast? = some 47 ∧ b.head? = some 47)) :
    noDoubleSlash (a ++ b) = true := by
  induction a with
  | nil => simpa using hb
  | cons c r ih =>
    cases r with
    | nil =>
      cases b with
      | nil => simpa using ha
      | cons x xs =>
        simp only [List.cons_append, List.nil_append, noDoubleSlash, Bool.and_eq_true]
        refine ⟨?_, by simpa using hb⟩
        simp only [List.getLast?_singleton, List.head?_cons] at hbound
        by_cases hcx : c = 47 ∧ x = 47
        · exact absurd (by simp [hcx.1, hcx.2]) hbound
        · simp only [Bool.not_eq_true', Bool.and_eq_false_iff, beq_eq_false_iff_ne]
          omega
    | cons d ds =>
      have h1 : ((c :: d :: ds) ++ b) = c :: ((d :: ds) ++ b) := rfl
      rw [h1]
      simp only [noDoubleSlash] at ha
      simp only [Bool.and_eq_true] at ha
      have ih2 := ih ha.2 (by
        intro hx
        apply hbound
        refine ⟨?_, hx.2⟩
        rw [← hx.1]
        simp [List.getLast?_cons_cons])
      have h2 : (d :: ds) ++ b = d :: (ds ++ b) := rfl
      simp only [h2, noDoubleSlash, Bool.and_eq_true] at ih2 ⊢
      exact ⟨ha.1, ih2⟩

theorem joinSlash_bytes (stack : List (List Nat))
    (hgood : ∀ sg ∈ stack, goodSeg sg = true) :
    (joinSlash stack).all (fun c => !(c == 92) && !(c == 58)) = true := by
  induction stack with
  | nil => rfl
  | cons sg rest ih =>
    have hsg := hgood sg (by simp)
    have hbytes : sg.all (fun c => !(c == 92) && !(c == 58)) = true := by
      simp only [goodSeg, Bool.and_eq_true, List.all_eq_true] at hsg ⊢
      intro c hc
      exact ⟨(hsg.2 c hc).1.2, (hsg.2 c hc).2⟩
    cases rest with
    | nil => simpa [joinSlash] using hbytes
    | cons b bs =>
      rw [show joinSlash (sg :: b :: bs) = sg ++ 47 :: joinSlash (b :: bs) from rfl]
      simp only [List.all_append, List.all_cons, Bool.and_eq_true]
      refine ⟨by simpa using hbytes, by simp, ?_⟩
      have := ih (fun s h => hgood s (List.mem_cons_of_mem sg h))
      simpa using this

theorem joinSlash_noDouble (stack : List (List Nat))
    (hgood : ∀ sg ∈ stack, goodSeg sg = true) :
    noDoubleSlash (joinSlash stack) = true := by
  induction stack with
  | nil => rfl
  | cons sg rest ih =>
    have hsg := hgood sg (by simp)
    have h47 := goodSeg_47free sg hsg
    cases rest with
    | nil =>
      rw [show joinSlash [sg] = sg from rfl]
      exact noDoubleSlash_47free sg h47
    | cons b bs =>
      rw [show joinSlash (sg :: b :: bs) = sg ++ 47 :: joinSlash (b :: bs) from rfl]
      refine noDoubleSlash_glue sg _ (noDoubleSlash_47free sg h47) ?_ ?_
      · have hh := joinSlash_head (b :: bs) (fun s h => hgood s (List.mem_cons_of_mem sg h))
        cases hj : joinSlash (b :: bs) with
        | nil => rfl
        | cons x xs =>
          rw [hj] at hh
          simp only [List.head?_cons] at hh
          have hx : x ≠ 47 := fun he => hh (by rw [he])
          simp only [noDoubleSlash, Bool.and_eq_true]
          constructor
          · simp [hx]
          · have := ih (fun s h => hgood s (List.mem_cons_of_mem sg h))
            rw [hj] at this
            exact this
      · intro hb
        obtain ⟨h1, h2⟩ := hb
        obtain ⟨hne2, heq⟩ := List.mem_getLast?_eq_getLast (Option.mem_def.mpr h1)
        have hmem : (47 : Nat) ∈ sg := by
          rw [heq]
          exact List.getLast_mem hne2
        have := List.all_eq_true.mp h47 47 hmem
        simp at this

theorem goodPath_join (stack : List (List Nat))
    (hgood : ∀ sg ∈ stack, goodSeg sg = true) :
    goodPath (joinSlash stack) = true := by
  have hbytes := joinSlash_bytes stack hgood
  have hnds := joinSlash_noDouble stack hgood
  have hhead : (!((joinSlash stack).head? == some 47)) = true := by
    have := joinSlash_head stack hgood
    simpa using this
  have hsegs : ((splitSlash (joinSlash stack)).all
      fun sg => !(sg == [46]) && !(sg == [46, 46])) = true := by
    by_cases hs : stack = []
    · subst hs
      simp [joinSlash, splitSlash]
    · rw [splitSlash_join stack hs hgood]
      simp only [List.all_eq_true]
      intro sg hsg
      have := hgood sg hsg
      simp only [goodSeg, Bool.and_eq_true] at this
      simp only [Bool.and_eq_true]
      exact ⟨this.1.1.2, this.1.2⟩
  simp only [goodPath, Bool.and_eq_true]
  exact ⟨⟨⟨hbytes, hnds⟩, hhead⟩, hsegs⟩

theorem allocFold_push (segs : List (List Nat)) (acc : List (List Nat))
    (hsegs : ∀ sg ∈ segs, goodSeg sg = true)
    (hacc : ∀ sg ∈ acc, goodSeg sg = true) :
    segs.foldl allocStep (joinSlash acc) = joinSlash (acc ++ segs) := by
  induction segs generalizing acc with
  | nil => simp
  | cons seg rest ih =>
    have hseg := hsegs seg (by simp)
    have h1 : ¬(seg = [] ∨ seg = [46]) := by
      simp only [goodSeg, Bool.and_eq_true] at hseg
      rintro (h | h)
      · exact absurd (by simpa using hseg.1.1.1 : seg ≠ []) (by simp [h])
      · exact absurd (by simpa using hseg.1.1.2 : seg ≠ [46]) (by simp [h])
    have h2 : seg ≠ [46, 46] := by
      simp only [goodSeg, Bool.and_eq_true] at hseg
      simpa using hseg.1.2
    simp only [List.foldl_cons]
    have hpush : allocStep (joinSlash acc) seg = joinSlash (acc ++ [seg]) := by
      simp only [allocStep, if_neg h1, if_neg h2]
      rw [joinSlash_append]
      by_cases hs : acc = []
      · rw [if_pos hs, if_pos (by rw [hs]; rfl)]
      · rw [if_neg hs, if_neg ?_]
        intro hh
        apply hs
        cases acc with
        | nil => rfl
        | cons a r =>
          exfalso
          have ha := hacc a (by simp)
          simp only [goodSeg, Bool.and_eq_true] at ha
          have hane : a ≠ [] := by simpa using ha.1.1.1
          cases r with
          | nil => simp [joinSlash] at hh; exact hane hh
          | cons b s =>
            have : joinSlash (a :: b :: s) = a ++ 47 :: joinSlash (b :: s) := rfl
            rw [this] at hh
            simp at hh
    rw [hpush]
    rw [ih (acc ++ [seg]) (fun sg h => hsegs sg (List.mem_cons_of_mem seg h)) (by
      intro sg h
      rcases List.mem_append.mp h with h | h
      · exact hacc sg h
      · simp at h; subst h; exact hseg)]
    simp

theorem normalizeAlloc_stack (p : List Nat) :
    ∃ stack, (∀ sg ∈ stack, goodSeg sg = true) ∧
      normalizeAlloc p = joinSlash stack := by
  unfold normalizeAlloc
  have hrep : ((p.map fun c => if c = 92 then 47 else c).all
      fun c => !(c == 92)) = true := by
    simp only [List.all_eq_true, List.mem_map]
    rintro c ⟨b, _, rfl⟩
    split <;> simp
    omega
  have hsegs : ∀ sg ∈ splitSlash (afterLastColon (p.map fun c => if c = 92 then 47 else c)),
      (sg.all fun c => !(c == 47) && !(c == 92) && !(c == 58)) = true := by
    intro sg hsg
    have h47 := splitSlash_47free _ sg hsg
    simp only [List.all_eq_true] at h47 ⊢
    intro c hc
    have hcin := splitSlash_bytes _ sg hsg c hc
    have hcin2 := afterLastColon_sub _ c hcin
    have hc92 : c ≠ 92 := by
      have := List.all_eq_true.mp hrep c hcin2
      simpa using this
    have hc58 : c ≠ 58 := by
      intro he
      have h58 := afterLastColon_no58 (p.map fun c => if c = 92 then 47 else c)
      simp only [List.contains_eq_any_beq, List.any_eq_false] at h58
      have h2 := h58 c hcin
      rw [he] at h2
      simp at h2
    simp only [Bool.and_eq_true]
    exact ⟨⟨h47 c hc, by simpa using hc92⟩, by simpa using hc58⟩
  have := allocFold_inv (splitSlash (afterLastColon
    (p.map fun c => if c = 92 then 47 else c))) [] (by simp) hsegs
  simpa [joinSlash] using this

theorem normalizeAlloc_good (p : List Nat) : goodPath (normalizeAlloc p) = true := by
  obtain ⟨stack, hgood, heq⟩ := normalizeAlloc_stack p
  rw [heq]
  exact goodPath_join stack hgood

theorem map_id_no92 (o : List Nat) (h : o.all (fun c => !(c == 92)) = true) :
    (o.map fun c => if c = 92 then 47 else c) = o := by
  induction o with
  | nil => rfl
  | cons c r ih =>
    simp only [List.all_cons, Bool.and_eq_true] at h
    simp only [List.map_cons, ih h.2]
    rw [if_neg (by simpa using h.1)]

theorem afterLastColon_id (o : List Nat) (h : o.contains 58 = false) :
    afterLastColon o = o := by
  induction o with
  | nil => rfl
  | cons c r ih =>
    simp only [List.contains_cons, Bool.or_eq_false_iff] at h
    have hcond : ¬((c == 58 || r.contains 58) = true) := by
      simp only [Bool.or_eq_true, not_or, Bool.not_eq_true]
      refine ⟨?_, h.2⟩
      have := h.1
      simp only [beq_eq_false_iff_ne] at this ⊢
      omega
    simp only [afterLastColon, if_neg hcond]

theorem allocFixpoint (stack : List (List Nat))
    (hgood : ∀ sg ∈ stack, goodSeg sg = true) :
    normalizeAlloc (joinSlash stack) = joinSlash stack := by
  unfold normalizeAlloc
  have hb := joinSlash_bytes stack hgood
  have h92 : (joinSlash stack).all (fun c => !(c == 92)) = true := by
    simp only [List.all_eq_true] at hb ⊢
    intro c hc
    exact ((by simpa using hb c hc : _ ∧ _).1)
  have h58 : (joinSlash stack).contains 58 = false := by
    simp only [List.contains_eq_any_beq, List.any_eq_false]
    intro c hc
    have := List.all_eq_true.mp hb c hc
    simp only [Bool.and_eq_true] at this
    have h2 := this.2
    simp only [Bool.not_eq_true', beq_eq_false_iff_ne] at h2
    intro hh
    have h3 : 58 = c := by simpa using hh
    exact h2 h3.symm
  rw [map_id_no92 _ h92, afterLastColon_id _ h58]
  by_cases hs : stack = []
  · subst hs
    simp [joinSlash, splitSlash, allocStep]
  · rw [splitSlash_join stack hs hgood]
    have := allocFold_push stack [] hgood (by simp)
    simpa [joinSlash] using this

theorem segs_no_dots (s : List Nat) (prev : Nat) (ht : hasTrigger prev s = false) :
    ((splitSlash s).tail.all fun sg => !(sg == [46]) && !(sg == [46, 46])) = true ∧
    (prev = 47 → ∀ hd, (splitSlash s).head? = some hd →
      (!(hd == [46]) && !(hd == [46, 46])) = true) := by
  induction s generalizing prev with
  | nil =>
    refine ⟨rfl, fun _ hd hhd => ?_⟩
    simp only [splitSlash, List.head?_cons] at hhd
    injection hhd with h
    subst h
    rfl
  | cons c r ih =>
    obtain ⟨a, rest, hsp⟩ := splitSlash_shape r
    have iht := ih c (hasTrigger_tail c r prev ht)
    have htr := trigger_elim c prev (trigger_false c prev r ht)
    by_cases hc : c = 47
    · subst hc
      rw [splitSlash_cons 47 r a rest hsp, if_pos rfl]
      constructor
      · simp only [List.tail_cons, List.all_cons, Bool.and_eq_true]
        refine ⟨?_, ?_⟩
        · have := iht.2 rfl a (by rw [hsp]; rfl)
          simpa using this
        · have := iht.1
          rw [hsp] at this
          simpa using this
      · intro _ hd hhd
        simp only [List.head?_cons] at hhd
        injection hhd with h
        subst h
        rfl
    · rw [splitSlash_cons c r a rest hsp, if_neg hc]
      constructor
      · have := iht.1
        rw [hsp] at this
        simpa using this
      · intro hprev hd hhd
        simp only [List.head?_cons] at hhd
        have hc46 : c ≠ 46 := by
          intro he
          exact htr.2.2.2.2 ⟨he, hprev⟩
        injection hhd with hh
        subst hh
        cases a with
        | nil => simp [hc46]
        | cons x xs =>
          simp only [Bool.and_eq_true, Bool.not_eq_true', beq_eq_false_iff_ne]
          constructor <;> intro he <;> injection he with he1 he2 <;> exact hc46 he1

theorem fastExit (f : Nat) (o : List Nat) (h1 : ∀ t, o ≠ 47 :: t)
    (h2 : ∀ t, o ≠ 46 :: 47 :: t) (h3 : ∀ t, o ≠ 46 :: 46 :: 47 :: t) :
    fastLoop f o = o := by
  cases f with
  | zero => rfl
  | succ f =>
    simp only [fastLoop]

theorem trimAll_once (pat : List Nat) (f : Nat) (s : List Nat)
    (hpre : pat.isPrefixOf s = true) (hpre2 : pat.isPrefixOf (s.drop pat.length) = false) :
    trimAll pat (f + 2) s = s.drop pat.length := by
  simp only [trimAll, hpre, if_pos]
  cases f with
  | zero => simp [trimAll, hpre2]
  | succ g => simp [trimAll, hpre2]

theorem head_ne_47 (t : List Nat) (ht : hasTrigger 47 t = false) : ∀ u, t ≠ 47 :: u := by
  intro u he
  subst he
  have := trigger_elim 47 47 (trigger_false 47 47 u ht)
  exact this.2.2.1 ⟨rfl, rfl⟩

theorem head_ne_46 (t : List Nat) (ht : hasTrigger 47 t = false) : ∀ u, t ≠ 46 :: u := by
  intro u he
  subst he
  have := trigger_elim 46 47 (trigger_false 46 47 u ht)
  exact this.2.2.2.2 ⟨rfl, rfl⟩

theorem fastChar (p : List Nat) (ht : hasTrigger 0 p = false) :
    (∃ t, p = 46 :: 47 :: t ∧ fastLoop p.length p = t ∧ hasTrigger 47 t = false) ∨
    (∃ t, p = 47 :: t ∧ fastLoop p.length p = t ∧ hasTrigger 47 t = false) ∨
    (fastLoop p.length p = p ∧ (∀ t, p ≠ 47 :: t) ∧ (∀ t, p ≠ 46 :: 47 :: t)) := by
  match p, ht with
  | [], _ => exact Or.inr (Or.inr ⟨rfl, by simp, by simp⟩)
  | c0 :: p1, ht =>
    by_cases h0 : c0 = 47
    · subst h0
      have ht1 : hasTrigger 47 p1 = false := hasTrigger_tail 47 p1 0 ht
      refine Or.inr (Or.inl ⟨p1, rfl, ?_, ht1⟩)
      have hlen : (47 :: p1).length = p1.length + 1 := rfl
      rw [hlen]
      have harm : fastLoop (p1.length + 1) (47 :: p1) =
          fastLoop p1.length (trimAll [47] (47 :: p1).length (47 :: p1)) := rfl
      rw [harm]
      have htrim : trimAll [47] (47 :: p1).length (47 :: p1) = p1 := by
        have hpre : [47].isPrefixOf (47 :: p1) = true := by simp [List.isPrefixOf]
        have hpre2 : [47].isPrefixOf ((47 :: p1).drop 1) = false := by
          simp only [List.drop_one, List.tail_cons]
          cases p1 with
          | nil => rfl
          | cons c1 p2 =>
            have hc1b : c1 ≠ 47 := fun he => (head_ne_47 _ ht1 p2 (by rw [he]))
            simp [List.isPrefixOf]
            omega
        have : (47 :: p1).length = p1.length + 2 - 1 := by simp
        cases hp : p1 with
        | nil => simp [trimAll]
        | cons c1 p2 =>
          rw [← hp]
          have hlen2 : (47 :: p1).length = (p1.length - 1) + 2 := by
            rw [hp]; simp
          rw [hlen2, trimAll_once [47] (p1.length - 1) (47 :: p1) hpre hpre2]
          simp
      rw [htrim]
      exact fastExit p1.length p1 (head_ne_47 p1 ht1) (fun u he => by
        exact head_ne_46 p1 ht1 (47 :: u) he) (fun u he => by
        exact head_ne_46 p1 ht1 (46 :: 47 :: u) he)
    · by_cases h1 : c0 = 46
      · subst h1
        match p1, ht with
        | [], _ => exact Or.inr (Or.inr ⟨rfl, by simp, by simp⟩)
        | c1 :: p2, ht =>
          have ht1 : hasTrigger 46 (c1 :: p2) = false := hasTrigger_tail 46 _ 0 ht
          have ht2 : hasTrigger c1 p2 = false := hasTrigger_tail c1 p2 46 ht1
          have hc146 : c1 ≠ 46 := by
            intro he
            have := trigger_elim c1 46 (trigger_false c1 46 p2 ht1)
            exact this.2.2.2.1 ⟨he, rfl⟩
          by_cases h2 : c1 = 47
          · subst h2
            have ht3 : hasTrigger 47 p2 = false := ht2
            refine Or.inl ⟨p2, rfl, ?_, ht3⟩
            have hlen : (46 :: 47 :: p2).length = p2.length + 2 := rfl
            rw [hlen]
            have harm : fastLoop (p2.length + 2) (46 :: 47 :: p2) =
                fastLoop (p2.length + 1)
                  (trimAll [46, 47] (46 :: 47 :: p2).length (46 :: 47 :: p2)) := by
              rfl
            rw [harm]
            have htrim : trimAll [46, 47] (46 :: 47 :: p2).length (46 :: 47 :: p2) = p2 := by
              have hpre : [46, 47].isPrefixOf (46 :: 47 :: p2) = true := by
                simp [List.isPrefixOf]
              have hpre2 : [46, 47].isPrefixOf ((46 :: 47 :: p2).drop 2) = false := by
                simp only [List.drop_succ_cons, List.drop_zero, List.drop_one]
                cases p2 with
                | nil => rfl
                | cons c2 p3 =>
                  have hc2 : c2 ≠ 46 := fun he => (head_ne_46 _ ht3 p3 (by rw [he]))
                  simp [List.isPrefixOf]
                  omega
              have hlen2 : (46 :: 47 :: p2).length = p2.length + 2 := rfl
              rw [hlen2, trimAll_once [46, 47] p2.length (46 :: 47 :: p2) hpre hpre2]
              rfl
            rw [htrim]
            exact fastExit (p2.length + 1) p2 (head_ne_47 p2 ht3) (fun u he => by
              exact head_ne_46 p2 ht3 (47 :: u) he) (fun u he => by
              exact head_ne_46 p2 ht3 (46 :: 47 :: u) he)
          · refine Or.inr (Or.inr ⟨?_, ?_, ?_⟩)
            · exact fastExit _ _ (fun u he => by injection he with he1; omega)
                (fun u he => by injection he with he1 he2; injection he2 with he2; exact h2 he2)
                (fun u he => by injection he with he1 he2; injection he2 with he2; exact hc146 he2)
            · intro u he; injection he with he1; omega
            · intro u he; injection he with he1 he2; injection he2 with he2; exact h2 he2
      · refine Or.inr (Or.inr ⟨?_, ?_, ?_⟩)
        · exact fastExit _ _ (fun u he => by injection he with he1; exact h0 he1)
            (fun u he => by injection he with he1; exact h1 he1)
            (fun u he => by injection he with he1; exact h1 he1)
        · intro u he; injection he with he1; exact h0 he1
        · intro u he; injection he with he1; exact h1 he1

theorem goodFast47 (t : List Nat) (ht : hasTrigger 47 t = false) : goodPath t = true := by
  have hb := hasTrigger_bytes t 47 ht
  have hnd := hasTrigger_noDouble t 47 ht
  have hhead : (!(t.head? == some 47)) = true := by
    cases t with
    | nil => rfl
    | cons c r =>
      have hc := head_ne_47 (c :: r) ht
      have : c ≠ 47 := fun he => hc r (by rw [he])
      simp [this]
  have hsegs : ((splitSlash t).all fun sg => !(sg == [46]) && !(sg == [46, 46])) = true := by
    obtain ⟨a, rest, hsp⟩ := splitSlash_shape t
    have hs := segs_no_dots t 47 ht
    rw [hsp]
    simp only [List.all_cons, Bool.and_eq_true]
    constructor
    · have := hs.2 rfl a (by rw [hsp]; rfl)
      simpa using this
    · have := hs.1
      rw [hsp] at this
      simpa using this
  simp only [goodPath, Bool.and_eq_true]
  exact ⟨⟨⟨hb, hnd⟩, hhead⟩, hsegs⟩

theorem goodFastExit (p : List Nat) (ht : hasTrigger 0 p = false)
    (h47 : ∀ t, p ≠ 47 :: t) (h4647 : ∀ t, p ≠ 46 :: 47 :: t) (hp : p ≠ [46]) :
    goodPath p = true := by
  have hb := hasTrigger_bytes p 0 ht
  have hnd := hasTrigger_noDouble p 0 ht
  have hhead : (!(p.head? == some 47)) = true := by
    cases p with
    | nil => rfl
    | cons c r =>
      have : c ≠ 47 := fun he => h47 r (by rw [he])
      simp [this]
  have hsegs : ((splitSlash p).all fun sg => !(sg == [46]) && !(sg == [46, 46])) = true := by
    match p, ht, h47, h4647, hp with
    | [], _, _, _, _ => rfl
    | c0 :: p1, ht, h47, h4647, hp =>
      have hc0 : c0 ≠ 47 := fun he => h47 p1 (by rw [he])
      obtain ⟨a, rest, hsp⟩ := splitSlash_shape p1
      rw [splitSlash_cons c0 p1 a rest hsp, if_neg hc0]
      simp only [List.all_cons, Bool.and_eq_true]
      have htail : (rest.all fun sg => !(sg == [46]) && !(sg == [46, 46])) = true := by
        have := (segs_no_dots (c0 :: p1) 0 ht).1
        rw [splitSlash_cons c0 p1 a rest hsp, if_neg hc0] at this
        simpa using this
      refine ⟨?_, htail⟩
      by_cases hc46 : c0 = 46
      · subst hc46
        match p1, ht, h4647, hp, hsp with
        | [], _, _, hp, hsp => exact absurd rfl hp
        | c1 :: p2, ht, h4647, _, hsp =>
          have hc147 : c1 ≠ 47 := fun he => h4647 p2 (by rw [he])
          have hc146 : c1 ≠ 46 := by
            intro he
            have ht1 := hasTrigger_tail 46 (c1 :: p2) 0 ht
            have := trigger_elim c1 46 (trigger_false c1 46 p2 ht1)
            exact this.2.2.2.1 ⟨he, rfl⟩
          obtain ⟨a2, rest2, hsp2⟩ := splitSlash_shape p2
          rw [splitSlash_cons c1 p2 a2 rest2 hsp2, if_neg hc147] at hsp
          injection hsp with hh1 hh2
          rw [← hh1]
          simp only [Bool.and_eq_true, Bool.not_eq_true', beq_eq_false_iff_ne]
          constructor
          · intro he; injection he with he1 he2; injection he2
          · intro he; injection he with he1 he2; injection he2 with he2; exact hc146 he2
      · simp only [Bool.and_eq_true, Bool.not_eq_true', beq_eq_false_iff_ne]
        constructor
        · intro he; injection he with he1; exact hc46 he1
        · intro he; injection he with he1; exact hc46 he1
  simp only [goodPath, Bool.and_eq_true]
  exact ⟨⟨⟨hb, hnd⟩, hhead⟩, hsegs⟩

theorem normStr_good (p : List Nat) (hp : p ≠ [46]) : goodPath (normStr p) = true := by
  unfold normStr
  by_cases ht : hasTrigger 0 p = true
  · rw [if_pos ht]
    exact normalizeAlloc_good p
  · have ht' : hasTrigger 0 p = false := by simpa using ht
    rw [if_neg (by simp [ht'])]
    rcases fastChar p ht' with ⟨t, hpe, hres, htt⟩ | ⟨t, hpe, hres, htt⟩ | ⟨hres, hs1, hs2⟩
    · rw [hres]; exact goodFast47 t htt
    · rw [hres]; exact goodFast47 t htt
    · rw [hres]; exact goodFastExit p ht' hs1 hs2 hp

theorem join_not_dotslash (stack : List (List Nat))
    (hgood : ∀ sg ∈ stack, goodSeg sg = true) :
    (∀ t, joinSlash stack ≠ 46 :: 47 :: t) ∧
      (∀ t, joinSlash stack ≠ 46 :: 46 :: 47 :: t) := by
  cases stack with
  | nil => exact ⟨by simp [joinSlash], by simp [joinSlash]⟩
  | cons sg rest =>
    have hsg := hgood sg (by simp)
    have h47 := goodSeg_47free sg hsg
    simp only [goodSeg, Bool.and_eq_true] at hsg
    have hne : sg ≠ [] := by simpa using hsg.1.1.1
    have hne46 : sg ≠ [46] := by simpa using hsg.1.1.2
    have hne4646 : sg ≠ [46, 46] := by simpa using hsg.1.2
    have hjoin : joinSlash (sg :: rest) = sg ++ (if rest = [] then [] else 47 :: joinSlash rest) := by
      cases rest with
      | nil => simp [joinSlash]
      | cons b bs => rfl
    match sg, hne, hne46, hne4646, h47 with
    | [c0], _, hne46, _, h47 =>
      have hc046 : c0 ≠ 46 := fun he => hne46 (by rw [he])
      constructor
      · intro t he
        rw [hjoin] at he
        by_cases hr : rest = []
        · rw [if_pos hr] at he
          simp only [List.append_nil] at he
          injection he with h1 h2
          exact hc046 h1
        · rw [if_neg hr] at he
          simp only [List.cons_append, List.nil_append] at he
          injection he with h1 h2
          exact hc046 h1
      · intro t he
        rw [hjoin] at he
        by_cases hr : rest = []
        · rw [if_pos hr] at he
          simp only [List.append_nil] at he
          injection he with h1 h2
          exact (by injection h2 : False)
        · rw [if_neg hr] at he
          simp only [List.cons_append, List.nil_append] at he
          injection he with h1 h2
          injection h2 with h2 h3
          exact absurd h2 (by omega)
    | c0 :: c1 :: sg2, _, _, hne4646, h47 =>
      have hc147 : c1 ≠ 47 := by
        have := List.all_eq_true.mp h47 c1 (by simp)
        simpa using this
      constructor <;> intro t he <;> rw [hjoin] at he <;>
        simp only [List.cons_append] at he
      · injection he with h1 h2
        injection h2 with h2 h3
        exact hc147 h2
      · injection he with h1 h2
        injection h2 with h2 h3
        subst h1 h2
        match sg2, hne4646, h47, h3 with
        | [], hne4646, _, _ => exact hne4646 rfl
        | d :: sg3, _, h47, h3 =>
          have : d ≠ 47 := by
            have := List.all_eq_true.mp h47 d (by simp)
            simpa using this
          simp only [List.cons_append] at h3
          injection h3 with h4 h5
          exact this h4

theorem normStr_fixpoint (p : List Nat) : normStr (normStr p) = normStr p := by
  by_cases ht : hasTrigger 0 p = true
  · obtain ⟨stack, hgood, heq⟩ := normalizeAlloc_stack p
    have ho : normStr p = joinSlash stack := by
      unfold normStr; rw [if_pos ht, heq]
    rw [ho]
    unfold normStr
    by_cases ht2 : hasTrigger 0 (joinSlash stack) = true
    · rw [if_pos ht2]
      exact allocFixpoint stack hgood
    · rw [if_neg (by simpa using ht2)]
      have hshape := join_not_dotslash stack hgood
      refine fastExit _ _ ?_ hshape.1 hshape.2
      intro t he
      have := joinSlash_head stack hgood
      rw [he] at this
      simp at this
  · have ht' : hasTrigger 0 p = false := by simpa using ht
    have ho : normStr p = fastLoop p.length p := by
      unfold normStr; rw [if_neg (by simp [ht'])]
    rcases fastChar p ht' with ⟨t, hpe, hres, htt⟩ | ⟨t, hpe, hres, htt⟩ | ⟨hres, hs1, hs2⟩
    · rw [ho, hres]
      have htt0 : hasTrigger 0 t = false := hasTrigger_relax t 47 htt
      unfold normStr
      rw [if_neg (by simp [htt0])]
      exact fastExit _ _ (head_ne_47 t htt)
        (fun u => head_ne_46 t htt (47 :: u))
        (fun u => head_ne_46 t htt (46 :: 47 :: u))
    · rw [ho, hres]
      have htt0 : hasTrigger 0 t = false := hasTrigger_relax t 47 htt
      unfold normStr
      rw [if_neg (by simp [htt0])]
      exact fastExit _ _ (head_ne_47 t htt)
        (fun u => head_ne_46 t htt (47 :: u))
        (fun u => head_ne_46 t htt (46 :: 47 :: u))
    · rw [ho, hres]
      unfold normStr
      rw [if_neg (by simp [ht'])]
      exact hres

/-- A UTF-8 continuation byte. -/
def utf8Cont (c : Nat) : Bool := 0x80 ≤ c && c ≤ 0xBF

/-- RFC 3629 validity, the acceptance condition of `std::str::from_utf8`
(which `normalize` applies before normalizing). -/
def utf8Valid : List Nat → Bool
  | [] => true
  | b :: r =>
    if b ≤ 0x7F then utf8Valid r
    else if 0xC2 ≤ b ∧ b ≤ 0xDF then
      match r with
      | c :: r2 => utf8Cont c && utf8Valid r2
      | [] => false
    else if b = 0xE0 then
      match r with
      | c :: d :: r2 => (0xA0 ≤ c && c ≤ 0xBF) && utf8Cont d && utf8Valid r2
      | _ => false
    else if (0xE1 ≤ b ∧ b ≤ 0xEC) ∨ b = 0xEE ∨ b = 0xEF then
      match r with
      | c :: d :: r2 => utf8Cont c && utf8Cont d && utf8Valid r2
      | _ => false
    else if b = 0xED then
      match r with
      | c :: d :: r2 => (0x80 ≤ c && c ≤ 0x9F) && utf8Cont d && utf8Valid r2
      | _ => false
    else if b = 0xF0 then
      match r with
      | c :: d :: e :: r2 => (0x90 ≤ c && c ≤ 0xBF) && utf8Cont d && utf8Cont e && utf8Valid r2
      | _ => false
    else if 0xF1 ≤ b ∧ b ≤ 0xF3 then
      match r with
      | c :: d :: e :: r2 => utf8Cont c && utf8Cont d && utf8Cont e && utf8Valid r2
      | _ => false
    else if b = 0xF4 then
      match r with
      | c :: d :: e :: r2 => (0x80 ≤ c && c ≤ 0x8F) && utf8Cont d && utf8Cont e && utf8Valid r2
      | _ => false
    else false


/-- Model of `ZipFilePath::normalize` on the raw name bytes: validate UTF-8,
then normalize. -/
def normalize (p : List Nat) : Except ErrKind (List Nat) :=
  if utf8Valid p then .ok (normStr p) else .error .invalidUtf8

/-- C3 (amended): invalid UTF-8 fails with `InvalidUtf8`; a valid name
normalizes to a path with no backslash, no colon, no double slash, no leading
slash and no `.` or `..` segment, except that the one-byte input `"."`
normalizes to itself; normalization is idempotent; `a/b/c/../../x` becomes
`a/x`; `/` becomes the empty path. -/
theorem normalize_spec (p : List Nat) :
    (utf8Valid p = false → normalize p = .error .invalidUtf8) ∧
    (utf8Valid p = true → normalize p = .ok (normStr p)) ∧
    (p ≠ [46] → goodPath (normStr p) = true) ∧
    normStr (normStr p) = normStr p ∧
    normStr [97, 47, 98, 47, 99, 47, 46, 46, 47, 46, 46, 47, 120] = [97, 47, 120] ∧
    normStr [47] = [] := by
  refine ⟨?_, ?_, normStr_good p, normStr_fixpoint p, by decide, by decide⟩
  · intro h
    simp [normalize, h]
  · intro h
    simp [normalize, h]

/-- Witness for C3: the traversal example normalizes as claimed. -/
theorem normalize_spec_witness :
    utf8Valid [97, 47, 98, 47, 99, 47, 46, 46, 47, 46, 46, 47, 120] = true ∧
    normalize [97, 47, 98, 47, 99, 47, 46, 46, 47, 46, 46, 47, 120] = .ok [97, 47, 120] := by
  have h := normalize_spec [97, 47, 98, 47, 99, 47, 46, 46, 47, 46, 46, 47, 120]
  refine ⟨by decide, ?_⟩
  rw [h.2.1 (by decide), h.2.2.2.2.1]

/-- C3 counterexample to the unamended claim: the input `"."` is valid UTF-8
and passes through the fast path unchanged, so the normalized output is the
path segment `"."` itself. -/
theorem normalize_counterexample :
    normalize [46] = .ok [46] ∧ splitSlash [46] = [[46]] ∧ goodPath [46] = false := by
  refine ⟨by decide, by decide, by decide⟩


/-!
## C4: reader-based vs slice-based EOCD locator (locator.rs)

The slice-based locator `find_end_of_central_dir_signature` is `findEocdSig`
above. The reader-based locator `find_end_of_central_dir` reads the stream
backwards in buffer-sized chunks, carrying up to three potential signature
bytes across each read boundary; `findEocdLoop` and `findEocd` model it, and
`findEocdLoop_spec` is the loop invariant proof that the scan reports exactly
the last signature position in the search window.
-/

theorem revRange_find_some (N : Nat) (p : Nat → Bool) (i : Nat) :
    (List.range N).reverse.find? p = some i ↔
      (i < N ∧ p i = true ∧ ∀ j, i < j → j < N → p j = false) := by
  induction N with
  | zero => simp
  | succ n ih =>
    rw [List.range_succ, List.reverse_append]
    simp only [List.reverse_singleton, List.singleton_append]
    by_cases hp : p n = true
    · rw [List.find?_cons_of_pos _ hp]
      simp only [Option.some.injEq]
      constructor
      · rintro rfl
        exact ⟨by omega, hp, fun j h1 h2 => by omega⟩
      · rintro ⟨h1, h2, h3⟩
        have : i = n := by
          by_contra hne
          have hi : i < n := by omega
          have := h3 n hi (by omega)
          rw [hp] at this
          simp at this
        rw [this]
    · have hp' : p n = false := by simpa using hp
      rw [List.find?_cons_of_neg _ (by simp [hp'])]
      rw [ih]
      constructor
      · rintro ⟨h1, h2, h3⟩
        refine ⟨by omega, h2, fun j hj1 hj2 => ?_⟩
        rcases Nat.lt_or_ge j n with h | h
        · exact h3 j hj1 h
        · have : j = n := by omega
          rw [this]; exact hp'
      · rintro ⟨h1, h2, h3⟩
        have hi : i ≠ n := by
          rintro rfl
          rw [h2] at hp'
          exact absurd hp' (by simp)
        exact ⟨by omega, h2, fun j hj1 hj2 => h3 j hj1 (by omega)⟩

theorem revRange_find_none (N : Nat) (p : Nat → Bool) :
    (List.range N).reverse.find? p = none ↔ ∀ j, j < N → p j = false := by
  rw [List.find?_eq_none]
  constructor
  · intro h j hj
    have := h j (by simp [List.mem_reverse, List.mem_range, hj])
    simpa using this
  · intro h x hx
    simp only [List.mem_reverse, List.mem_range] at hx
    simp [h x hx]

theorem backwardsFind_some (h n : List Nat) (i : Nat) (hn : n ≠ []) :
    backwardsFind h n = some i ↔
      (i + n.length ≤ h.length ∧ sliceBytes h i (i + n.length) = n ∧
        ∀ j, i < j → j + n.length ≤ h.length → sliceBytes h j (j + n.length) ≠ n) := by
  unfold backwardsFind
  rw [revRange_find_some]
  have hn1 : 1 ≤ n.length := by
    cases n with
    | nil => exact absurd rfl hn
    | cons a b => simp
  constructor
  · rintro ⟨h1, h2, h3⟩
    refine ⟨by omega, by simpa using h2, fun j hj1 hj2 => ?_⟩
    have := h3 j hj1 (by omega)
    simpa using this
  · rintro ⟨h1, h2, h3⟩
    refine ⟨by omega, by simpa using h2, fun j hj1 hj2 => ?_⟩
    have := h3 j hj1 (by omega)
    simpa using this

theorem backwardsFind_none (h n : List Nat) (hn : n ≠ []) :
    backwardsFind h n = none ↔
      ∀ j, j + n.length ≤ h.length → sliceBytes h j (j + n.length) ≠ n := by
  unfold backwardsFind
  rw [revRange_find_none]
  have hn1 : 1 ≤ n.length := by
    cases n with
    | nil => exact absurd rfl hn
    | cons a b => simp
  constructor
  · intro h1 j hj
    have := h1 j (by omega)
    simpa using this
  · intro h1 j hj
    have := h1 j (by omega)
    simpa using this

/-- Carry computation of `find_end_of_central_dir` (locator.rs): the length of
the longest proper prefix of the EOCD signature that appears, reversed in byte
order, at the front of the buffer just scanned; those bytes are copied in front
of the next (earlier) read so a signature straddling a read boundary is found.
The Rust code tests `buffer[..3] == [0x4B, 0x05, 0x06]`, then
`buffer[..2] == [0x05, 0x06]`, then `buffer[0] == 0x06`. -/
def carryOf (buffer : List Nat) : Nat :=
  if buffer.getD 0 0 = 0x4B ∧ buffer.getD 1 0 = 0x05 ∧ buffer.getD 2 0 = 0x06 then 3
  else if buffer.getD 0 0 = 0x05 ∧ buffer.getD 1 0 = 0x06 then 2
  else if buffer.getD 0 0 = 0x06 then 1
  else 0

/-- One backward-scan state machine step of `find_end_of_central_dir`
(locator.rs), fueled. Arguments after `maxBack`: fuel, then the current
`offset`, the bytes still `remaining` before `max_back_offset`, the current
`carry`, and the buffer contents. Mirrors the `loop` body: read
`min (B - carry) remaining` bytes ending at `offset` into the front of the
buffer, search the read bytes plus the carried bytes backwards for the
signature, and on failure carry up to three potential signature bytes to the
front before the next iteration. On success it returns the stream position of
the signature together with the in-buffer index and haystack length. -/
def findEocdLoop (D : List Nat) (B maxBack : Nat) :
    Nat → Nat → Nat → Nat → List Nat → Option (Nat × Nat × Nat)
  | 0, _, _, _, _ => none
  | fuel + 1, offset, remaining, carry, buffer =>
    let readSize := min (B - carry) remaining
    let offset2 := offset - readSize
    let buffer2 := sliceBytes D offset2 (offset2 + readSize) ++ buffer.drop readSize
    let remaining2 := remaining - readSize
    let haystack := buffer2.take (readSize + carry)
    match backwardsFind haystack eocdSigBytes with
    | some i => some (maxBack + remaining2 + i, i, readSize + carry)
    | none =>
      if remaining2 = 0 then none
      else
        let carry2 := carryOf buffer2
        let buffer3 :=
          if 0 < carry2 then
            let dest := min (B - carry2) remaining2
            buffer2.take dest ++ buffer2.take carry2 ++ buffer2.drop (dest + carry2)
          else buffer2
        findEocdLoop D B maxBack fuel offset2 remaining2 carry2 buffer3

/-- Model of `find_end_of_central_dir` (locator.rs) for a reader over bytes
`D`: returns `none` when the buffer holds fewer than 4 bytes (the Rust code
debug-asserts and reports not found) and otherwise runs the backward scan from
`endOffset` down to `endOffset - maxSearchSpace`. Fuel `remaining + 1` is
enough since every iteration with a nonzero read strictly decreases
`remaining`. -/
def findEocd (D buffer : List Nat) (maxSearchSpace endOffset : Nat) :
    Option (Nat × Nat × Nat) :=
  if buffer.length < 4 then none
  else
    let maxBack := endOffset - maxSearchSpace
    findEocdLoop D buffer.length maxBack (endOffset - maxBack + 1) endOffset
      (endOffset - maxBack) 0 buffer

theorem sliceBytes_length (l : List Nat) (a b : Nat) :
    (sliceBytes l a b).length = min (b - a) (l.length - a) := by
  simp [sliceBytes]

theorem sliceBytes_nil (l : List Nat) (a : Nat) : sliceBytes l a a = [] := by
  simp [sliceBytes]

theorem sliceBytes_append47 (l : List Nat) (a b c : Nat) (hab : a ≤ b) (hbc : b ≤ c) :
    sliceBytes l a b ++ sliceBytes l b c = sliceBytes l a c := by
  unfold sliceBytes
  have hb : l.drop b = (l.drop a).drop (b - a) := by
    rw [List.drop_drop]
    congr 1
    omega
  rw [hb]
  rw [show c - a = (b - a) + (c - b) by omega, List.take_add]

theorem sliceBytes_sliceBytes47 (l : List Nat) (a b c e : Nat) (hce : c ≤ e) (hb : a + e ≤ b) :
    sliceBytes (sliceBytes l a b) c e = sliceBytes l (a + c) (a + e) := by
  unfold sliceBytes
  rw [List.drop_take, List.drop_drop, List.take_take]
  congr 1
  omega

theorem sliceBytes_getD (l : List Nat) (a b i : Nat) (h : a + i < b) :
    (sliceBytes l a b).getD i 0 = l.getD (a + i) 0 := by
  unfold sliceBytes
  rw [List.getD_eq_getElem?_getD, List.getD_eq_getElem?_getD]
  rw [List.getElem?_take_of_lt (by omega), List.getElem?_drop]

theorem window4 (l : List Nat) (a : Nat) (h4 : a + 4 ≤ l.length) :
    sliceBytes l a (a + 4) =
      [l.getD a 0, l.getD (a + 1) 0, l.getD (a + 2) 0, l.getD (a + 3) 0] := by
  have h0 : l.drop a = l.getD a 0 :: l.drop (a + 1) := by
    rw [List.getD_eq_getElem l 0 (by omega)]
    exact List.drop_eq_getElem_cons (by omega)
  have h1 : l.drop (a + 1) = l.getD (a + 1) 0 :: l.drop (a + 2) := by
    rw [List.getD_eq_getElem l 0 (by omega)]
    exact List.drop_eq_getElem_cons (by omega)
  have h2 : l.drop (a + 2) = l.getD (a + 2) 0 :: l.drop (a + 3) := by
    rw [List.getD_eq_getElem l 0 (by omega)]
    exact List.drop_eq_getElem_cons (by omega)
  have h3 : l.drop (a + 3) = l.getD (a + 3) 0 :: l.drop (a + 4) := by
    rw [List.getD_eq_getElem l 0 (by omega)]
    exact List.drop_eq_getElem_cons (by omega)
  unfold sliceBytes
  rw [show a + 4 - a = 4 from by omega, h0, h1, h2, h3]
  rfl

theorem sliceBytes_zero (l : List Nat) (a b : Nat) (h : b ≤ a) : sliceBytes l a b = [] := by
  unfold sliceBytes
  rw [show b - a = 0 from by omega]
  simp

theorem slice_mid (A B2 C : List Nat) (dst c2 : Nat) (hA : A.length = dst)
    (hB : B2.length = c2) : sliceBytes (A ++ B2 ++ C) dst (dst + c2) = B2 := by
  unfold sliceBytes
  rw [List.append_assoc, List.drop_left' hA, show dst + c2 - dst = c2 from by omega,
    List.take_left' hB]

theorem carryOf_le (b : List Nat) : carryOf b ≤ 3 := by
  unfold carryOf
  repeat' split
  all_goals omega

theorem carryOf_ge1 (b : List Nat) (h : b.getD 0 0 = 0x06) : 1 ≤ carryOf b := by
  unfold carryOf
  repeat' split
  all_goals omega

theorem carryOf_ge2 (b : List Nat) (h0 : b.getD 0 0 = 0x05) (h1 : b.getD 1 0 = 0x06) :
    2 ≤ carryOf b := by
  unfold carryOf
  repeat' split
  all_goals omega

theorem carryOf_eq3 (b : List Nat) (h0 : b.getD 0 0 = 0x4B) (h1 : b.getD 1 0 = 0x05)
    (h2 : b.getD 2 0 = 0x06) : carryOf b = 3 := by
  unfold carryOf
  repeat' split
  all_goals omega

theorem sliceBytes_drop_win (D : List Nat) (m j e : Nat) :
    sliceBytes (D.drop m) j e = sliceBytes D (m + j) (m + e) := by
  unfold sliceBytes
  rw [List.drop_drop]
  congr 1
  all_goals omega

theorem sliceEq_of_eq (D : List Nat) (a b a2 b2 : Nat) (ha : a = a2) (hb : b = b2) :
    sliceBytes D a b = sliceBytes D a2 b2 := by
  rw [ha, hb]

theorem bfDrop_some_iff (D : List Nat) (maxBack k : Nat) (hmb : maxBack ≤ D.length) :
    (backwardsFind (D.drop maxBack) eocdSigBytes).map (· + maxBack) = some k ↔
      (maxBack ≤ k ∧ k + 4 ≤ D.length ∧ sliceBytes D k (k + 4) = eocdSigBytes ∧
        ∀ j, k < j → j + 4 ≤ D.length → sliceBytes D j (j + 4) ≠ eocdSigBytes) := by
  have hsigne : eocdSigBytes ≠ [] := by simp [eocdSigBytes]
  constructor
  · intro h
    obtain ⟨i, hbf, hik⟩ : ∃ i, backwardsFind (D.drop maxBack) eocdSigBytes = some i ∧
        i + maxBack = k := by
      cases hb : backwardsFind (D.drop maxBack) eocdSigBytes with
      | none => rw [hb] at h; simp at h
      | some i =>
        rw [hb] at h
        simp only [Option.map_some', Option.some.injEq] at h
        exact ⟨i, rfl, h⟩
    subst hik
    rw [backwardsFind_some _ _ _ hsigne] at hbf
    obtain ⟨hle, hmatch, hlast⟩ := hbf
    simp only [List.length_drop, show eocdSigBytes.length = 4 from rfl] at hle hmatch hlast
    rw [sliceBytes_drop_win] at hmatch
    refine ⟨by omega, by omega, ?_, ?_⟩
    · rw [sliceEq_of_eq D (i + maxBack) (i + maxBack + 4) (maxBack + i) (maxBack + (i + 4))
        (by omega) (by omega)]
      exact hmatch
    · intro j hj1 hj2 heq
      have h2 := hlast (j - maxBack) (by omega) (by omega)
      rw [sliceBytes_drop_win] at h2
      rw [sliceEq_of_eq D j (j + 4) (maxBack + (j - maxBack)) (maxBack + (j - maxBack + 4))
        (by omega) (by omega)] at heq
      exact h2 heq
  · rintro ⟨h1, h2, h3, h4⟩
    have hbf : backwardsFind (D.drop maxBack) eocdSigBytes = some (k - maxBack) := by
      rw [backwardsFind_some _ _ _ hsigne]
      simp only [List.length_drop, show eocdSigBytes.length = 4 from rfl]
      refine ⟨by omega, ?_, ?_⟩
      · rw [sliceBytes_drop_win]
        rw [sliceEq_of_eq D (maxBack + (k - maxBack)) (maxBack + (k - maxBack + 4)) k (k + 4)
          (by omega) (by omega)]
        exact h3
      · intro j hj1 hj2 heq
        rw [sliceBytes_drop_win] at heq
        exact h4 (maxBack + j) (by omega) (by omega) heq
    rw [hbf]
    simp only [Option.map_some', Option.some.injEq]
    omega

theorem bfDrop_none_iff (D : List Nat) (maxBack : Nat) (hmb : maxBack ≤ D.length) :
    (backwardsFind (D.drop maxBack) eocdSigBytes).map (· + maxBack) = none ↔
      ∀ j, maxBack ≤ j → j + 4 ≤ D.length → sliceBytes D j (j + 4) ≠ eocdSigBytes := by
  have hsigne : eocdSigBytes ≠ [] := by simp [eocdSigBytes]
  cases hb : backwardsFind (D.drop maxBack) eocdSigBytes with
  | some i =>
    simp only [Option.map_some']
    constructor
    · intro h
      simp at h
    · intro h
      exfalso
      rw [backwardsFind_some _ _ _ hsigne] at hb
      obtain ⟨hle, hmatch, _⟩ := hb
      simp only [List.length_drop, show eocdSigBytes.length = 4 from rfl] at hle hmatch
      rw [sliceBytes_drop_win] at hmatch
      exact h (maxBack + i) (by omega) (by omega)
        (by
          rw [sliceEq_of_eq D (maxBack + i) (maxBack + i + 4) (maxBack + i)
            (maxBack + (i + 4)) rfl (by omega)]
          exact hmatch)
  | none =>
    simp only [Option.map_none']
    constructor
    · intro _ j hj1 hj2 heq
      rw [backwardsFind_none _ _ hsigne] at hb
      have h2 := hb (j - maxBack) (by
        simp only [List.length_drop, show eocdSigBytes.length = 4 from rfl]
        omega)
      rw [show eocdSigBytes.length = 4 from rfl, sliceBytes_drop_win] at h2
      rw [sliceEq_of_eq D j (j + 4) (maxBack + (j - maxBack)) (maxBack + (j - maxBack + 4))
        (by omega) (by omega)] at heq
      exact h2 heq
    · intro _
      trivial

theorem findEocdLoop_spec (D : List Nat) (B maxBack : Nat) (hB : 4 ≤ B) :
    ∀ fuel remaining offset carry buffer,
    remaining < fuel →
    offset = maxBack + remaining →
    carry ≤ 3 →
    buffer.length = B →
    offset + carry ≤ D.length →
    sliceBytes buffer (min (B - carry) remaining) (min (B - carry) remaining + carry) =
      sliceBytes D offset (offset + carry) →
    (∀ k, k + 4 ≤ D.length → offset + carry ≤ k + 3 →
      sliceBytes D k (k + 4) ≠ eocdSigBytes) →
    (findEocdLoop D B maxBack fuel offset remaining carry buffer).map (fun r => r.1) =
      (backwardsFind (D.drop maxBack) eocdSigBytes).map (· + maxBack) := by
  intro fuel
  induction fuel with
  | zero =>
    intro remaining offset carry buffer hfuel
    omega
  | succ fuel ih =>
    intro remaining offset carry buffer hfuel hoff hcar hblen hend hcarb hnom
    have hsigne : eocdSigBytes ≠ [] := by simp [eocdSigBytes]
    have hmb : maxBack ≤ D.length := by omega
    obtain ⟨rs, hrs⟩ : ∃ x, min (B - carry) remaining = x := ⟨_, rfl⟩
    rw [hrs] at hcarb
    have hoffrs : offset - rs + rs = offset := by omega
    have hDlen : offset ≤ D.length := by omega
    have htake : (buffer.drop rs).take carry = sliceBytes buffer rs (rs + carry) := by
      unfold sliceBytes
      congr 1
      omega
    have hhay : (sliceBytes D (offset - rs) (offset - rs + rs) ++ buffer.drop rs).take
        (rs + carry) = sliceBytes D (offset - rs) (offset + carry) := by
      rw [hoffrs]
      have hlen1 : (sliceBytes D (offset - rs) offset).length = rs := by
        rw [sliceBytes_length]
        omega
      rw [List.take_append_eq_append_take, hlen1,
        List.take_of_length_le (by rw [hlen1]; omega),
        show rs + carry - rs = carry from by omega, htake, hcarb]
      exact sliceBytes_append47 D (offset - rs) offset (offset + carry) (by omega) (by omega)
    have hhaylen : (sliceBytes D (offset - rs) (offset + carry)).length = rs + carry := by
      rw [sliceBytes_length]
      omega
    simp only [findEocdLoop, hrs]
    rw [hhay]
    cases hbf : backwardsFind (sliceBytes D (offset - rs) (offset + carry)) eocdSigBytes with
    | some i =>
      simp only [Option.map_some']
      rw [backwardsFind_some _ _ _ hsigne] at hbf
      rw [show eocdSigBytes.length = 4 from rfl, hhaylen] at hbf
      obtain ⟨hile, himatch, hilast⟩ := hbf
      rw [sliceBytes_sliceBytes47 D (offset - rs) (offset + carry) i (i + 4) (by omega)
        (by omega)] at himatch
      symm
      rw [bfDrop_some_iff D maxBack _ hmb]
      refine ⟨by omega, by omega, ?_, ?_⟩
      · rw [sliceEq_of_eq D (maxBack + (remaining - rs) + i) (maxBack + (remaining - rs) + i + 4)
          (offset - rs + i) (offset - rs + (i + 4)) (by omega) (by omega)]
        exact himatch
      · intro j hj1 hj2 heq
        rcases Nat.lt_or_ge (j + 3) (offset + carry) with hjc | hjc
        · have h2 := hilast (j - (offset - rs)) (by omega) (by omega)
          rw [sliceBytes_sliceBytes47 D (offset - rs) (offset + carry) (j - (offset - rs))
            (j - (offset - rs) + 4) (by omega) (by omega)] at h2
          rw [sliceEq_of_eq D j (j + 4) (offset - rs + (j - (offset - rs)))
            (offset - rs + (j - (offset - rs) + 4)) (by omega) (by omega)] at heq
          exact h2 heq
        · exact hnom j hj2 (by omega) heq
    | none =>
      have hhaynone := hbf
      rw [backwardsFind_none _ _ hsigne] at hhaynone
      rw [show eocdSigBytes.length = 4 from rfl, hhaylen] at hhaynone
      by_cases hrem0 : remaining - rs = 0
      · rw [if_pos hrem0]
        simp only [Option.map_none']
        symm
        rw [bfDrop_none_iff D maxBack hmb]
        intro j hj1 hj2 heq
        rcases Nat.lt_or_ge (j + 3) (offset + carry) with hjc | hjc
        · have h2 := hhaynone (j - (offset - rs)) (by omega)
          rw [sliceBytes_sliceBytes47 D (offset - rs) (offset + carry) (j - (offset - rs))
            (j - (offset - rs) + 4) (by omega) (by omega)] at h2
          rw [sliceEq_of_eq D j (j + 4) (offset - rs + (j - (offset - rs)))
            (offset - rs + (j - (offset - rs) + 4)) (by omega) (by omega)] at heq
          exact h2 heq
        · exact hnom j hj2 (by omega) heq
      · rw [if_neg hrem0]
        have hrs1 : 1 ≤ rs := by omega
        have hfull : rs + carry = B := by omega
        have hbuf2len : (sliceBytes D (offset - rs) (offset - rs + rs) ++
            buffer.drop rs).length = B := by
          rw [List.length_append, sliceBytes_length, List.length_drop, hblen]
          omega
        have hbuf2eq : sliceBytes D (offset - rs) (offset - rs + rs) ++ buffer.drop rs =
            sliceBytes D (offset - rs) (offset + carry) := by
          have h1 : sliceBytes D (offset - rs) (offset - rs + rs) ++ buffer.drop rs =
              (sliceBytes D (offset - rs) (offset - rs + rs) ++ buffer.drop rs).take B := by
            rw [List.take_of_length_le (by rw [hbuf2len])]
          rw [h1, ← hfull, hhay]
        obtain ⟨c2, hc2⟩ : ∃ x, carryOf (sliceBytes D (offset - rs) (offset - rs + rs) ++
            buffer.drop rs) = x := ⟨_, rfl⟩
        have hc2le : c2 ≤ 3 := by rw [← hc2]; exact carryOf_le _
        have hgetD : ∀ m, m < 3 →
            (sliceBytes D (offset - rs) (offset - rs + rs) ++ buffer.drop rs).getD m 0 =
              D.getD (offset - rs + m) 0 := by
          intro m hm
          rw [hbuf2eq]
          exact sliceBytes_getD D (offset - rs) (offset + carry) m (by omega)
        rw [hc2]
        rw [hbuf2eq]
        have hdest : min (B - c2) (remaining - rs) = min (B - c2) (remaining - rs) := rfl
        -- invariant facts for the recursive call
        have hnom2 : ∀ k, k + 4 ≤ D.length → offset - rs + c2 ≤ k + 3 →
            sliceBytes D k (k + 4) ≠ eocdSigBytes := by
          intro k h4 hup heq
          rcases Nat.lt_or_ge (k + 3) (offset + carry) with hkc | hkc
          · rcases Nat.lt_or_ge k (offset - rs) with hklo | hklo
            · -- straddling window: excluded by the carry computation
              have hj : offset - rs - k ≤ 3 - c2 := by omega
              have hj1 : 1 ≤ offset - rs - k := by omega
              rw [window4 D k (by omega)] at heq
              simp only [eocdSigBytes, List.cons.injEq] at heq
              obtain ⟨e0, e1, e2, ⟨e3, _⟩⟩ := heq
              rcases show offset - rs - k = 1 ∨ offset - rs - k = 2 ∨ offset - rs - k = 3
                  from by omega with hcase | hcase | hcase
              · have g1 : D.getD (offset - rs) 0 = 0x4B := by
                  rw [show offset - rs = k + 1 from by omega]; omega
                have g2 : D.getD (offset - rs + 1) 0 = 0x05 := by
                  rw [show offset - rs + 1 = k + 2 from by omega]; omega
                have g3 : D.getD (offset - rs + 2) 0 = 0x06 := by
                  rw [show offset - rs + 2 = k + 3 from by omega]; omega
                have := carryOf_eq3 (sliceBytes D (offset - rs) (offset - rs + rs) ++
                    buffer.drop rs) (by rw [hgetD 0 (by omega)]; simpa using g1)
                  (by rw [hgetD 1 (by omega)]; exact g2) (by rw [hgetD 2 (by omega)]; exact g3)
                omega
              · have g1 : D.getD (offset - rs) 0 = 0x05 := by
                  rw [show offset - rs = k + 2 from by omega]; omega
                have g2 : D.getD (offset - rs + 1) 0 = 0x06 := by
                  rw [show offset - rs + 1 = k + 3 from by omega]; omega
                have := carryOf_ge2 (sliceBytes D (offset - rs) (offset - rs + rs) ++
                    buffer.drop rs) (by rw [hgetD 0 (by omega)]; exact g1)
                  (by rw [hgetD 1 (by omega)]; exact g2)
                omega
              · have g1 : D.getD (offset - rs) 0 = 0x06 := by
                  rw [show offset - rs = k + 3 from by omega]; omega
                have := carryOf_ge1 (sliceBytes D (offset - rs) (offset - rs + rs) ++
                    buffer.drop rs) (by rw [hgetD 0 (by omega)]; exact g1)
                omega
            · have h2 := hhaynone (k - (offset - rs)) (by omega)
              rw [sliceBytes_sliceBytes47 D (offset - rs) (offset + carry) (k - (offset - rs))
                (k - (offset - rs) + 4) (by omega) (by omega)] at h2
              rw [sliceEq_of_eq D k (k + 4) (offset - rs + (k - (offset - rs)))
                (offset - rs + (k - (offset - rs) + 4)) (by omega) (by omega)] at heq
              exact h2 heq
          · exact hnom k h4 (by omega) heq
        have hcarb2 : ∀ buf3 : List Nat,
            sliceBytes buf3 (min (B - c2) (remaining - rs))
              (min (B - c2) (remaining - rs) + c2) =
              sliceBytes D (offset - rs) (offset - rs + c2) →
            buf3.length = B →
            (findEocdLoop D B maxBack fuel (offset - rs) (remaining - rs) c2 buf3).map
              (fun r => r.1) =
              (backwardsFind (D.drop maxBack) eocdSigBytes).map (· + maxBack) := by
          intro buf3 hslice hlen3
          exact ih (remaining - rs) (offset - rs) c2 buf3 (by omega) (by omega) hc2le hlen3
            (by omega) hslice hnom2
        by_cases hc2pos : 0 < c2
        · rw [if_pos hc2pos]
          apply hcarb2
          · obtain ⟨dst, hdst⟩ : ∃ x, min (B - c2) (remaining - rs) = x := ⟨_, rfl⟩
            rw [hdst]
            have hd1 : dst ≤ B - c2 := by omega
            have htk : (sliceBytes D (offset - rs) (offset + carry)).take c2 =
                sliceBytes D (offset - rs) (offset - rs + c2) := by
              have h0 : (sliceBytes D (offset - rs) (offset + carry)).take c2 =
                  sliceBytes (sliceBytes D (offset - rs) (offset + carry)) 0 c2 := by
                unfold sliceBytes
                simp
              rw [h0, sliceBytes_sliceBytes47 D (offset - rs) (offset + carry) 0 c2 (by omega)
                (by omega)]
              rw [sliceEq_of_eq D (offset - rs + 0) (offset - rs + c2) (offset - rs)
                (offset - rs + c2) (by omega) rfl]
            have hAlen : ((sliceBytes D (offset - rs) (offset + carry)).take dst).length =
                dst := by
              rw [List.length_take, hhaylen]
              omega
            have hB2len : ((sliceBytes D (offset - rs) (offset + carry)).take c2).length =
                c2 := by
              rw [List.length_take, hhaylen]
              omega
            rw [slice_mid ((sliceBytes D (offset - rs) (offset + carry)).take dst)
              ((sliceBytes D (offset - rs) (offset + carry)).take c2)
              ((sliceBytes D (offset - rs) (offset + carry)).drop (dst + c2)) dst c2
              hAlen hB2len, htk]
          · rw [List.length_append, List.length_append, List.length_take, List.length_take,
              List.length_drop, hhaylen]
            omega
        · rw [if_neg hc2pos]
          apply hcarb2
          · have hc20 : c2 = 0 := by omega
            rw [sliceBytes_zero _ _ _ (by omega), sliceBytes_zero _ _ _ (by omega)]
          · rw [hhaylen]
            omega


/-- C4: for every byte string `D`, every search bound `M`, and every backing
buffer of at least 4 bytes, the reader-based EOCD locator
`find_end_of_central_dir` invoked with `end_offset = D.length` returns the
same absolute position of the last EOCD signature within the search window as
the slice-based locator `find_end_of_central_dir_signature`, or both report
not found; in particular a signature straddling a read boundary of the
buffered backward scan is still found via the carry logic. -/
theorem findEocd_eq (D buffer : List Nat) (M : Nat) (hB : 4 ≤ buffer.length) :
    (findEocd D buffer M D.length).map (fun r => r.1) = findEocdSig D M := by
  unfold findEocd findEocdSig
  rw [if_neg (by omega)]
  exact findEocdLoop_spec D buffer.length (D.length - M) hB
    (D.length - (D.length - M) + 1) (D.length - (D.length - M)) D.length 0 buffer
    (by omega) (by omega) (by omega) rfl (by omega)
    (by rw [sliceBytes_zero _ _ _ (by omega), sliceBytes_zero _ _ _ (by omega)])
    (by intro k h1 h2; omega)

/-- Witness for C4 at a concrete input where the signature straddles a read
boundary: `D` has the signature at positions 3 to 6, the buffer holds 4 bytes,
so the first read covers positions 6 to 10 and only sees the final signature
byte `0x06`; the carry logic copies it in front of the second read and the
scan reports position 3, matching the slice-based locator. -/
theorem findEocd_eq_witness :
    4 ≤ ([0, 0, 0, 0] : List Nat).length ∧
    (findEocd [1, 2, 3, 0x50, 0x4B, 0x05, 0x06, 7, 8, 9] [0, 0, 0, 0] 10
        ([1, 2, 3, 0x50, 0x4B, 0x05, 0x06, 7, 8, 9] : List Nat).length).map
        (fun r => r.1) =
      findEocdSig [1, 2, 3, 0x50, 0x4B, 0x05, 0x06, 7, 8, 9] 10 ∧
    findEocdSig [1, 2, 3, 0x50, 0x4B, 0x05, 0x06, 7, 8, 9] 10 = some 3 :=
  ⟨by decide, findEocd_eq [1, 2, 3, 0x50, 0x4B, 0x05, 0x06, 7, 8, 9] [0, 0, 0, 0] 10
    (by decide), by decide⟩

end Rawzip
